import Mathlib

/-!
# Verification of the Hardy Cross pipe-network solver

Shallow embedding of `src/backend/main.py` (the `hardy-cross` repository).
Machine floats are idealised as exact rationals (`ℚ`); decimal literals such
as `1e-6` denote the exact rational they print as, and `math.pi` is embedded
as the exact binary64 value of the Python constant.

Python dictionaries are embedded as insertion-ordered association lists
(`aset` overwrites in place when the key exists and appends otherwise, which
is exactly CPython's dict semantics), Python lists as Lean lists, and Python
`while` loops as fuelled recursion with fuel provably sufficient.

The graph library calls (`networkx.Graph`, `is_connected`, `shortest_path`,
`cycle_basis`) are embedded after the networkx implementations: a simple
undirected graph with insertion-ordered adjacency, breadth-first search, and
Paton's spanning-tree cycle-basis algorithm.
-/

namespace HardyCross

/-! ## Association lists (CPython dict semantics) -/

/-- Lookup in an insertion-ordered association list (Python `d[k]` / `d.get(k)`). -/
def alookup {κ α : Type} [DecidableEq κ] : List (κ × α) → κ → Option α
  | [], _ => none
  | (k, v) :: rest, key => if k = key then some v else alookup rest key

/-- Update-or-append (Python `d[k] = v`): if the key is present its value is
overwritten in place (the key keeps its position), otherwise the binding is
appended, keeping insertion order. -/
def aset {κ α : Type} [DecidableEq κ] : List (κ × α) → κ → α → List (κ × α)
  | [], key, v => [(key, v)]
  | (k, w) :: rest, key, v =>
    if k = key then (k, v) :: rest else (k, w) :: aset rest key v

/-- The keys of an association list, in insertion order. -/
def akeys {κ α : Type} (l : List (κ × α)) : List κ := l.map Prod.fst

@[simp] theorem alookup_nil {κ α : Type} [DecidableEq κ] (k : κ) :
    alookup ([] : List (κ × α)) k = none := rfl

@[simp] theorem alookup_cons {κ α : Type} [DecidableEq κ] (k key : κ) (v : α) (rest) :
    alookup ((k, v) :: rest) key = if k = key then some v else alookup rest key := rfl

@[simp] theorem aset_nil {κ α : Type} [DecidableEq κ] (k : κ) (v : α) :
    aset ([] : List (κ × α)) k v = [(k, v)] := rfl

theorem alookup_aset {κ α : Type} [DecidableEq κ] (l : List (κ × α)) (k : κ) (v : α) :
    alookup (aset l k v) k = some v := by
  induction l with
  | nil => simp [aset]
  | cons hd tl ih =>
    obtain ⟨k', w⟩ := hd
    by_cases h : k' = k <;> simp [aset, h, ih]

theorem alookup_aset_ne {κ α : Type} [DecidableEq κ] (l : List (κ × α)) (k k' : κ) (v : α)
    (h : k ≠ k') : alookup (aset l k v) k' = alookup l k' := by
  induction l with
  | nil => simp [aset, h]
  | cons hd tl ih =>
    obtain ⟨k0, w⟩ := hd
    by_cases h0 : k0 = k
    · subst h0; simp [aset, h]
    · simp only [aset, if_neg h0, alookup_cons]
      by_cases h1 : k0 = k' <;> simp [h1, ih]

theorem akeys_aset {κ α : Type} [DecidableEq κ] (l : List (κ × α)) (k : κ) (v : α) :
    akeys (aset l k v) = if k ∈ akeys l then akeys l else akeys l ++ [k] := by
  induction l with
  | nil => simp [aset, akeys]
  | cons hd tl ih =>
    obtain ⟨k0, w⟩ := hd
    by_cases h0 : k0 = k
    · subst h0; simp [aset, akeys]
    · simp only [aset, if_neg h0, akeys, List.map_cons] at ih ⊢
      rw [ih]
      by_cases h1 : k ∈ List.map Prod.fst tl
      · simp [h1, List.mem_cons]
      · simp [h1, List.mem_cons, Ne.symm h0]

/-! ## Python numeric helpers -/

/-- Round half to even for rationals (CPython `round` on a float value,
idealised to exact arithmetic). -/
def roundHalfEven (q : ℚ) : ℤ :=
  let f : ℤ := ⌊q⌋
  let frac : ℚ := q - f
  if frac < 1/2 then f
  else if 1/2 < frac then f + 1
  else if 2 ∣ f then f else f + 1

/-- Python `round(x, nd)` (banker's rounding at `nd` decimal places). -/
def pyRound (q : ℚ) (nd : ℕ) : ℚ :=
  (roundHalfEven (q * (10 : ℚ) ^ nd) : ℚ) / (10 : ℚ) ^ nd

/-! ## Physical constants (`main.py` lines 18-21) -/

/-- `math.pi`: the exact value of the IEEE-754 binary64 constant. -/
def PI : ℚ := 884279719003555 / 281474976710656

def GRAVITY : ℚ := 981 / 100

def KINEMATIC_VISCOSITY : ℚ := 1e-6

/-! ## Data model (`PipeInput`, `NodeInput`, `NetworkInput`) -/

structure PipeInput where
  id : String
  start_node : String
  end_node : String
  length : Option ℚ := some 1
  diameter : Option ℚ := some 1
  roughness : Option ℚ := some (1/50)
  resistance_k : Option ℚ := none
  given_flow : Option ℚ := none
  given_head_loss : Option ℚ := none
deriving DecidableEq, Repr

structure NodeInput where
  id : String
  demand : Option ℚ := none
deriving DecidableEq, Repr

structure NetworkInput where
  method : String := "darcy"
  pipes : List PipeInput
  nodes : List NodeInput
deriving DecidableEq, Repr

/-- The demand of a node, with the darcy-mode `None → 0.0` fill applied. -/
def demandOf (n : NodeInput) : ℚ := n.demand.getD 0

/-! ## Validator (`validate_and_fix_network`, lines 45-79)

Note on object identity: Python mutates the `PipeInput` / `NodeInput`
*objects* in place.  Since `solve_network` passes `data.nodes.copy()` — a
shallow copy that shares the element objects — the lists returned here are
also exactly what the caller's own objects look like after the call. -/

/-- `if v is None or v <= 0: v = 1.0` for length and diameter. -/
def fixPositive (v : Option ℚ) : Option ℚ :=
  match v with
  | none => some 1
  | some x => if x ≤ 0 then some 1 else some x

/-- `if p.roughness is None or p.roughness <= 0: p.roughness = 0.02`. -/
def fixRoughness (v : Option ℚ) : Option ℚ :=
  match v with
  | none => some (1/50)
  | some x => if x ≤ 0 then some (1/50) else some x

/-- Per-pipe fixes applied by the validator (darcy defaults + id fill). -/
def fixPipe (method : String) (p : PipeInput) : PipeInput :=
  let p :=
    if method = "darcy" then
      { p with length := fixPositive p.length
               diameter := fixPositive p.diameter
               roughness := fixRoughness p.roughness }
    else p
  if p.id = "" then { p with id := p.start_node ++ "-" ++ p.end_node } else p

/-- `if n.demand is None: n.demand = 0.0` (darcy mode only). -/
def fillDemand (n : NodeInput) : NodeInput := { n with demand := some (demandOf n) }

/-- One comparison step of Python `max(xs, key=f)`: keep the incumbent on
ties (so the first maximum wins). -/
def pickMaxStep {α : Type} (f : α → ℚ) (best : Option (Nat × α)) (cur : Nat × α) :
    Option (Nat × α) :=
  match best with
  | none => some cur
  | some b => if f b.2 < f cur.2 then some cur else some b

/-- First index (and element) attaining the maximum of `f`, like Python's
`max(xs, key=f)`, which returns the first element reaching the maximum. -/
def pickMaxIdx {α : Type} (f : α → ℚ) (l : List (Nat × α)) : Option (Nat × α) :=
  l.foldl (pickMaxStep f) none

/-- The darcy-mode continuity block of the validator: fill missing demands
with 0, then if `|total| > 1e-6` adjust `max_node` (Python's `max` takes the
first element attaining the maximum). -/
def balanceDemandsDarcy (nodes : List NodeInput) : List NodeInput :=
  let nodes := nodes.map fillDemand
  let total := (nodes.map demandOf).sum
  if 1e-6 < |total| then
    let cand := nodes.enum.filter (fun p => decide (0 < demandOf p.2))
    let chosen :=
      if ¬ cand.isEmpty then pickMaxIdx demandOf cand
      else pickMaxIdx (fun n => |demandOf n|) nodes.enum
    match chosen with
    | none => nodes   -- empty node list
    | some (i, n) => nodes.set i { n with demand := some (demandOf n - total) }
  else nodes

/-- Embedding of `validate_and_fix_network`.  Returns the validated node and
pipe lists (= the caller's mutated objects, see the section comment). -/
def validate_and_fix_network (nodes : List NodeInput) (pipes : List PipeInput)
    (method : String) : List NodeInput × List PipeInput :=
  let pipes := pipes.map (fixPipe method)
  if method = "darcy" then (balanceDemandsDarcy nodes, pipes)
  else (nodes, pipes)

/-! ## Darcy-Weisbach physics helpers (lines 82-134) -/

/-- `calculate_resistance_coefficient`: explicit `resistance_k` override if
present and positive, else `K = 8 f L / (π² g D⁵)`. -/
def calculate_resistance_coefficient (pipe : PipeInput) : ℚ :=
  match pipe.resistance_k with
  | some k => if 0 < k then k else calcK pipe
  | none => calcK pipe
where
  calcK (pipe : PipeInput) : ℚ :=
    (8 * pipe.roughness.getD (1/50) * pipe.length.getD 1) /
      (PI ^ 2 * GRAVITY * (pipe.diameter.getD 1) ^ 5)

/-- `get_k_source`. -/
def get_k_source (pipe : PipeInput) : String :=
  match pipe.resistance_k with
  | some k => if 0 < k then "provided" else "calculated"
  | none => "calculated"

/-- `calculate_head_loss`: `h_f = K·Q·|Q|` (sign preserving). -/
def calculate_head_loss (K Q : ℚ) : ℚ := K * Q * |Q|

/-- `calculate_head_loss_derivative`: `2·K·(|Q| + 1e-10)`. -/
def calculate_head_loss_derivative (K Q : ℚ) : ℚ := 2 * K * (|Q| + 1e-10)

/-! ## The networkx graph (`nx.Graph` with `id` edge payload)

`nx.Graph` is a *simple* graph: `add_edge` on an existing node pair only
overwrites the edge attribute, so parallel pipes collapse onto one edge. -/

structure NXGraph where
  nodeList : List String := []
  adj : List (String × List String) := []
  eid : List ((String × String) × String) := []
deriving DecidableEq, Repr

def addNodeIfAbsent (l : List String) (x : String) : List String :=
  if x ∈ l then l else l ++ [x]

def adjInsert (adj : List (String × List String)) (u v : String) :
    List (String × List String) :=
  let cur := (alookup adj u).getD []
  if v ∈ cur then adj else aset adj u (cur ++ [v])

/-- `G.add_edge(u, v, id=pid)`. -/
def NXGraph.add_edge (G : NXGraph) (u v pid : String) : NXGraph :=
  { nodeList := addNodeIfAbsent (addNodeIfAbsent G.nodeList u) v
    adj := adjInsert (adjInsert G.adj u v) v u
    eid := aset (aset G.eid (u, v) pid) (v, u) pid }

/-- The adjacency list of `u` (`G[u]`), in networkx insertion order. -/
def NXGraph.adjOf (G : NXGraph) (u : String) : List String :=
  (alookup G.adj u).getD []

/-- `G.get_edge_data(u, v)`, returning the pipe id payload. -/
def NXGraph.get_edge_data (G : NXGraph) (u v : String) : Option String :=
  alookup G.eid (u, v)

/-- The graph the solver builds: one `add_edge` per pipe, in order. -/
def buildGraph (pipes : List PipeInput) : NXGraph :=
  pipes.foldl (fun G p => G.add_edge p.start_node p.end_node p.id) {}

/-! ## `nx.is_connected` (BFS flood from the first node) -/

def floodAux (G : NXGraph) : Nat → List String → List String → List String
  | 0, _, seen => seen
  | _ + 1, [], seen => seen
  | fuel + 1, x :: work, seen =>
    let fresh := (G.adjOf x).filter (fun y => decide (y ∉ seen))
    floodAux G fuel (work ++ fresh) (seen ++ fresh)

/-- The set of nodes BFS reaches from `root` (networkx `_plain_bfs`). -/
def reachList (G : NXGraph) (root : String) : List String :=
  floodAux G (G.nodeList.length + 1) [root] [root]

/-- `nx.is_connected`: `none` models the `NetworkXPointlessConcept`
exception raised on the null graph. -/
def is_connected (G : NXGraph) : Option Bool :=
  match G.nodeList with
  | [] => none
  | r :: _ => some (decide (∀ v ∈ G.nodeList, v ∈ reachList G r))

/-! ## `nx.shortest_path` (unweighted: breadth-first search) -/

def bfsPaths (G : NXGraph) (target : String) :
    Nat → List (List String) → List String → Option (List String)
  | 0, _, _ => none
  | _ + 1, [], _ => none
  | fuel + 1, p :: queue, visited =>
    match p with
    | [] => none
    | u :: _ =>
      if u = target then some p.reverse
      else
        let fresh := (G.adjOf u).filter (fun v => decide (v ∉ visited))
        bfsPaths G target fuel (queue ++ fresh.map (fun v => v :: p)) (visited ++ fresh)

/-- `nx.shortest_path(G, s, t)` on an unweighted graph.  `Except.error`
models the uncaught `NodeNotFound` exception; `Except.ok none` models the
`NetworkXNoPath` exception (which `initialize_flows_robust` catches). -/
def shortest_path (G : NXGraph) (s t : String) : Except String (Option (List String)) :=
  if s ∈ G.nodeList ∧ t ∈ G.nodeList then
    .ok (bfsPaths G t (G.nodeList.length + 1) [[s]] [s])
  else .error "Either source or target is not in G"

/-! ## `nx.cycle_basis` (Paton's spanning-tree algorithm)

Embedding of the networkx implementation: a stack-based tree walk; each
non-tree edge encountered from an unpopped endpoint emits one cycle, built
from the two endpoints plus the `pred` chain of the popped endpoint up to
the first node lying in `used[nbr]`.  The Python inner `while p not in pn`
loop is fuelled; fuel sufficiency is proved later. -/

structure PatonState where
  stack : List String          -- head = top of the Python list used as a stack
  pred : List (String × String)
  used : List (String × List String)
  cycles : List (List String)
deriving DecidableEq, Repr

/-- The `p = pred[z]; while p not in pn: cycle.append(p); p = pred[p]` chain:
returns the appended suffix (all chain nodes, ending with the first one found
in `pn`).  Fuel exhaustion truncates (Python would loop forever; proved
unreachable below). -/
def chase (pred : List (String × String)) (pn : List String) :
    Nat → String → List String
  | 0, p => [p]
  | fuel + 1, p =>
    if p ∈ pn then [p] else p :: chase pred pn fuel ((alookup pred p).getD p)

/-- Processing one neighbour `nbr` of the popped node `z` (the body of
`for nbr in G[z]`).  `zused` is the value of `used[z]` captured at the pop. -/
def patonVisit (chaseFuel : Nat) (zused : List String) (z : String)
    (st : PatonState) (nbr : String) : PatonState :=
  match alookup st.used nbr with
  | none =>
    { st with pred := aset st.pred nbr z
              stack := nbr :: st.stack
              used := aset st.used nbr [z] }
  | some pn =>
    if nbr = z then { st with cycles := st.cycles ++ [[z]] }
    else if nbr ∉ zused then
      let cyc := [nbr, z] ++ chase st.pred pn chaseFuel ((alookup st.pred z).getD z)
      { st with cycles := st.cycles ++ [cyc]
                used := aset st.used nbr (if z ∈ pn then pn else pn ++ [z]) }
    else st

/-- The `while stack:` loop of one component. -/
def patonWhile (G : NXGraph) : Nat → PatonState → PatonState
  | 0, st => st
  | fuel + 1, st =>
    match st.stack with
    | [] => st
    | z :: rest =>
      let zused := (alookup st.used z).getD []
      let st' := (G.adjOf z).foldl (patonVisit (G.nodeList.length + 1) zused z)
        { st with stack := rest }
      patonWhile G fuel st'

/-- One component pass rooted at `root`. -/
def patonComponent (G : NXGraph) (root : String) : PatonState :=
  patonWhile G (G.nodeList.length + 1)
    { stack := [root], pred := [(root, root)], used := [(root, [])], cycles := [] }

/-- The `while gnodes:` loop over components.  `dict.popitem()` pops the most
recently inserted key, hence `getLast?`. -/
def cycle_basisAux (G : NXGraph) : Nat → List String → List (List String) → List (List String)
  | 0, _, cycles => cycles
  | fuel + 1, gnodes, cycles =>
    match gnodes.getLast? with
    | none => cycles
    | some root =>
      let st := patonComponent G root
      let gnodes' := gnodes.filter (fun n => decide (n ∉ akeys st.pred))
      cycle_basisAux G fuel gnodes' (cycles ++ st.cycles)

/-- `nx.cycle_basis(G)`. -/
def cycle_basis (G : NXGraph) : List (List String) :=
  cycle_basisAux G (G.nodeList.length + 1) G.nodeList []

/-! ## Flow initialization (`initialize_flows_robust`, lines 136-222) -/

/-- Stable insertion sort; `le x y` means `x` may come no later than `y`.
Python's `sorted` is stable, and so is this sort. -/
def insertLe {α : Type} (le : α → α → Bool) (x : α) : List α → List α
  | [] => [x]
  | y :: ys => if le x y then x :: y :: ys else y :: insertLe le x ys

def sortByLe {α : Type} (le : α → α → Bool) : List α → List α
  | [] => []
  | x :: xs => insertLe le x (sortByLe le xs)

/-- Static data of the initializer: its own graph, the
`edge_to_pipe_id` map (both orientations, later pipes overwrite), and the
`pipe_map` id lookup. -/
structure InitEnv where
  G : NXGraph
  e2p : List ((String × String) × String)
  pmap : List (String × PipeInput)
deriving Repr

structure FlowState where
  flows : List (String × ℚ)
  supply : List (String × ℚ)
  demandLeft : List (String × ℚ)
deriving Repr

/-- Push `amt` along `path` (the `for i in range(len(path) - 1)` loop):
add when the traversal direction matches the pipe's defined start→end
direction, subtract otherwise.  A missing edge or pipe key would be a
`KeyError` in Python; it is unreachable because BFS paths walk graph edges,
and is modelled as a no-op. -/
def pushPath (e2p : List ((String × String) × String)) (pmap : List (String × PipeInput))
    (amt : ℚ) (path : List String) (flows : List (String × ℚ)) : List (String × ℚ) :=
  (path.zip path.tail).foldl (fun fl uv =>
    match alookup e2p uv with
    | none => fl
    | some pid =>
      match alookup pmap pid with
      | none => fl
      | some pdef =>
        let q := (alookup fl pid).getD 0
        if pdef.start_node = uv.1 then aset fl pid (q + amt)
        else aset fl pid (q - amt)) flows

/-- The `for source_id in sources:` loop for one sink, threading
`demand_needed`.  `Except.error` propagates the uncaught `NodeNotFound`
exception from `nx.shortest_path`; a `NetworkXNoPath` (`Except.ok none`)
is caught and skipped. -/
def transferFromSources (env : InitEnv) (sinkId : String) :
    List String → FlowState → ℚ → Except String (FlowState × ℚ)
  | [], st, needed => .ok (st, needed)
  | src :: rest, st, needed =>
    if needed ≤ 1e-9 then .ok (st, needed)
    else
      let avail := (alookup st.supply src).getD 0
      if avail ≤ 1e-9 then transferFromSources env sinkId rest st needed
      else
        let amt := min needed avail
        if amt ≤ 1e-9 then transferFromSources env sinkId rest st needed
        else
          match shortest_path env.G src sinkId with
          | .error e => .error e
          | .ok none => transferFromSources env sinkId rest st needed
          | .ok (some path) =>
            let st' : FlowState :=
              { flows := pushPath env.e2p env.pmap amt path st.flows
                supply := aset st.supply src (avail - amt)
                demandLeft := aset st.demandLeft sinkId
                  ((alookup st.demandLeft sinkId).getD 0 - amt) }
            transferFromSources env sinkId rest st' (needed - amt)

/-- The outer `for sink_id in sinks:` loop. -/
def distributeAll (env : InitEnv) (sources : List String) :
    List String → FlowState → Except String FlowState
  | [], st => .ok st
  | sink :: rest, st =>
    let needed := (alookup st.demandLeft sink).getD 0
    match transferFromSources env sink sources st needed with
    | .error e => .error e
    | .ok (st', _) => distributeAll env sources rest st'

/-- Embedding of `initialize_flows_robust` (the flow initializer).
Returns the `pipe_flows` dict; `Except.error` models the uncaught
`NodeNotFound` exception raised when a source or sink is not in the graph. -/
def initFlowsRobust (nodes : List NodeInput) (pipes : List PipeInput) :
    Except String (List (String × ℚ)) :=
  let pipe_flows := pipes.foldl (fun fl p => aset fl p.id (0 : ℚ)) []
  let G := buildGraph pipes
  let e2p := pipes.foldl (fun m p =>
    aset (aset m (p.start_node, p.end_node) p.id) (p.end_node, p.start_node) p.id) []
  let pmap := pipes.foldl (fun m p => aset m p.id p) []
  let node_demands := nodes.foldl (fun m n => aset m n.id (demandOf n)) []
  let dOf := fun i => (alookup node_demands i).getD 0
  let srcIds := (akeys node_demands).filter (fun i => decide (1e-9 < dOf i))
  let sources := sortByLe (fun a b => decide (dOf b ≤ dOf a)) srcIds
  let sinkIds := (akeys node_demands).filter (fun i => decide (dOf i < -1e-9))
  let sinks := sortByLe (fun a b => decide (dOf a ≤ dOf b)) sinkIds
  let supply := sources.foldl (fun m s => aset m s (dOf s)) []
  let demandLeft := sinks.foldl (fun m s => aset m s (-(dOf s))) []
  match distributeAll ⟨G, e2p, pmap⟩ sources sinks ⟨pipe_flows, supply, demandLeft⟩ with
  | .error e => .error e
  | .ok st => .ok st.flows

/-! ## Hardy Cross iteration (`solve_network` lines 467-571) -/

structure LoopPipeRec where
  pipe_id : String
  loop_direction : ℚ
  Q : ℚ
  Q_loop : ℚ
  h_f : ℚ
deriving DecidableEq, Repr

structure LoopLogRec where
  loop_index : Nat
  nodes : List String
  sum_head_loss : ℚ
  sum_derivative : ℚ
  delta_Q : ℚ
deriving DecidableEq, Repr

structure IterLogRec where
  iteration : Nat
  loops : List LoopLogRec
  pipe_flows : List (String × ℚ)
  max_correction : ℚ
deriving DecidableEq, Repr

/-- One step of the loop walk: a node pair without an edge is skipped
(`continue`), exactly as in the source; otherwise the pair's pipe
contributes its `h_f` and `dh/dQ` and is recorded. -/
def walkStep (G : NXGraph) (pmap : List (String × PipeInput))
    (pipeK : List (String × ℚ)) (flows : List (String × ℚ))
    (acc : ℚ × ℚ × List LoopPipeRec) (uv : String × String) :
    ℚ × ℚ × List LoopPipeRec :=
  match G.get_edge_data uv.1 uv.2 with
  | none => acc
  | some pipe_id =>
    match alookup pmap pipe_id with
    | none => acc  -- KeyError in Python; unreachable (edge ids are pipe ids)
    | some pipe_def =>
      let K := (alookup pipeK pipe_id).getD 0
      let Q := (alookup flows pipe_id).getD 0
      let loop_direction : ℚ := if pipe_def.start_node = uv.1 then 1 else -1
      let Q_loop := Q * loop_direction
      let h_f := calculate_head_loss K Q_loop
      let dh_dQ := calculate_head_loss_derivative K Q_loop
      (acc.1 + h_f, acc.2.1 + dh_dQ,
        acc.2.2 ++ [⟨pipe_id, loop_direction, Q, Q_loop, h_f⟩])

/-- Walking one loop's closed node sequence: accumulate `Σ h_f`,
`Σ dh/dQ` and the `loop_pipe_info` list. -/
def walkLoop (G : NXGraph) (pmap : List (String × PipeInput))
    (pipeK : List (String × ℚ)) (flows : List (String × ℚ))
    (loopNodes : List String) : ℚ × ℚ × List LoopPipeRec :=
  (loopNodes.zip (loopNodes.rotate 1)).foldl (walkStep G pmap pipeK flows) (0, 0, [])

/-- The Hardy Cross correction: `ΔQ = −Σh / Σ(dh/dQ)` when
`sum_derivative > 1e-12`, else `0`. -/
def loopDelta (sum_head_loss sum_derivative : ℚ) : ℚ :=
  if 1e-12 < sum_derivative then -sum_head_loss / sum_derivative else 0

/-- Apply `pipe_flows[pipe_id] += delta_Q * loop_direction` to every pipe
recorded while walking the loop. -/
def applyCorrection (delta : ℚ) (info : List LoopPipeRec)
    (flows : List (String × ℚ)) : List (String × ℚ) :=
  info.foldl (fun fl r =>
    aset fl r.pipe_id ((alookup fl r.pipe_id).getD 0 + delta * r.loop_direction)) flows

/-- One loop's turn inside an iteration: walk the loop on the current
flows, compute and immediately apply its correction, track the maximum
`|ΔQ|` and append the loop's log entry. -/
def procStep (G : NXGraph) (pmap : List (String × PipeInput))
    (pipeK : List (String × ℚ))
    (acc : List (String × ℚ) × ℚ × List LoopLogRec) (il : Nat × List String) :
    List (String × ℚ) × ℚ × List LoopLogRec :=
  let flows := acc.1
  let maxc := acc.2.1
  let walked := walkLoop G pmap pipeK flows il.2
  let delta := loopDelta walked.1 walked.2.1
  let maxc' := if maxc < |delta| then |delta| else maxc
  let flows' := applyCorrection delta walked.2.2 flows
  (flows', maxc',
    acc.2.2 ++ [⟨il.1 + 1, il.2, pyRound walked.1 6, pyRound walked.2.1 6, pyRound delta 6⟩])

/-- Process every loop of one iteration sequentially (later loops see the
corrections already applied by earlier loops), tracking the maximum `|ΔQ|`. -/
def processLoops (G : NXGraph) (pmap : List (String × PipeInput))
    (pipeK : List (String × ℚ)) (loops : List (List String))
    (flows0 : List (String × ℚ)) : List (String × ℚ) × ℚ × List LoopLogRec :=
  loops.enum.foldl (procStep G pmap pipeK) (flows0, 0, [])

/-- One full Hardy Cross iteration, producing the new flows, the (unrounded)
convergence metric and the iteration's diagnostic log entry. -/
def hardyIteration (G : NXGraph) (pmap : List (String × PipeInput))
    (pipeK : List (String × ℚ)) (loops : List (List String))
    (flows : List (String × ℚ)) (iterIdx : Nat) :
    List (String × ℚ) × ℚ × IterLogRec :=
  let snapshot := flows.map (fun p => (p.1, pyRound p.2 6))
  let r := processLoops G pmap pipeK loops flows
  (r.1, r.2.1, ⟨iterIdx + 1, r.2.2, snapshot, pyRound r.2.1 8⟩)

/-- The `for iteration in range(MAX_ITERATIONS)` loop with the
`max_correction < TOLERANCE` convergence break.  Returns the final flows,
the `converged` flag and the history. -/
def hardyLoop (G : NXGraph) (pmap : List (String × PipeInput))
    (pipeK : List (String × ℚ)) (loops : List (List String)) :
    Nat → Nat → List (String × ℚ) → List IterLogRec →
    List (String × ℚ) × Bool × List IterLogRec
  | 0, _, flows, hist => (flows, false, hist)
  | fuel + 1, iterIdx, flows, hist =>
    let r := hardyIteration G pmap pipeK loops flows iterIdx
    let hist' := hist ++ [r.2.2]
    if r.2.1 < 1e-6 then (r.1, true, hist')
    else hardyLoop G pmap pipeK loops fuel (iterIdx + 1) r.1 hist'

/-! ## Result records and darcy result formatting (lines 573-606) -/

structure PipeResult where
  pipe_id : String
  start_node : String
  end_node : String
  flow : ℚ
  flow_direction : String
  velocity : ℚ
  head_loss : ℚ
  reynolds : ℚ
  K : ℚ
  K_source : String
deriving DecidableEq, Repr

structure NodeResult where
  node_id : String
  demand : Option ℚ
  is_solved : Bool
deriving DecidableEq, Repr

structure SolveResultData where
  converged : Bool
  iterations : Nat
  results : List PipeResult
  node_results : Option (List NodeResult) := none
  history : List IterLogRec := []
deriving DecidableEq, Repr

/-- The value `solve_network` hands back to the HTTP layer: a structured
result dict, an `{"error": ...}` dict, or an uncaught exception escaping the
function (`exn`). -/
inductive SolveOutcome where
  | result (r : SolveResultData)
  | error (msg : String)
  | exn (msg : String)
deriving DecidableEq, Repr

/-- Formatting of the final darcy results (velocity, head loss magnitude,
Reynolds number, direction label). -/
def formatDarcyResults (pmap : List (String × PipeInput))
    (pipeK : List (String × ℚ)) (flows : List (String × ℚ)) : List PipeResult :=
  flows.map (fun pq =>
    match alookup pmap pq.1 with
    | none =>  -- KeyError in Python; unreachable (flow keys are pipe ids)
      { pipe_id := pq.1, start_node := "", end_node := "", flow := 0
        flow_direction := "", velocity := 0, head_loss := 0, reynolds := 0
        K := 0, K_source := "" }
    | some pipe =>
      let Q := pq.2
      let K := (alookup pipeK pq.1).getD 0
      let D := pipe.diameter.getD 1
      let velocity := (4 * |Q|) / (PI * D ^ 2)
      let head_loss := |calculate_head_loss K Q|
      let Re := if 0 < velocity then velocity * D / KINEMATIC_VISCOSITY else 0
      { pipe_id := pq.1
        start_node := pipe.start_node
        end_node := pipe.end_node
        flow := pyRound Q 6
        flow_direction := if 0 ≤ Q then "start→end" else "end→start"
        velocity := pyRound velocity 4
        head_loss := pyRound head_loss 4
        reynolds := pyRound Re 0
        K := pyRound K 4
        K_source := get_k_source pipe })

/-! ## Puzzle solver (`solve_puzzle_network`, lines 224-427) -/

/-- One entry of the puzzle adjacency: pipe id and orientation
(`1` = leaving via start, `-1` = entering via end). -/
structure AdjEntry where
  pid : String
  dir : ℚ
deriving DecidableEq, Repr

structure PuzzleState where
  solved_flows : List (String × ℚ)
  solved_hl : List (String × ℚ)
  solved_demands : List (String × ℚ)
deriving DecidableEq, Repr

/-- Append one adjacency entry at node `k`; a missing key is Python's
`KeyError`, modelled as `Except.error`. -/
def pushEntry (adj : List (String × List AdjEntry)) (k : String) (e : AdjEntry) :
    Except String (List (String × List AdjEntry)) :=
  match alookup adj k with
  | none => .error ("KeyError: " ++ k)
  | some l => .ok (aset adj k (l ++ [e]))

/-- The `for p in pipes:` loop building the adjacency (two appends per
pipe, in order). -/
def buildPuzzleAdjGo : List PipeInput → List (String × List AdjEntry) →
    Except String (List (String × List AdjEntry))
  | [], adj => .ok adj
  | p :: ps, adj =>
    match pushEntry adj p.start_node ⟨p.id, 1⟩ with
    | .error e => .error e
    | .ok adj1 =>
      match pushEntry adj1 p.end_node ⟨p.id, -1⟩ with
      | .error e => .error e
      | .ok adj2 => buildPuzzleAdjGo ps adj2

/-- `adj = {n.id: [] for n in nodes}` then two appends per pipe.  A pipe
endpoint that is not a declared node raises `KeyError` in Python, modelled
as `Except.error`. -/
def buildPuzzleAdj (nodes : List NodeInput) (pipes : List PipeInput) :
    Except String (List (String × List AdjEntry)) :=
  buildPuzzleAdjGo pipes (nodes.foldl (fun m n => aset m n.id ([] : List AdjEntry)) [])

/-- Mass-balance deduction for one node (section A of the logic loop). -/
def processNode (adj : List (String × List AdjEntry)) (st : PuzzleState)
    (changed : Bool) (node : NodeInput) : PuzzleState × Bool :=
  let conns := (alookup adj node.id).getD []
  let unknown := conns.filter (fun c => decide ((alookup st.solved_flows c.pid).isNone))
  match alookup st.solved_demands node.id with
  | some demand =>
    if unknown.length = 1 then
      let sum_in := (conns.filter (fun c =>
        decide ((alookup st.solved_flows c.pid).isSome ∧ c.dir = -1))).foldl
        (fun s c => s + (alookup st.solved_flows c.pid).getD 0) 0
      let sum_out := (conns.filter (fun c =>
        decide ((alookup st.solved_flows c.pid).isSome ∧ c.dir = 1))).foldl
        (fun s c => s + (alookup st.solved_flows c.pid).getD 0) 0
      match unknown with
      | [] => (st, changed)  -- unreachable given length = 1
      | unk :: _ =>
        let rhs := sum_out - sum_in - demand
        let unk_coeff := -unk.dir
        let solved_q := rhs / unk_coeff
        ({ st with solved_flows := aset st.solved_flows unk.pid solved_q }, true)
    else (st, changed)
  | none =>
    if unknown.length = 0 then
      let sum_in := (conns.filter (fun c => decide (c.dir = -1))).foldl
        (fun s c => s + (alookup st.solved_flows c.pid).getD 0) 0
      let sum_out := (conns.filter (fun c => decide (c.dir = 1))).foldl
        (fun s c => s + (alookup st.solved_flows c.pid).getD 0) 0
      ({ st with solved_demands := aset st.solved_demands node.id (sum_out - sum_in) }, true)
    else (st, changed)

/-- First pipe joining `u` and `v`, with its direction relative to the
loop traversal (the `for p in pipes:` search). -/
def findLoopPipe : List PipeInput → String → String → Option (PipeInput × ℚ)
  | [], _, _ => none
  | p :: rest, u, v =>
    if p.start_node = u ∧ p.end_node = v then some (p, 1)
    else if p.start_node = v ∧ p.end_node = u then some (p, -1)
    else findLoopPipe rest u v

/-- Walk one loop for the energy-balance deduction: returns `none` when the
loop is invalid (a missing pipe, or a pipe with known head loss but unknown
flow), otherwise the signed head-loss sum of the resolved pipes together
with the list of pipes of unknown head loss (id and loop direction). -/
def walkPuzzleLoop (pipes : List PipeInput) (st : PuzzleState) :
    List (String × String) → ℚ → List (String × ℚ) →
    Option (ℚ × List (String × ℚ))
  | [], sum, unknowns => some (sum, unknowns)
  | uv :: rest, sum, unknowns =>
    match findLoopPipe pipes uv.1 uv.2 with
    | none => none
    | some pd =>
      let pid := pd.1.id
      match alookup st.solved_hl pid, alookup st.solved_flows pid with
      | some hl, some q =>
        let flow_sign : ℚ := if 0 ≤ q then 1 else -1
        walkPuzzleLoop pipes st rest (sum + |hl| * flow_sign * pd.2) unknowns
      | some _, none => none
      | none, _ => walkPuzzleLoop pipes st rest sum (unknowns ++ [(pid, pd.2)])

/-- Energy-balance deduction for one loop (section B of the logic loop). -/
def processPuzzleLoop (pipes : List PipeInput) (stc : PuzzleState × Bool)
    (loop : List String) : PuzzleState × Bool :=
  let st := stc.1
  match walkPuzzleLoop pipes st (loop.zip (loop.rotate 1)) 0 [] with
  | none => stc
  | some su =>
    match su.2 with
    | [(pid_unk, p_dir_unk)] =>
      let req_signed_hf := -su.1 / p_dir_unk
      match alookup st.solved_flows pid_unk with
      | some q =>
        let flow_sign : ℚ := if 0 ≤ q then 1 else -1
        if 1e-9 < |q| then
          ({ st with solved_hl := aset st.solved_hl pid_unk |req_signed_hf / flow_sign| },
            true)
        else stc
      | none => stc
    | _ => stc

/-- One full pass of the logic loop: all nodes (mass balance), then all
loops (energy balance), threading the `changed` flag. -/
def puzzlePass (adj : List (String × List AdjEntry)) (nodes : List NodeInput)
    (pipes : List PipeInput) (loops : List (List String))
    (st : PuzzleState) : PuzzleState × Bool :=
  let a := nodes.foldl (fun acc n => processNode adj acc.1 acc.2 n) (st, false)
  loops.foldl (processPuzzleLoop pipes) a

/-- The `while changed and iterations < max_iter` loop.  Returns the final
state and the number of passes performed. -/
def puzzleIterate (adj : List (String × List AdjEntry)) (nodes : List NodeInput)
    (pipes : List PipeInput) (loops : List (List String)) :
    Nat → PuzzleState → Nat → PuzzleState × Nat
  | 0, st, iters => (st, iters)
  | fuel + 1, st, iters =>
    let r := puzzlePass adj nodes pipes loops st
    if r.2 then puzzleIterate adj nodes pipes loops fuel r.1 (iters + 1)
    else (r.1, iters + 1)

/-- Puzzle-mode formatting of a single pipe (the loop body of section 3
of the source). -/
def formatPuzzlePipe (st : PuzzleState) (p : PipeInput) : PipeResult :=
  let q := alookup st.solved_flows p.id
  let hf := alookup st.solved_hl p.id
  { pipe_id := p.id
    start_node := p.start_node
    end_node := p.end_node
    flow := match q with | some v => pyRound v 2 | none => 0
    head_loss := match hf with | some v => pyRound v 2 | none => 0
    velocity := 0
    flow_direction :=
      match q with
      | some v => if 0 ≤ v then "start→end" else "end→start"
      | none => "unknown"
    reynolds := 0
    K := 0
    K_source := "puzzle" }

/-- Puzzle-mode per-pipe result formatting (section 3 of the source). -/
def formatPuzzleResults (st : PuzzleState) (pipes : List PipeInput) : List PipeResult :=
  pipes.map (formatPuzzlePipe st)

/-- Puzzle-mode node results (solved demands and the `is_solved` flag). -/
def formatPuzzleNodes (st : PuzzleState) (nodes : List NodeInput) : List NodeResult :=
  nodes.map (fun n =>
    let d := alookup st.solved_demands n.id
    { node_id := n.id
      demand := d.map (fun v => pyRound v 2)
      is_solved := d.isSome && n.demand.isNone })

/-- Embedding of `solve_puzzle_network`. -/
def solve_puzzle_network (nodes : List NodeInput) (pipes : List PipeInput) : SolveOutcome :=
  let st0 : PuzzleState :=
    { solved_flows := pipes.foldl (fun m p =>
        match p.given_flow with | some q => aset m p.id q | none => m) []
      solved_hl := pipes.foldl (fun m p =>
        match p.given_head_loss with | some h => aset m p.id h | none => m) []
      solved_demands := nodes.foldl (fun m n =>
        match n.demand with | some d => aset m n.id d | none => m) [] }
  match buildPuzzleAdj nodes pipes with
  | .error e => .exn e
  | .ok adj =>
    let G := pipes.foldl (fun g p => g.add_edge p.start_node p.end_node p.id)
      ({} : NXGraph)
    let loops := cycle_basis G  -- try/except: the embedded version is total
    let r := puzzleIterate adj nodes pipes loops (pipes.length * 2 + 5) st0 0
    .result
      { converged := true
        iterations := r.2
        results := formatPuzzleResults r.1 pipes
        node_results := some (formatPuzzleNodes r.1 nodes)
        history := [] }

/-! ## `solve_network` (lines 429-606) -/

def solve_network (data : NetworkInput) : SolveOutcome :=
  let v := validate_and_fix_network data.nodes data.pipes data.method
  let nodes := v.1
  let pipes := v.2
  let pipes_map := pipes.foldl (fun m p => aset m p.id p) []
  if data.method = "puzzle" then solve_puzzle_network nodes pipes
  else
    let G := buildGraph pipes
    match is_connected G with
    | none => .exn "Connectivity is undefined for the null graph."
    | some false => .error "Network is not fully connected. Check pipe definitions."
    | some true =>
      let loops := cycle_basis G  -- try/except: the embedded version is total
      match initFlowsRobust nodes pipes with
      | .error e => .exn e
      | .ok pipe_flows =>
        let pipe_K := pipes.foldl (fun m p =>
          aset m p.id (calculate_resistance_coefficient p)) []
        let r := hardyLoop G pipes_map pipe_K loops 100 0 pipe_flows []
        .result
          { converged := r.2.1
            iterations := r.2.2.length
            results := formatDarcyResults pipes_map pipe_K r.1
            history := r.2.2 }

/-! ## Graph well-formedness

Structural facts about graphs produced by `buildGraph`, proved by fold
induction over the pipe list. -/

/-- Well-formedness of a graph built from the pipe list `S`. -/
structure GraphWF (S : List PipeInput) (G : NXGraph) : Prop where
  nodes_nodup : G.nodeList.Nodup
  adj_nodup : ∀ w, (G.adjOf w).Nodup
  adj_symm : ∀ w x, x ∈ G.adjOf w → w ∈ G.adjOf x
  adj_nodes : ∀ w x, x ∈ G.adjOf w → w ∈ G.nodeList ∧ x ∈ G.nodeList
  edge_of_adj : ∀ w x, x ∈ G.adjOf w → ∃ pid, G.get_edge_data w x = some pid
  edge_pipe : ∀ w x pid, G.get_edge_data w x = some pid →
    ∃ p ∈ S, p.id = pid ∧
      ((p.start_node = w ∧ p.end_node = x) ∨ (p.start_node = x ∧ p.end_node = w))

theorem mem_addNodeIfAbsent {l : List String} {x y : String} :
    x ∈ addNodeIfAbsent l y ↔ x ∈ l ∨ x = y := by
  unfold addNodeIfAbsent
  by_cases h : y ∈ l
  · simp only [if_pos h]
    constructor
    · exact fun hx => Or.inl hx
    · rintro (hx | rfl) <;> assumption
  · simp [if_neg h, List.mem_append]

theorem nodup_addNodeIfAbsent {l : List String} (hl : l.Nodup) (y : String) :
    (addNodeIfAbsent l y).Nodup := by
  unfold addNodeIfAbsent
  by_cases h : y ∈ l
  · simpa [if_pos h]
  · rw [if_neg h]
    refine List.Nodup.append hl (List.nodup_singleton y) ?_
    intro a ha hay
    rw [List.mem_singleton] at hay
    exact h (hay ▸ ha)

/-- Value of the adjacency list after one `adjInsert`. -/
theorem adjOf_adjInsert (adj : List (String × List String)) (u v w : String) :
    (alookup (adjInsert adj u v) w).getD [] =
      if w = u then
        (let cur := (alookup adj u).getD []
         if v ∈ cur then cur else cur ++ [v])
      else (alookup adj w).getD [] := by
  unfold adjInsert
  by_cases hv : v ∈ (alookup adj u).getD []
  · simp only [if_pos hv]
    by_cases hw : w = u <;> simp [hw]
  · simp only [if_neg hv]
    by_cases hw : w = u
    · subst hw; simp [alookup_aset, hv]
    · simp [alookup_aset_ne _ _ _ _ (fun h => hw h.symm), hw]

theorem mem_adjInsert {adj : List (String × List String)} {u v w x : String} :
    x ∈ (alookup (adjInsert adj u v) w).getD [] ↔
      x ∈ (alookup adj w).getD [] ∨ (w = u ∧ x = v) := by
  rw [adjOf_adjInsert]
  by_cases hw : w = u
  · subst hw
    by_cases hv : v ∈ (alookup adj w).getD []
    · simp only [if_pos rfl, if_pos hv]
      constructor
      · exact fun h => Or.inl h
      · rintro (h | ⟨-, rfl⟩) <;> [exact h; exact hv]
    · simp [if_pos rfl, if_neg hv, List.mem_append]
  · simp [hw]

theorem nodup_adjInsert {adj : List (String × List String)}
    (h : ∀ w, ((alookup adj w).getD []).Nodup) (u v : String) :
    ∀ w, ((alookup (adjInsert adj u v) w).getD []).Nodup := by
  intro w
  rw [adjOf_adjInsert]
  by_cases hw : w = u
  · simp only [if_pos hw]
    by_cases hv : v ∈ (alookup adj u).getD []
    · simpa [if_pos hv] using h u
    · simp only [if_neg hv]
      refine List.Nodup.append (h u) (List.nodup_singleton v) ?_
      intro a ha hav
      rw [List.mem_singleton] at hav
      exact hv (hav ▸ ha)
  · simpa [if_neg hw] using h w

theorem mem_adjOf_add_edge {G : NXGraph} {a b pid w x : String} :
    x ∈ (G.add_edge a b pid).adjOf w ↔
      x ∈ G.adjOf w ∨ (w = a ∧ x = b) ∨ (w = b ∧ x = a) := by
  show x ∈ (alookup (adjInsert (adjInsert G.adj a b) b a) w).getD [] ↔ _
  rw [mem_adjInsert, mem_adjInsert]
  unfold NXGraph.adjOf
  tauto

theorem get_edge_data_add_edge (G : NXGraph) (a b pid u v : String) :
    (G.add_edge a b pid).get_edge_data u v =
      if (u = a ∧ v = b) ∨ (u = b ∧ v = a) then some pid
      else G.get_edge_data u v := by
  show alookup (aset (aset G.eid (a, b) pid) (b, a) pid) (u, v) = _
  by_cases h1 : ((b, a) : String × String) = (u, v)
  · have h1' : u = b ∧ v = a := by
      have := Prod.ext_iff.mp h1
      exact ⟨this.1.symm, this.2.symm⟩
    rw [← h1, alookup_aset, if_pos (Or.inr h1')]
  · rw [alookup_aset_ne _ _ _ _ h1]
    by_cases h2 : ((a, b) : String × String) = (u, v)
    · have h2' : u = a ∧ v = b := by
        have := Prod.ext_iff.mp h2
        exact ⟨this.1.symm, this.2.symm⟩
      rw [← h2, alookup_aset, if_pos (Or.inl h2')]
    · have hn : ¬((u = a ∧ v = b) ∨ (u = b ∧ v = a)) := by
        rintro (⟨rfl, rfl⟩ | ⟨rfl, rfl⟩)
        · exact h2 rfl
        · exact h1 rfl
      rw [alookup_aset_ne _ _ _ _ h2, if_neg hn]
      rfl

theorem mem_nodeList_add_edge {G : NXGraph} {a b pid x : String} :
    x ∈ (G.add_edge a b pid).nodeList ↔ x ∈ G.nodeList ∨ x = a ∨ x = b := by
  show x ∈ addNodeIfAbsent (addNodeIfAbsent G.nodeList a) b ↔ _
  rw [mem_addNodeIfAbsent, mem_addNodeIfAbsent]
  tauto

theorem graphWF_add_edge {S : List PipeInput} {G : NXGraph} (h : GraphWF S G)
    {p : PipeInput} (hp : p ∈ S) :
    GraphWF S (G.add_edge p.start_node p.end_node p.id) := by
  constructor
  · exact nodup_addNodeIfAbsent (nodup_addNodeIfAbsent h.nodes_nodup _) _
  · intro w
    exact nodup_adjInsert (nodup_adjInsert h.adj_nodup _ _) _ _ w
  · intro w x hx
    rw [mem_adjOf_add_edge] at hx ⊢
    rcases hx with hx | ⟨rfl, rfl⟩ | ⟨rfl, rfl⟩
    · exact Or.inl (h.adj_symm w x hx)
    · tauto
    · tauto
  · intro w x hx
    rw [mem_adjOf_add_edge] at hx
    constructor <;> rw [mem_nodeList_add_edge]
    · rcases hx with hx | ⟨rfl, rfl⟩ | ⟨rfl, rfl⟩
      · exact Or.inl (h.adj_nodes w x hx).1
      · tauto
      · tauto
    · rcases hx with hx | ⟨rfl, rfl⟩ | ⟨rfl, rfl⟩
      · exact Or.inl (h.adj_nodes w x hx).2
      · tauto
      · tauto
  · intro w x hx
    rw [mem_adjOf_add_edge] at hx
    rw [get_edge_data_add_edge]
    rcases hx with hx | ⟨rfl, rfl⟩ | ⟨rfl, rfl⟩
    · by_cases hc : (w = p.start_node ∧ x = p.end_node) ∨ (w = p.end_node ∧ x = p.start_node)
      · exact ⟨p.id, by rw [if_pos hc]⟩
      · obtain ⟨pid, hpid⟩ := h.edge_of_adj w x hx
        exact ⟨pid, by rw [if_neg hc]; exact hpid⟩
    · exact ⟨p.id, by rw [if_pos (Or.inl ⟨rfl, rfl⟩)]⟩
    · exact ⟨p.id, by rw [if_pos (Or.inr ⟨rfl, rfl⟩)]⟩
  · intro w x pid hpid
    rw [get_edge_data_add_edge] at hpid
    by_cases hc : (w = p.start_node ∧ x = p.end_node) ∨ (w = p.end_node ∧ x = p.start_node)
    · rw [if_pos hc] at hpid
      refine ⟨p, hp, Option.some_inj.mp hpid, ?_⟩
      tauto
    · rw [if_neg hc] at hpid
      exact h.edge_pipe w x pid hpid

theorem graphWF_empty (S : List PipeInput) : GraphWF S {} := by
  constructor <;>
    simp [NXGraph.adjOf, NXGraph.get_edge_data, alookup]

theorem graphWF_foldl {S : List PipeInput} :
    ∀ (ps : List PipeInput) (G : NXGraph), (∀ p ∈ ps, p ∈ S) → GraphWF S G →
      GraphWF S (ps.foldl (fun G p => G.add_edge p.start_node p.end_node p.id) G)
  | [], G, _, hG => hG
  | p :: ps, G, hps, hG => by
    exact graphWF_foldl ps _ (fun q hq => hps q (List.mem_cons_of_mem _ hq))
      (graphWF_add_edge hG (hps p (List.mem_cons_self _ _)))

/-- The graph the solver builds is well formed. -/
theorem buildGraph_wf (pipes : List PipeInput) : GraphWF pipes (buildGraph pipes) :=
  graphWF_foldl pipes {} (fun _ hq => hq) (graphWF_empty pipes)

/-! ## Reachability semantics -/

/-- Reachability in the undirected graph, from `u`. -/
inductive Reach (G : NXGraph) (u : String) : String → Prop
  | refl : u ∈ G.nodeList → Reach G u u
  | tail {v w : String} : Reach G u v → w ∈ G.adjOf v → Reach G u w

theorem Reach.mem_left {G : NXGraph} {u v : String} (h : Reach G u v) :
    u ∈ G.nodeList := by
  induction h with
  | refl h => exact h
  | tail _ _ ih => exact ih

theorem Reach.mem_right {S : List PipeInput} {G : NXGraph} (hwf : GraphWF S G)
    {u v : String} (h : Reach G u v) : v ∈ G.nodeList := by
  induction h with
  | refl h => exact h
  | tail _ hadj _ => exact (hwf.adj_nodes _ _ hadj).2

theorem Reach.trans {G : NXGraph} {u v w : String}
    (h1 : Reach G u v) (h2 : Reach G v w) : Reach G u w := by
  induction h2 with
  | refl _ => exact h1
  | tail _ hadj ih => exact Reach.tail ih hadj

theorem Reach.symm {S : List PipeInput} {G : NXGraph} (hwf : GraphWF S G)
    {u v : String} (h : Reach G u v) : Reach G v u := by
  induction h with
  | refl h => exact Reach.refl h
  | tail hr hadj ih =>
    rename_i a b
    have hb : b ∈ G.nodeList := (hwf.adj_nodes _ _ hadj).2
    exact Reach.trans (Reach.tail (Reach.refl hb) (hwf.adj_symm _ _ hadj)) ih

/-! ## BFS flood: soundness and completeness -/

/-- Everything the flood visits is reachable from something in the seed. -/
theorem floodAux_sound {S : List PipeInput} {G : NXGraph} (hwf : GraphWF S G)
    (root : String) :
    ∀ (fuel : Nat) (work seen : List String),
      (∀ x ∈ work, Reach G root x) → (∀ x ∈ seen, Reach G root x) →
      ∀ x ∈ floodAux G fuel work seen, Reach G root x
  | 0, work, seen, _, hseen => hseen
  | _ + 1, [], seen, _, hseen => hseen
  | fuel + 1, x :: work, seen, hwork, hseen => by
    intro y hy
    simp only [floodAux] at hy
    refine floodAux_sound hwf root fuel _ _ ?_ ?_ y hy
    · intro z hz
      rcases List.mem_append.mp hz with hz | hz
      · exact hwork z (List.mem_cons_of_mem _ hz)
      · have hz' := List.mem_filter.mp hz
        exact Reach.tail (hwork x (List.mem_cons_self _ _)) hz'.1
    · intro z hz
      rcases List.mem_append.mp hz with hz | hz
      · exact hseen z hz
      · have hz' := List.mem_filter.mp hz
        exact Reach.tail (hwork x (List.mem_cons_self _ _)) hz'.1

/-- Unvisited node count, the termination measure of the flood. -/
def unseenCount (G : NXGraph) (seen : List String) : ℕ :=
  (G.nodeList.filter (fun n => decide (n ∉ seen))).length

theorem filter_notMem_snoc {l : List String} (hl : l.Nodup) {a : String}
    (ha : a ∈ l) {s : List String} (has : a ∉ s) :
    (l.filter (fun n => decide (n ∉ s ++ [a]))).length + 1 =
      (l.filter (fun n => decide (n ∉ s))).length := by
  induction l with
  | nil => cases ha
  | cons x xs ih =>
    rcases List.mem_cons.mp ha with rfl | hax
    · have hxs : a ∉ xs := (List.nodup_cons.mp hl).1
      have hcongr : xs.filter (fun n => decide (n ∉ s ++ [a])) =
          xs.filter (fun n => decide (n ∉ s)) := by
        apply List.filter_congr
        intro y hy
        have hya : y ≠ a := fun h => hxs (h ▸ hy)
        simp [List.mem_append, hya]
      have h1 : (decide (a ∉ s ++ [a])) = false := by simp
      have h2 : (decide (a ∉ s)) = true := by simpa using has
      rw [List.filter_cons, List.filter_cons, h1, h2, hcongr]
      simp
    · have hax' : a ∈ xs := hax
      have ihx := ih (List.nodup_cons.mp hl).2 hax'
      by_cases hx : x ∈ s
      · have h1 : (decide (x ∉ s ++ [a])) = false := by simp [List.mem_append, hx]
        have h2 : (decide (x ∉ s)) = false := by simpa using hx
        simp only [List.filter_cons, h1, h2, Bool.false_eq_true, if_false]
        exact ihx
      · have hxa : x ≠ a := fun h => (List.nodup_cons.mp hl).1 (h ▸ hax')
        have h1 : (decide (x ∉ s ++ [a])) = true := by
          simp [List.mem_append, hx, hxa]
        have h2 : (decide (x ∉ s)) = true := by simpa using hx
        simp only [List.filter_cons, h1, h2, if_true, List.length_cons]
        omega

theorem filter_notMem_append {l : List String} (hl : l.Nodup) :
    ∀ (fresh s : List String), fresh.Nodup →
      (∀ x ∈ fresh, x ∈ l ∧ x ∉ s) →
      (l.filter (fun n => decide (n ∉ s ++ fresh))).length + fresh.length =
        (l.filter (fun n => decide (n ∉ s))).length
  | [], s, _, _ => by simp
  | a :: fr, s, hfn, hf => by
    have key : l.filter (fun n => decide (n ∉ s ++ a :: fr)) =
        l.filter (fun n => decide (n ∉ (s ++ [a]) ++ fr)) := by
      apply List.filter_congr
      intro y _
      simp [List.mem_append, or_assoc]
    rw [key]
    have hfr : ∀ x ∈ fr, x ∈ l ∧ x ∉ s ++ [a] := by
      intro x hx
      have h1 := hf x (List.mem_cons_of_mem _ hx)
      have h2 : x ≠ a := fun h => (List.nodup_cons.mp hfn).1 (h ▸ hx)
      simp only [List.mem_append, List.mem_singleton]
      exact ⟨h1.1, by push_neg; exact ⟨h1.2, h2⟩⟩
    have ih := filter_notMem_append hl fr (s ++ [a]) (List.nodup_cons.mp hfn).2 hfr
    have ha := hf a (List.mem_cons_self _ _)
    have hA := filter_notMem_snoc hl ha.1 ha.2
    simp only [List.length_cons]
    omega

/-- Core flood specification: with enough fuel, the result contains the
seed and is closed under adjacency. -/
theorem floodAux_spec {S : List PipeInput} {G : NXGraph} (hwf : GraphWF S G) :
    ∀ (fuel : Nat) (work seen : List String),
      work.Nodup → (∀ x ∈ work, x ∈ seen) →
      (∀ x ∈ seen, x ∉ work → ∀ y ∈ G.adjOf x, y ∈ seen) →
      work.length + unseenCount G seen < fuel →
      (∀ x ∈ seen, x ∈ floodAux G fuel work seen) ∧
      (∀ x ∈ floodAux G fuel work seen, ∀ y ∈ G.adjOf x, y ∈ floodAux G fuel work seen)
  | 0, work, seen, _, _, _, hfuel => absurd hfuel (by omega)
  | fuel + 1, [], seen, _, _, hclosed, _ => by
    refine ⟨fun x hx => ?_, fun x hx y hy => ?_⟩
    · simpa [floodAux] using hx
    · simp only [floodAux] at hx ⊢
      exact hclosed x hx (by simp) y hy
  | fuel + 1, x :: work, seen, hnd, hws, hclosed, hfuel => by
    simp only [floodAux]
    set fresh := (G.adjOf x).filter (fun y => decide (y ∉ seen)) with hfresh
    have hfresh_mem : ∀ y ∈ fresh, y ∈ G.adjOf x ∧ y ∉ seen := by
      intro y hy
      have := List.mem_filter.mp hy
      exact ⟨this.1, by simpa using this.2⟩
    have hfresh_nd : fresh.Nodup := (hwf.adj_nodup x).filter _
    have hcount : unseenCount G (seen ++ fresh) + fresh.length = unseenCount G seen := by
      unfold unseenCount
      exact filter_notMem_append hwf.nodes_nodup fresh seen hfresh_nd
        (fun y hy => ⟨(hwf.adj_nodes x y (hfresh_mem y hy).1).2, (hfresh_mem y hy).2⟩)
    have hnd' : (work ++ fresh).Nodup := by
      refine List.Nodup.append ((List.nodup_cons.mp hnd).2) hfresh_nd ?_
      intro a ha hafresh
      exact (hfresh_mem a hafresh).2 (hws a (List.mem_cons_of_mem _ ha))
    have hws' : ∀ z ∈ work ++ fresh, z ∈ seen ++ fresh := by
      intro z hz
      rcases List.mem_append.mp hz with hz | hz
      · exact List.mem_append.mpr (Or.inl (hws z (List.mem_cons_of_mem _ hz)))
      · exact List.mem_append.mpr (Or.inr hz)
    have hclosed' : ∀ z ∈ seen ++ fresh, z ∉ work ++ fresh →
        ∀ y ∈ G.adjOf z, y ∈ seen ++ fresh := by
      intro z hz hznw y hy
      by_cases hzx : z = x
      · subst hzx
        by_cases hys : y ∈ seen
        · exact List.mem_append.mpr (Or.inl hys)
        · refine List.mem_append.mpr (Or.inr ?_)
          exact List.mem_filter.mpr ⟨hy, by simpa using hys⟩
      · rcases List.mem_append.mp hz with hz | hz
        · have hz_nw : z ∉ work := fun h => hznw (List.mem_append.mpr (Or.inl h))
          have : z ∉ x :: work := by
            intro h
            rcases List.mem_cons.mp h with h | h
            · exact hzx h
            · exact hz_nw h
          exact List.mem_append.mpr (Or.inl (hclosed z hz this y hy))
        · exact absurd (List.mem_append.mpr (Or.inr hz)) hznw
    have hfuel' : (work ++ fresh).length + unseenCount G (seen ++ fresh) < fuel := by
      simp only [List.length_append]
      simp only [List.length_cons] at hfuel
      omega
    have ih := floodAux_spec hwf fuel (work ++ fresh) (seen ++ fresh) hnd' hws' hclosed' hfuel'
    refine ⟨fun z hz => ih.1 z (List.mem_append.mpr (Or.inl hz)), ih.2⟩

/-- Completeness: every node reachable from `root` appears in `reachList`. -/
theorem reachList_complete {S : List PipeInput} {G : NXGraph} (hwf : GraphWF S G)
    {root : String} (hroot : root ∈ G.nodeList) :
    ∀ {v : String}, Reach G root v → v ∈ reachList G root := by
  have hfuel : [root].length + unseenCount G [root] < G.nodeList.length + 1 := by
    have : unseenCount G [root] < G.nodeList.length := by
      unfold unseenCount
      rw [List.length_filter_lt_length_iff_exists]
      exact ⟨root, hroot, by simp⟩
    simp only [List.length_singleton]
    omega
  have hspec := floodAux_spec hwf (G.nodeList.length + 1) [root] [root]
    (List.nodup_singleton root) (fun x hx => hx) (fun x hx hnx => absurd hx hnx) hfuel
  intro v hv
  induction hv with
  | refl hu => exact hspec.1 root (List.mem_singleton.mpr rfl)
  | tail hr hadj ih => exact hspec.2 _ ih _ hadj

/-- Soundness: everything in `reachList` is reachable from `root`. -/
theorem reachList_sound {S : List PipeInput} {G : NXGraph} (hwf : GraphWF S G)
    {root : String} (hroot : root ∈ G.nodeList) :
    ∀ {v : String}, v ∈ reachList G root → Reach G root v := by
  intro v hv
  exact floodAux_sound hwf root _ [root] [root]
    (fun x hx => by rw [List.mem_singleton.mp hx]; exact Reach.refl hroot)
    (fun x hx => by rw [List.mem_singleton.mp hx]; exact Reach.refl hroot) v hv

/-- `is_connected G = some true` exactly when every node is reachable from
the first node. -/
theorem is_connected_some_true {S : List PipeInput} {G : NXGraph} (hwf : GraphWF S G)
    {r : String} {rest : List String} (hG : G.nodeList = r :: rest) :
    is_connected G = some true ↔ ∀ v ∈ G.nodeList, Reach G r v := by
  have hr : r ∈ G.nodeList := hG ▸ List.mem_cons_self r rest
  unfold is_connected
  rw [hG]
  constructor
  · intro h v hv
    have hd := Option.some_inj.mp h
    have hall := of_decide_eq_true hd
    exact reachList_sound hwf hr (hall v hv)
  · intro h
    simp only [Option.some.injEq]
    rw [decide_eq_true_iff]
    intro v hv
    exact reachList_complete hwf hr (h v hv)

/-! ## Properties of `pickMaxIdx` (Python `max(xs, key=f)`) -/

theorem pickMaxIdx_go {α : Type} (f : α → ℚ) :
    ∀ (l : List (Nat × α)) (b : Nat × α),
      (l.foldl (pickMaxStep f) (some b) = some b ∧ ∀ d ∈ l, f d.2 ≤ f b.2) ∨
      (∃ c l₁ l₂, l.foldl (pickMaxStep f) (some b) = some c ∧ l = l₁ ++ c :: l₂ ∧
        f b.2 < f c.2 ∧ (∀ d ∈ l₁, f d.2 < f c.2) ∧ ∀ d ∈ l₂, f d.2 ≤ f c.2)
  | [], b => Or.inl ⟨rfl, by simp⟩
  | x :: xs, b => by
    by_cases hx : f b.2 < f x.2
    · have step : (x :: xs).foldl (pickMaxStep f) (some b) =
          xs.foldl (pickMaxStep f) (some x) := by
        simp [List.foldl_cons, pickMaxStep, hx]
      rcases pickMaxIdx_go f xs x with ⟨heq, hle⟩ | ⟨c, l₁, l₂, heq, hsplit, hlt, hl₁, hl₂⟩
      · refine Or.inr ⟨x, [], xs, ?_, by simp, hx, by simp, hle⟩
        rw [step, heq]
      · refine Or.inr ⟨c, x :: l₁, l₂, ?_, by simp [hsplit], lt_trans hx hlt, ?_, hl₂⟩
        · rw [step, heq]
        · intro d hd
          rcases List.mem_cons.mp hd with rfl | hd
          · exact hlt
          · exact hl₁ d hd
    · have step : (x :: xs).foldl (pickMaxStep f) (some b) =
          xs.foldl (pickMaxStep f) (some b) := by
        simp [List.foldl_cons, pickMaxStep, hx]
      rcases pickMaxIdx_go f xs b with ⟨heq, hle⟩ | ⟨c, l₁, l₂, heq, hsplit, hlt, hl₁, hl₂⟩
      · refine Or.inl ⟨step ▸ heq, ?_⟩
        intro d hd
        rcases List.mem_cons.mp hd with rfl | hd
        · exact le_of_not_lt hx
        · exact hle d hd
      · refine Or.inr ⟨c, x :: l₁, l₂, step ▸ heq, by simp [hsplit], hlt, ?_, hl₂⟩
        intro d hd
        rcases List.mem_cons.mp hd with rfl | hd
        · exact lt_of_le_of_lt (le_of_not_lt hx) hlt
        · exact hl₁ d hd

theorem pickMaxIdx_none {α : Type} (f : α → ℚ) {l : List (Nat × α)}
    (h : pickMaxIdx f l = none) : l = [] := by
  cases l with
  | nil => rfl
  | cons x xs =>
    exfalso
    unfold pickMaxIdx at h
    rw [List.foldl_cons] at h
    have hstep : pickMaxStep f none x = some x := rfl
    rw [hstep] at h
    rcases pickMaxIdx_go f xs x with ⟨heq, -⟩ | ⟨c, _, _, heq, -⟩ <;>
      rw [heq] at h <;> cases h

/-- The element Python's `max` picks: a maximum, and strictly greater than
everything before it. -/
theorem pickMaxIdx_spec {α : Type} (f : α → ℚ) {l : List (Nat × α)} {c : Nat × α}
    (h : pickMaxIdx f l = some c) :
    ∃ l₁ l₂, l = l₁ ++ c :: l₂ ∧ (∀ d ∈ l₁, f d.2 < f c.2) ∧
      ∀ d ∈ l, f d.2 ≤ f c.2 := by
  cases l with
  | nil => cases h
  | cons x xs =>
    unfold pickMaxIdx at h
    rw [List.foldl_cons] at h
    have hstep : pickMaxStep f none x = some x := rfl
    rw [hstep] at h
    rcases pickMaxIdx_go f xs x with ⟨heq, hle⟩ | ⟨c', l₁, l₂, heq, hsplit, hlt, hl₁, hl₂⟩
    · rw [heq] at h
      obtain rfl := Option.some_inj.mp h
      refine ⟨[], xs, by simp, by simp, ?_⟩
      intro d hd
      rcases List.mem_cons.mp hd with rfl | hd
      · exact le_refl _
      · exact hle d hd
    · rw [heq] at h
      obtain rfl := Option.some_inj.mp h
      refine ⟨x :: l₁, l₂, by simp [hsplit], ?_, ?_⟩
      · intro d hd
        rcases List.mem_cons.mp hd with rfl | hd
        · exact hlt
        · exact hl₁ d hd
      · intro d hd
        rcases List.mem_cons.mp hd with rfl | hd
        · exact le_of_lt hlt
        · rw [hsplit] at hd
          rcases List.mem_append.mp hd with hd | hd
          · exact le_of_lt (hl₁ d hd)
          · rcases List.mem_cons.mp hd with rfl | hd
            · exact le_refl _
            · exact hl₂ d hd

/-- Sum of mapped values after a positional `set`. -/
theorem sum_map_set {α : Type} (g : α → ℚ) :
    ∀ (l : List α) (i : Nat) (n x : α), l.get? i = some n →
      ((l.set i x).map g).sum = (l.map g).sum - g n + g x
  | [], i, n, x, h => by cases h
  | a :: l, 0, n, x, h => by
    obtain rfl := Option.some_inj.mp h
    simp [List.set]
    ring
  | a :: l, i + 1, n, x, h => by
    have ih := sum_map_set g l i n x h
    simp only [List.set, List.map_cons, List.sum_cons, ih]
    ring

/-! ## Claim C6: darcy-mode demand balancing -/

/-- In a list whose first components are strictly increasing, an element with
index below the split element's index lies in the prefix. -/
theorem mem_prefix_of_fst_lt {α : Type} {l l₁ l₂ : List (Nat × α)} {c d : Nat × α}
    (hsplit : l = l₁ ++ c :: l₂)
    (hpw : (l.map Prod.fst).Pairwise (· < ·))
    (hd : d ∈ l) (hlt : d.1 < c.1) : d ∈ l₁ := by
  subst hsplit
  rcases List.mem_append.mp hd with h | h
  · exact h
  · rcases List.mem_cons.mp h with rfl | h
    · omega
    · exfalso
      rw [List.map_append, List.map_cons] at hpw
      have := (List.pairwise_append.mp hpw).2.1
      rw [List.pairwise_cons] at this
      have hcd : c.1 < d.1 := this.1 d.1 (List.mem_map_of_mem Prod.fst h)
      omega

/-- C6: in darcy mode, after missing demands are filled with 0, if
`|total| > 1e-6` then exactly one node is adjusted — the first node with the
largest positive demand, or, if none is positive, the first node with the
largest absolute demand — by subtracting the total imbalance, after which the
demands sum to 0; otherwise nothing is changed and the sum stays within
1e-6. -/
theorem c6_demand_balancing (nodes : List NodeInput) (pipes : List PipeInput)
    (filled : List NodeInput) (total : ℚ)
    (hfill : filled = nodes.map fillDemand)
    (htot : total = (filled.map demandOf).sum) :
    (1e-6 < |total| →
      ∃ i n, filled.get? i = some n ∧
        (validate_and_fix_network nodes pipes "darcy").1 =
          filled.set i { n with demand := some (demandOf n - total) } ∧
        demandOf n - total ≠ demandOf n ∧
        (((∃ m ∈ filled, 0 < demandOf m) ∧ 0 < demandOf n ∧
            (∀ m ∈ filled, 0 < demandOf m → demandOf m ≤ demandOf n) ∧
            (∀ j m, j < i → filled.get? j = some m → 0 < demandOf m →
              demandOf m < demandOf n)) ∨
         ((¬ ∃ m ∈ filled, 0 < demandOf m) ∧
            (∀ m ∈ filled, |demandOf m| ≤ |demandOf n|) ∧
            (∀ j m, j < i → filled.get? j = some m →
              |demandOf m| < |demandOf n|))) ∧
        (((validate_and_fix_network nodes pipes "darcy").1.map demandOf).sum = 0)) ∧
    (|total| ≤ 1e-6 →
      (validate_and_fix_network nodes pipes "darcy").1 = filled ∧
      |(((validate_and_fix_network nodes pipes "darcy").1.map demandOf).sum)| ≤ 1e-6) := by
  have hval : (validate_and_fix_network nodes pipes "darcy").1 =
      balanceDemandsDarcy nodes := rfl
  have hunfold : balanceDemandsDarcy nodes =
      (if 1e-6 < |total| then
        (match (if ¬ (filled.enum.filter
              (fun p => decide (0 < demandOf p.2))).isEmpty then
            pickMaxIdx demandOf (filled.enum.filter (fun p => decide (0 < demandOf p.2)))
          else pickMaxIdx (fun n => |demandOf n|) filled.enum) with
         | none => filled
         | some (i, n) => filled.set i { n with demand := some (demandOf n - total) })
      else filled) := by
    subst hfill
    subst htot
    rfl
  have hpw : (filled.enum.map Prod.fst).Pairwise (· < ·) := by
    rw [List.enum_map_fst]
    exact List.pairwise_lt_range _
  rw [hval, hunfold]
  constructor
  · intro h6
    have htotne : total ≠ 0 := by
      intro h
      rw [h] at h6
      simp at h6
      exact absurd h6 (by norm_num)
    rw [if_pos h6]
    set cand := filled.enum.filter (fun p => decide (0 < demandOf p.2)) with hcand
    by_cases hce : cand.isEmpty
    · -- no node has positive demand: first max of |demand|
      have hnopos : ¬ ∃ m ∈ filled, 0 < demandOf m := by
        rintro ⟨m, hm, hmpos⟩
        obtain ⟨j, hj⟩ := List.mem_iff_get?.mp hm
        have hmem : ((j, m) : Nat × NodeInput) ∈ filled.enum :=
          List.mk_mem_enum_iff_get?.mpr hj
        have : ((j, m) : Nat × NodeInput) ∈ cand :=
          List.mem_filter.mpr ⟨hmem, by simpa using hmpos⟩
        rw [List.isEmpty_iff] at hce
        rw [hce] at this
        cases this
      rw [if_neg (by simpa using hce)]
      cases hpick : pickMaxIdx (fun n => |demandOf n|) filled.enum with
      | none =>
        exfalso
        have := pickMaxIdx_none _ hpick
        have hemp : filled = [] := by
          cases hf : filled with
          | nil => rfl
          | cons a l => rw [hf] at this; simp [List.enum] at this
        rw [hemp] at htot
        simp at htot
        exact htotne htot
      | some c =>
        obtain ⟨ci, cn⟩ := c
        obtain ⟨l₁, l₂, hsplit, hl₁, hall⟩ := pickMaxIdx_spec _ hpick
        have hcmem : ((ci, cn) : Nat × NodeInput) ∈ filled.enum := by rw [hsplit]; simp
        have hget : filled.get? ci = some cn := List.mem_enum_iff_get?.mp hcmem
        refine ⟨ci, cn, hget, rfl, ?_, ?_, ?_⟩
        · intro heq
          apply htotne
          linarith [heq]
        · refine Or.inr ⟨hnopos, ?_, ?_⟩
          · intro m hm
            obtain ⟨j, hj⟩ := List.mem_iff_get?.mp hm
            exact hall (j, m) (List.mk_mem_enum_iff_get?.mpr hj)
          · intro j m hji hjget
            have hmem : ((j, m) : Nat × NodeInput) ∈ filled.enum :=
              List.mk_mem_enum_iff_get?.mpr hjget
            have : ((j, m) : Nat × NodeInput) ∈ l₁ :=
              mem_prefix_of_fst_lt hsplit hpw hmem hji
            exact hl₁ (j, m) this
        · show ((filled.set ci
              { cn with demand := some (demandOf cn - total) }).map demandOf).sum = 0
          rw [sum_map_set demandOf filled ci cn _ hget]
          have hd : demandOf { cn with demand := some (demandOf cn - total) } =
              demandOf cn - total := by simp [demandOf]
          rw [hd, ← htot]
          ring
    · -- some node has positive demand: first max of positive demands
      rw [if_pos (by simpa using hce)]
      cases hpick : pickMaxIdx demandOf cand with
      | none =>
        exfalso
        have := pickMaxIdx_none _ hpick
        rw [this] at hce
        simp at hce
      | some c =>
        obtain ⟨ci, cn⟩ := c
        obtain ⟨l₁, l₂, hsplit, hl₁, hall⟩ := pickMaxIdx_spec _ hpick
        have hcmem : ((ci, cn) : Nat × NodeInput) ∈ cand := by rw [hsplit]; simp
        have hcenum : ((ci, cn) : Nat × NodeInput) ∈ filled.enum :=
          (List.mem_filter.mp hcmem).1
        have hcpos : 0 < demandOf cn := by
          have := (List.mem_filter.mp hcmem).2
          simpa using this
        have hget : filled.get? ci = some cn := List.mem_enum_iff_get?.mp hcenum
        have hcandpw : (cand.map Prod.fst).Pairwise (· < ·) :=
          hpw.sublist ((List.filter_sublist _).map Prod.fst)
        refine ⟨ci, cn, hget, rfl, ?_, ?_, ?_⟩
        · intro heq
          apply htotne
          linarith [heq]
        · have hc2mem : cn ∈ filled := List.mem_iff_get?.mpr ⟨ci, hget⟩
          refine Or.inl ⟨⟨cn, hc2mem, hcpos⟩, hcpos, ?_, ?_⟩
          · intro m hm hmpos
            obtain ⟨j, hj⟩ := List.mem_iff_get?.mp hm
            have hmem : ((j, m) : Nat × NodeInput) ∈ cand :=
              List.mem_filter.mpr ⟨List.mk_mem_enum_iff_get?.mpr hj, by simpa using hmpos⟩
            exact hall (j, m) hmem
          · intro j m hji hjget hmpos
            have hmem : ((j, m) : Nat × NodeInput) ∈ cand :=
              List.mem_filter.mpr ⟨List.mk_mem_enum_iff_get?.mpr hjget, by simpa using hmpos⟩
            have : ((j, m) : Nat × NodeInput) ∈ l₁ :=
              mem_prefix_of_fst_lt hsplit hcandpw hmem hji
            exact hl₁ (j, m) this
        · show ((filled.set ci
              { cn with demand := some (demandOf cn - total) }).map demandOf).sum = 0
          rw [sum_map_set demandOf filled ci cn _ hget]
          have hd : demandOf { cn with demand := some (demandOf cn - total) } =
              demandOf cn - total := by simp [demandOf]
          rw [hd, ← htot]
          ring
  · intro h6
    have hn6 : ¬ 1e-6 < |total| := not_lt.mpr h6
    rw [if_neg hn6]
    exact ⟨rfl, htot ▸ h6⟩

/-- Concrete validator input: total demand `2 > 1e-6`, balanced at `A`. -/
def c6exNodes : List NodeInput :=
  [{ id := "A", demand := some 5 }, { id := "B", demand := some (-3) }]

/-- Witness for C6 at a concrete network. -/
theorem c6_demand_balancing_witness :
    (1e-6 : ℚ) < |((c6exNodes.map fillDemand).map demandOf).sum| ∧
    (∃ i n, (c6exNodes.map fillDemand).get? i = some n ∧
      (validate_and_fix_network c6exNodes [] "darcy").1 =
        (c6exNodes.map fillDemand).set i
          { n with demand := some (demandOf n -
              ((c6exNodes.map fillDemand).map demandOf).sum) } ∧
      demandOf n - ((c6exNodes.map fillDemand).map demandOf).sum ≠ demandOf n ∧
      (((∃ m ∈ c6exNodes.map fillDemand, 0 < demandOf m) ∧ 0 < demandOf n ∧
          (∀ m ∈ c6exNodes.map fillDemand, 0 < demandOf m → demandOf m ≤ demandOf n) ∧
          (∀ j m, j < i → (c6exNodes.map fillDemand).get? j = some m →
            0 < demandOf m → demandOf m < demandOf n)) ∨
       ((¬ ∃ m ∈ c6exNodes.map fillDemand, 0 < demandOf m) ∧
          (∀ m ∈ c6exNodes.map fillDemand, |demandOf m| ≤ |demandOf n|) ∧
          (∀ j m, j < i → (c6exNodes.map fillDemand).get? j = some m →
            |demandOf m| < |demandOf n|))) ∧
      (((validate_and_fix_network c6exNodes [] "darcy").1.map demandOf).sum = 0)) :=
  ⟨by norm_num [c6exNodes, fillDemand, demandOf],
    (c6_demand_balancing c6exNodes [] (c6exNodes.map fillDemand)
      ((c6exNodes.map fillDemand).map demandOf).sum rfl rfl).1
      (by norm_num [c6exNodes, fillDemand, demandOf])⟩

/-! ## Claim C2: tree networks -/

/-- An iteration over an empty loop list is a no-op with zero correction. -/
theorem hardyIteration_nil (G : NXGraph) (pm : List (String × PipeInput))
    (pk : List (String × ℚ)) (flows : List (String × ℚ)) (i : Nat) :
    hardyIteration G pm pk [] flows i =
      (flows, 0, ⟨i + 1, [], flows.map (fun p => (p.1, pyRound p.2 6)), pyRound 0 8⟩) := rfl

/-- With no loops, the Hardy Cross loop converges after exactly one (no-op)
iteration, leaving the flows untouched and recording one history entry. -/
theorem hardyLoop_nil (G : NXGraph) (pm : List (String × PipeInput))
    (pk : List (String × ℚ)) (fuel i : Nat) (flows : List (String × ℚ))
    (hist : List IterLogRec) :
    hardyLoop G pm pk [] (fuel + 1) i flows hist =
      (flows, true,
        hist ++ [⟨i + 1, [], flows.map (fun p => (p.1, pyRound p.2 6)), pyRound 0 8⟩]) := by
  simp only [hardyLoop, hardyIteration_nil]
  rw [if_pos (by norm_num : (0 : ℚ) < 1e-6)]

/-- Projection used to state results about the reported iteration count. -/
def SolveOutcome.iterationsOf : SolveOutcome → Option Nat
  | .result r => some r.iterations
  | _ => none

/-- A single-pipe tree network. -/
def c2exNet : NetworkInput :=
  { pipes := [{ id := "P1", start_node := "A", end_node := "B" }]
    nodes := [{ id := "A", demand := some 10 }, { id := "B", demand := some (-10) }] }

/-- C2 counterexample: a tree network (empty cycle basis) for which the solver
reports `iterations = 1`, not `0` as the claim states. -/
theorem c2_counterexample :
    cycle_basis (buildGraph
      (validate_and_fix_network c2exNet.nodes c2exNet.pipes "darcy").2) = [] ∧
    (solve_network c2exNet).iterationsOf = some 1 ∧ (1 : Nat) ≠ 0 := by
  refine ⟨by with_unfolding_all rfl, by with_unfolding_all rfl, by decide⟩

/-- C2 (amended): for a darcy network whose computed cycle basis is empty
(a tree), the solver performs no flow corrections — the final internal flows
are exactly the initializer's output — but the outer loop still runs one
no-op iteration, so the reported iteration count is `1` (not `0`), the run
converges, and the reported per-pipe results are the initializer's flows
(rounded for display). -/
theorem c2_tree_amended (data : NetworkInput) (nodes' : List NodeInput)
    (pipes' : List PipeInput) (flows : List (String × ℚ))
    (hm : data.method = "darcy")
    (hv : validate_and_fix_network data.nodes data.pipes data.method = (nodes', pipes'))
    (hconn : is_connected (buildGraph pipes') = some true)
    (hloops : cycle_basis (buildGraph pipes') = [])
    (hinit : initFlowsRobust nodes' pipes' = .ok flows) :
    (hardyLoop (buildGraph pipes') (pipes'.foldl (fun m p => aset m p.id p) [])
        (pipes'.foldl (fun m p => aset m p.id (calculate_resistance_coefficient p)) [])
        (cycle_basis (buildGraph pipes')) 100 0 flows []).1 = flows ∧
    solve_network data = SolveOutcome.result
      { converged := true
        iterations := 1
        results := formatDarcyResults (pipes'.foldl (fun m p => aset m p.id p) [])
          (pipes'.foldl (fun m p => aset m p.id (calculate_resistance_coefficient p)) [])
          flows
        history := [{ iteration := 1, loops := []
                      pipe_flows := flows.map (fun p => (p.1, pyRound p.2 6))
                      max_correction := pyRound 0 8 }] } := by
  have h100 : hardyLoop (buildGraph pipes') (pipes'.foldl (fun m p => aset m p.id p) [])
      (pipes'.foldl (fun m p => aset m p.id (calculate_resistance_coefficient p)) [])
      [] 100 0 flows [] =
      (flows, true, [⟨1, [], flows.map (fun p => (p.1, pyRound p.2 6)), pyRound 0 8⟩]) :=
    hardyLoop_nil _ _ _ 99 0 flows []
  constructor
  · rw [hloops, h100]
  · simp only [solve_network]
    rw [hv]
    simp only [hm]
    rw [if_neg (by decide : ¬("darcy" : String) = "puzzle")]
    simp only [hconn, hloops, hinit, h100]
    rfl

/-- Witness for the amended C2: the single-pipe tree network converges in one
reported (no-op) iteration with the initializer's flow of `10`. -/
theorem c2_tree_witness :
    ∃ r, solve_network c2exNet = SolveOutcome.result r ∧ r.iterations = 1 ∧
      r.converged = true ∧
      r.results = formatDarcyResults
        ((validate_and_fix_network c2exNet.nodes c2exNet.pipes "darcy").2.foldl
          (fun m p => aset m p.id p) [])
        ((validate_and_fix_network c2exNet.nodes c2exNet.pipes "darcy").2.foldl
          (fun m p => aset m p.id (calculate_resistance_coefficient p)) [])
        [("P1", 10)] := by
  have h := c2_tree_amended c2exNet
    [{ id := "A", demand := some 10 }, { id := "B", demand := some (-10) }]
    [{ id := "P1", start_node := "A", end_node := "B" }]
    [("P1", 10)]
    rfl (by with_unfolding_all rfl) (by with_unfolding_all rfl)
    (by with_unfolding_all rfl) (by with_unfolding_all rfl)
  exact ⟨_, h.2, rfl, rfl, by with_unfolding_all rfl⟩

/-! ## Claim C9: zero-pipe input -/

/-- A darcy-mode input with zero pipes. -/
def c9exNet : NetworkInput :=
  { pipes := [], nodes := [{ id := "A", demand := some 1 }] }

/-- C9 counterexample: with zero pipes in darcy mode, `nx.is_connected` is
called on the null graph and raises `NetworkXPointlessConcept`; the exception
escapes `solve_network` (modelled by the `exn` outcome), so the solver does
*not* return a structured result or error object. -/
theorem c9_counterexample :
    solve_network c9exNet =
      SolveOutcome.exn "Connectivity is undefined for the null graph." ∧
    (∀ r, SolveOutcome.exn "Connectivity is undefined for the null graph." ≠
      SolveOutcome.result r) ∧
    (∀ m, SolveOutcome.exn "Connectivity is undefined for the null graph." ≠
      SolveOutcome.error m) := by
  refine ⟨by with_unfolding_all rfl, ?_, ?_⟩ <;> intro x h <;> cases h

/-- C9 (amended): a *puzzle-mode* input with zero pipes is handled without
raising: `solve_network` returns a structured result.  (In darcy mode a
zero-pipe input makes the connectivity check raise on the null graph, see
the counterexample.) -/
theorem c9_puzzle_zero_pipes_amended (nodes : List NodeInput) :
    ∃ r, solve_network { method := "puzzle", pipes := [], nodes := nodes } =
      SolveOutcome.result r := by
  exact ⟨_, rfl⟩

/-! ## Claim C8: disconnected darcy networks -/

/-- C8: a darcy-mode input whose pipe graph has two or more connected
components (witnessed by two graph nodes that are not mutually reachable)
makes `solve_network` return the structured connectivity error — an
`{"error": ...}` object carrying no results and no partial numeric output. -/
theorem c8_disconnected_error (data : NetworkInput) (u v : String)
    (hm : data.method = "darcy")
    (hu : u ∈ (buildGraph
      (validate_and_fix_network data.nodes data.pipes data.method).2).nodeList)
    (hvv : v ∈ (buildGraph
      (validate_and_fix_network data.nodes data.pipes data.method).2).nodeList)
    (hnr : ¬ Reach (buildGraph
      (validate_and_fix_network data.nodes data.pipes data.method).2) u v) :
    solve_network data =
      SolveOutcome.error "Network is not fully connected. Check pipe definitions." := by
  set pipes' := (validate_and_fix_network data.nodes data.pipes data.method).2 with hp
  set G := buildGraph pipes' with hG
  have hwf := buildGraph_wf pipes'
  have hnempty : G.nodeList ≠ [] := fun h => by rw [h] at hu; cases hu
  obtain ⟨r, rest, hrl⟩ : ∃ r rest, G.nodeList = r :: rest := by
    cases hl : G.nodeList with
    | nil => exact absurd hl hnempty
    | cons a l => exact ⟨a, l, rfl⟩
  have hrmem : r ∈ G.nodeList := hrl ▸ List.mem_cons_self r rest
  have hfalse : is_connected G = some false := by
    have hnall : ¬ ∀ w ∈ G.nodeList, w ∈ reachList G r := by
      intro hall
      apply hnr
      have hru : Reach G r u := reachList_sound hwf hrmem (hall u hu)
      have hrv : Reach G r v := reachList_sound hwf hrmem (hall v hvv)
      exact Reach.trans (Reach.symm hwf hru) hrv
    rw [hrl] at hnall
    unfold is_connected
    rw [hrl]
    exact congrArg some (decide_eq_false hnall)
  simp only [solve_network, ← hp, ← hG]
  rw [hm]
  rw [if_neg (by decide : ¬("darcy" : String) = "puzzle")]
  rw [hfalse]

/-- A darcy network with two disconnected components. -/
def c8exNet : NetworkInput :=
  { pipes := [{ id := "P1", start_node := "A", end_node := "B" },
              { id := "P2", start_node := "C", end_node := "D" }]
    nodes := [{ id := "A", demand := some 5 }, { id := "B", demand := some (-5) },
              { id := "C", demand := some 0 }, { id := "D", demand := some 0 }] }

/-- Witness for C8 at a concrete two-component network. -/
theorem c8_disconnected_error_witness :
    c8exNet.method = "darcy" ∧
    "A" ∈ (buildGraph
      (validate_and_fix_network c8exNet.nodes c8exNet.pipes c8exNet.method).2).nodeList ∧
    "C" ∈ (buildGraph
      (validate_and_fix_network c8exNet.nodes c8exNet.pipes c8exNet.method).2).nodeList ∧
    ¬ Reach (buildGraph
      (validate_and_fix_network c8exNet.nodes c8exNet.pipes c8exNet.method).2) "A" "C" ∧
    solve_network c8exNet =
      SolveOutcome.error "Network is not fully connected. Check pipe definitions." := by
  have hnr : ¬ Reach (buildGraph
      (validate_and_fix_network c8exNet.nodes c8exNet.pipes c8exNet.method).2) "A" "C" := by
    intro h
    have hmem := reachList_complete (buildGraph_wf _)
      (by with_unfolding_all decide) h
    revert hmem
    with_unfolding_all decide
  exact ⟨rfl, by with_unfolding_all decide, by with_unfolding_all decide, hnr,
    c8_disconnected_error c8exNet "A" "C" rfl (by with_unfolding_all decide)
      (by with_unfolding_all decide) hnr⟩

/-! ## Claim C3: caller-input mutation -/

/-- The caller's node objects after `solve_network data` returns.
`solve_network` calls
`validate_and_fix_network(data.nodes.copy(), data.pipes.copy(), ...)`;
`.copy()` on a Python list is *shallow* — it duplicates the list but shares
the `NodeInput` element objects — and the validator assigns `n.demand` (and
`max_node.demand -= total`) on those shared objects, so after the call the
caller's own node objects carry the validated values. -/
def callerNodesAfterSolve (data : NetworkInput) : List NodeInput :=
  (validate_and_fix_network data.nodes data.pipes data.method).1

/-- The caller's pipe objects after `solve_network data` returns (shared
through the shallow `data.pipes.copy()`, mutated by the default filling). -/
def callerPipesAfterSolve (data : NetworkInput) : List PipeInput :=
  (validate_and_fix_network data.nodes data.pipes data.method).2

/-- A network whose validation must fill a missing pipe length and rebalance
a demand. -/
def c3exNet : NetworkInput :=
  { pipes := [{ id := "P1", start_node := "A", end_node := "B", length := none }]
    nodes := [{ id := "A", demand := some 5 }, { id := "B", demand := some (-3) }] }

/-- C3 fails on the code (code bug): solving `c3exNet` mutates the caller's
objects — node `A`'s demand is rewritten from `5` to `3` by the continuity
balancing, and pipe `P1`'s `None` length is overwritten with `1.0` — because
`data.nodes.copy()` / `data.pipes.copy()` copy only the lists, not the
element objects the validator mutates. -/
theorem c3_mutation_code_bug :
    callerNodesAfterSolve c3exNet ≠ c3exNet.nodes ∧
    callerPipesAfterSolve c3exNet ≠ c3exNet.pipes ∧
    callerNodesAfterSolve c3exNet =
      [{ id := "A", demand := some 3 }, { id := "B", demand := some (-3) }] ∧
    c3exNet.nodes =
      [{ id := "A", demand := some 5 }, { id := "B", demand := some (-3) }] ∧
    (callerPipesAfterSolve c3exNet).map PipeInput.length = [some 1] ∧
    c3exNet.pipes.map PipeInput.length = [none] := by
  refine ⟨?_, ?_, ?_, rfl, ?_, rfl⟩ <;> with_unfolding_all decide

/-! ## Claim C10: puzzle-mode result shape -/

/-- C10: every structured puzzle-mode result has `converged = true` and
`history = []` unconditionally, its `results` list is the formatter applied
to the final deduction state, and a pipe whose flow (resp. head loss) is
still unresolved in that state is reported with `flow = 0` and
`flow_direction = "unknown"` (resp. `head_loss = 0`) rather than an error. -/
theorem c10_puzzle_result_shape (data : NetworkInput) (r : SolveResultData)
    (hm : data.method = "puzzle")
    (hr : solve_network data = SolveOutcome.result r) :
    r.converged = true ∧ r.history = [] ∧
    ∃ stF : PuzzleState,
      r.results = formatPuzzleResults stF
        (validate_and_fix_network data.nodes data.pipes data.method).2 ∧
      ∀ i p, (validate_and_fix_network data.nodes data.pipes data.method).2.get? i
          = some p →
        (alookup stF.solved_flows p.id = none →
          ∃ pr, r.results.get? i = some pr ∧ pr.flow = 0 ∧
            pr.flow_direction = "unknown") ∧
        (alookup stF.solved_hl p.id = none →
          ∃ pr, r.results.get? i = some pr ∧ pr.head_loss = 0) := by
  set nodes' := (validate_and_fix_network data.nodes data.pipes data.method).1 with hn
  set pipes' := (validate_and_fix_network data.nodes data.pipes data.method).2 with hp
  have hsp : solve_puzzle_network nodes' pipes' = SolveOutcome.result r := by
    rw [← hr]
    simp only [solve_network, ← hn, ← hp]
    rw [if_pos hm]
  rw [solve_puzzle_network] at hsp
  cases hadj : buildPuzzleAdj nodes' pipes' with
  | error e =>
    rw [hadj] at hsp
    cases hsp
  | ok adj =>
    rw [hadj] at hsp
    injection hsp with h
    subst h
    refine ⟨rfl, rfl, _, rfl, ?_⟩
    intro i p hip
    have hget : ∀ st : PuzzleState,
        (formatPuzzleResults st pipes').get? i = some (formatPuzzlePipe st p) := by
      intro st
      rw [formatPuzzleResults, List.get?_map, hip]
      rfl
    constructor
    · intro hflow
      refine ⟨_, hget _, ?_, ?_⟩
      · show (formatPuzzlePipe _ p).flow = 0
        rw [formatPuzzlePipe]
        simp only [hflow]
      · show (formatPuzzlePipe _ p).flow_direction = "unknown"
        rw [formatPuzzlePipe]
        simp only [hflow]
    · intro hhl
      refine ⟨_, hget _, ?_⟩
      show (formatPuzzlePipe _ p).head_loss = 0
      rw [formatPuzzlePipe]
      simp only [hhl]

/-- A puzzle input with nothing known: every field stays unresolved. -/
def c10exNet : NetworkInput :=
  { method := "puzzle"
    pipes := [{ id := "P1", start_node := "A", end_node := "B" }]
    nodes := [{ id := "A" }, { id := "B" }] }

/-- Witness for C10: a fully-unknown puzzle input still yields
`converged = true`, `history = []`, and its unresolved pipe is formatted with
flow `0` and direction `"unknown"`. -/
theorem c10_puzzle_result_shape_witness :
    ∃ r, solve_network c10exNet = SolveOutcome.result r ∧
      r.converged = true ∧ r.history = [] ∧
      ∃ pr, r.results.get? 0 = some pr ∧ pr.flow = 0 ∧
        pr.flow_direction = "unknown" := by
  have h := c10_puzzle_result_shape c10exNet _ rfl (by with_unfolding_all rfl)
  refine ⟨_, by with_unfolding_all rfl, h.1, h.2.1, ?_⟩
  exact ⟨_, by with_unfolding_all rfl, by with_unfolding_all rfl,
    by with_unfolding_all rfl⟩

/-! ## Claim C7: puzzle-mode node mass balance -/

/-- Σ of solved flows over a node's inflow connections (`dir = -1`),
reading unresolved flows as 0. -/
def connSumIn (st : PuzzleState) (conns : List AdjEntry) : ℚ :=
  ((conns.filter (fun c => decide (c.dir = -1))).map
    (fun c => (alookup st.solved_flows c.pid).getD 0)).sum

/-- Σ of solved flows over a node's outflow connections (`dir = 1`). -/
def connSumOut (st : PuzzleState) (conns : List AdjEntry) : ℚ :=
  ((conns.filter (fun c => decide (c.dir = 1))).map
    (fun c => (alookup st.solved_flows c.pid).getD 0)).sum

theorem foldl_add_eq_sum {α : Type} (f : α → ℚ) :
    ∀ (l : List α) (a : ℚ), l.foldl (fun s c => s + f c) a = a + (l.map f).sum
  | [], a => by simp
  | x :: l, a => by
    rw [List.foldl_cons, foldl_add_eq_sum f l (a + f x)]
    simp [List.map_cons, List.sum_cons]
    ring

theorem connSumIn_append (st : PuzzleState) (L R : List AdjEntry) :
    connSumIn st (L ++ R) = connSumIn st L + connSumIn st R := by
  simp [connSumIn, List.filter_append]

theorem connSumOut_append (st : PuzzleState) (L R : List AdjEntry) :
    connSumOut st (L ++ R) = connSumOut st L + connSumOut st R := by
  simp [connSumOut, List.filter_append]

theorem connSumIn_cons (st : PuzzleState) (u : AdjEntry) (R : List AdjEntry) :
    connSumIn st (u :: R) =
      (if u.dir = -1 then (alookup st.solved_flows u.pid).getD 0 else 0) +
        connSumIn st R := by
  by_cases h : u.dir = -1 <;> simp [connSumIn, List.filter_cons, h]

theorem connSumOut_cons (st : PuzzleState) (u : AdjEntry) (R : List AdjEntry) :
    connSumOut st (u :: R) =
      (if u.dir = 1 then (alookup st.solved_flows u.pid).getD 0 else 0) +
        connSumOut st R := by
  by_cases h : u.dir = 1 <;> simp [connSumOut, List.filter_cons, h]

theorem connSumIn_congr {st₁ st₂ : PuzzleState} {l : List AdjEntry}
    (h : ∀ c ∈ l, alookup st₁.solved_flows c.pid = alookup st₂.solved_flows c.pid) :
    connSumIn st₁ l = connSumIn st₂ l := by
  unfold connSumIn
  congr 1
  apply List.map_congr_left
  intro c hc
  rw [h c (List.mem_of_mem_filter hc)]

theorem connSumOut_congr {st₁ st₂ : PuzzleState} {l : List AdjEntry}
    (h : ∀ c ∈ l, alookup st₁.solved_flows c.pid = alookup st₂.solved_flows c.pid) :
    connSumOut st₁ l = connSumOut st₂ l := by
  unfold connSumOut
  congr 1
  apply List.map_congr_left
  intro c hc
  rw [h c (List.mem_of_mem_filter hc)]

/-- The directions produced by `buildPuzzleAdj` are always `±1`. -/
theorem pushEntry_dirs {init : List (String × List AdjEntry)} {x : String}
    {en : AdjEntry} {res : List (String × List AdjEntry)}
    (hinit : ∀ k, ∀ e ∈ (alookup init k).getD [], e.dir = 1 ∨ e.dir = -1)
    (hen : en.dir = 1 ∨ en.dir = -1)
    (hres : pushEntry init x en = .ok res) :
    ∀ k, ∀ e ∈ (alookup res k).getD [], e.dir = 1 ∨ e.dir = -1 := by
  intro k e he
  unfold pushEntry at hres
  cases hl : alookup init x with
  | none => rw [hl] at hres; cases hres
  | some l =>
    rw [hl] at hres
    injection hres with hres
    subst hres
    by_cases hk : x = k
    · subst hk
      rw [alookup_aset] at he
      simp only [Option.getD_some] at he
      rcases List.mem_append.mp he with he | he
      · refine hinit x e ?_
        rw [hl]
        simpa using he
      · rw [List.mem_singleton] at he
        subst he
        exact hen
    · rw [alookup_aset_ne _ _ _ _ hk] at he
      exact hinit k e he

theorem buildPuzzleAdjGo_dirs :
    ∀ (ps : List PipeInput) (init : List (String × List AdjEntry)),
      (∀ k, ∀ e ∈ (alookup init k).getD [], e.dir = 1 ∨ e.dir = -1) →
      ∀ (res : List (String × List AdjEntry)),
        buildPuzzleAdjGo ps init = .ok res →
        ∀ k, ∀ e ∈ (alookup res k).getD [], e.dir = 1 ∨ e.dir = -1
  | [], init, hinit, res, hres => by
    injection hres with hres
    subst hres
    exact hinit
  | p :: ps, init, hinit, res, hres => by
    unfold buildPuzzleAdjGo at hres
    split at hres
    · cases hres
    · rename_i adj1 h1
      split at hres
      · cases hres
      · rename_i adj2 h2
        exact buildPuzzleAdjGo_dirs ps adj2
          (pushEntry_dirs (pushEntry_dirs hinit (Or.inl rfl) h1) (Or.inr rfl) h2)
          res hres

theorem buildPuzzleAdj_dirs (nodes : List NodeInput) (pipes : List PipeInput)
    (adj : List (String × List AdjEntry))
    (hadj : buildPuzzleAdj nodes pipes = .ok adj) :
    ∀ k, ∀ e ∈ (alookup adj k).getD [], e.dir = 1 ∨ e.dir = -1 := by
  have base : ∀ (init : List (String × List AdjEntry)) (ns : List NodeInput),
      (∀ k, ∀ e ∈ (alookup init k).getD [], e.dir = 1 ∨ e.dir = -1) →
      ∀ k, ∀ e ∈ (alookup (ns.foldl
        (fun m n => aset m n.id ([] : List AdjEntry)) init) k).getD [],
        e.dir = 1 ∨ e.dir = -1 := by
    intro init ns
    induction ns generalizing init with
    | nil => intro h; exact h
    | cons n ns ih =>
      intro h
      apply ih
      intro k e he
      by_cases hk : n.id = k
      · subst hk
        rw [alookup_aset] at he
        simp at he
      · rw [alookup_aset_ne _ _ _ _ hk] at he
        exact h k e he
  exact buildPuzzleAdjGo_dirs pipes _
    (base [] nodes (by intro k e he; simp [alookup] at he)) adj hadj

theorem pid_ne_of_some_of_none {st : PuzzleState} {c u : AdjEntry}
    (hc : (alookup st.solved_flows c.pid).isSome)
    (hu : alookup st.solved_flows u.pid = none) : c.pid ≠ u.pid := by
  intro h
  rw [h, hu] at hc
  cases hc

/-- Updating the one unresolved connection's flow shifts `connSumIn` by the
new value exactly when that connection is an inflow. -/
theorem connSumIn_aset (st : PuzzleState) (L R : List AdjEntry) (u : AdjEntry) (q : ℚ)
    (hnone : alookup st.solved_flows u.pid = none)
    (hLsome : ∀ c ∈ L, (alookup st.solved_flows c.pid).isSome)
    (hRsome : ∀ c ∈ R, (alookup st.solved_flows c.pid).isSome) :
    connSumIn { st with solved_flows := aset st.solved_flows u.pid q } (L ++ u :: R) =
      connSumIn st L + connSumIn st R + (if u.dir = -1 then q else 0) := by
  set st' : PuzzleState := { st with solved_flows := aset st.solved_flows u.pid q }
  have hL' : connSumIn st' L = connSumIn st L := connSumIn_congr (by
    intro c hc
    exact alookup_aset_ne _ _ _ _
      (fun h => pid_ne_of_some_of_none (hLsome c hc) hnone h.symm))
  have hR' : connSumIn st' R = connSumIn st R := connSumIn_congr (by
    intro c hc
    exact alookup_aset_ne _ _ _ _
      (fun h => pid_ne_of_some_of_none (hRsome c hc) hnone h.symm))
  have hu' : alookup st'.solved_flows u.pid = some q := alookup_aset _ _ _
  rw [connSumIn_append, connSumIn_cons, hL', hR', hu']
  by_cases hd : u.dir = -1 <;> simp [hd] <;> ring

theorem connSumOut_aset (st : PuzzleState) (L R : List AdjEntry) (u : AdjEntry) (q : ℚ)
    (hnone : alookup st.solved_flows u.pid = none)
    (hLsome : ∀ c ∈ L, (alookup st.solved_flows c.pid).isSome)
    (hRsome : ∀ c ∈ R, (alookup st.solved_flows c.pid).isSome) :
    connSumOut { st with solved_flows := aset st.solved_flows u.pid q } (L ++ u :: R) =
      connSumOut st L + connSumOut st R + (if u.dir = 1 then q else 0) := by
  set st' : PuzzleState := { st with solved_flows := aset st.solved_flows u.pid q }
  have hL' : connSumOut st' L = connSumOut st L := connSumOut_congr (by
    intro c hc
    exact alookup_aset_ne _ _ _ _
      (fun h => pid_ne_of_some_of_none (hLsome c hc) hnone h.symm))
  have hR' : connSumOut st' R = connSumOut st R := connSumOut_congr (by
    intro c hc
    exact alookup_aset_ne _ _ _ _
      (fun h => pid_ne_of_some_of_none (hRsome c hc) hnone h.symm))
  have hu' : alookup st'.solved_flows u.pid = some q := alookup_aset _ _ _
  rw [connSumOut_append, connSumOut_cons, hL', hR', hu']
  by_cases hd : u.dir = 1 <;> simp [hd] <;> ring

/-- The code's `sum_in` (over connections with known flow and `dir = -1`)
equals `connSumIn` over the known parts of the split. -/
theorem code_sum_in_eq (st : PuzzleState) (L R : List AdjEntry) (u : AdjEntry)
    (hnone : alookup st.solved_flows u.pid = none)
    (hLsome : ∀ c ∈ L, (alookup st.solved_flows c.pid).isSome)
    (hRsome : ∀ c ∈ R, (alookup st.solved_flows c.pid).isSome) :
    ((L ++ u :: R).filter (fun c =>
        decide ((alookup st.solved_flows c.pid).isSome ∧ c.dir = -1))).foldl
      (fun s c => s + (alookup st.solved_flows c.pid).getD 0) 0 =
      connSumIn st L + connSumIn st R := by
  rw [foldl_add_eq_sum, zero_add]
  rw [List.filter_append, List.filter_cons]
  have hu : (decide ((alookup st.solved_flows u.pid).isSome ∧ u.dir = -1)) = false := by
    simp [hnone]
  rw [hu]
  simp only [Bool.false_eq_true, if_false]
  have hLf : L.filter (fun c =>
      decide ((alookup st.solved_flows c.pid).isSome ∧ c.dir = -1)) =
      L.filter (fun c => decide (c.dir = -1)) := by
    apply List.filter_congr
    intro c hc
    simp [hLsome c hc]
  have hRf : R.filter (fun c =>
      decide ((alookup st.solved_flows c.pid).isSome ∧ c.dir = -1)) =
      R.filter (fun c => decide (c.dir = -1)) := by
    apply List.filter_congr
    intro c hc
    simp [hRsome c hc]
  rw [hLf, hRf, List.map_append, List.sum_append]
  rfl

theorem code_sum_out_eq (st : PuzzleState) (L R : List AdjEntry) (u : AdjEntry)
    (hnone : alookup st.solved_flows u.pid = none)
    (hLsome : ∀ c ∈ L, (alookup st.solved_flows c.pid).isSome)
    (hRsome : ∀ c ∈ R, (alookup st.solved_flows c.pid).isSome) :
    ((L ++ u :: R).filter (fun c =>
        decide ((alookup st.solved_flows c.pid).isSome ∧ c.dir = 1))).foldl
      (fun s c => s + (alookup st.solved_flows c.pid).getD 0) 0 =
      connSumOut st L + connSumOut st R := by
  rw [foldl_add_eq_sum, zero_add]
  rw [List.filter_append, List.filter_cons]
  have hu : (decide ((alookup st.solved_flows u.pid).isSome ∧ u.dir = 1)) = false := by
    simp [hnone]
  rw [hu]
  simp only [Bool.false_eq_true, if_false]
  have hLf : L.filter (fun c =>
      decide ((alookup st.solved_flows c.pid).isSome ∧ c.dir = 1)) =
      L.filter (fun c => decide (c.dir = 1)) := by
    apply List.filter_congr
    intro c hc
    simp [hLsome c hc]
  have hRf : R.filter (fun c =>
      decide ((alookup st.solved_flows c.pid).isSome ∧ c.dir = 1)) =
      R.filter (fun c => decide (c.dir = 1)) := by
    apply List.filter_congr
    intro c hc
    simp [hRsome c hc]
  rw [hLf, hRf, List.map_append, List.sum_append]
  rfl

/-- C7: one conjunction covering both mass-balance deductions of a puzzle
pass.  (1) If the node's demand is known and exactly one incident connection
has unresolved flow (of orientation `±1`), `processNode` resolves that flow
as the unique value making `Σ inflow − Σ outflow + demand = 0` over the
node's connections, and reports a change.  (2) If the demand is unknown and
all incident flows are known, `processNode` sets the demand to
`Σ outflow − Σ inflow` and reports a change. -/
theorem c7_mass_balance (adj : List (String × List AdjEntry)) (st : PuzzleState)
    (changed : Bool) (node : NodeInput) (conns : List AdjEntry)
    (hconns : conns = (alookup adj node.id).getD []) :
    (∀ demand unk,
      alookup st.solved_demands node.id = some demand →
      conns.filter (fun c => decide ((alookup st.solved_flows c.pid).isNone)) = [unk] →
      (unk.dir = 1 ∨ unk.dir = -1) →
      (processNode adj st changed node).2 = true ∧
      ∃ q, alookup (processNode adj st changed node).1.solved_flows unk.pid = some q ∧
        (connSumIn (processNode adj st changed node).1 conns -
          connSumOut (processNode adj st changed node).1 conns + demand = 0) ∧
        (∀ q', connSumIn { st with solved_flows := aset st.solved_flows unk.pid q' } conns -
            connSumOut { st with solved_flows := aset st.solved_flows unk.pid q' } conns +
            demand = 0 → q' = q)) ∧
    (alookup st.solved_demands node.id = none →
      conns.filter (fun c => decide ((alookup st.solved_flows c.pid).isNone)) = [] →
      (processNode adj st changed node).2 = true ∧
      alookup (processNode adj st changed node).1.solved_demands node.id =
        some (connSumOut st conns - connSumIn st conns)) := by
  constructor
  · intro demand unk hdem hunkeq hdirs
    obtain ⟨L, R, hLR, hLn, hPunk, hRn⟩ := List.filter_eq_cons_iff.mp hunkeq
    have hnone : alookup st.solved_flows unk.pid = none := by
      have := of_decide_eq_true hPunk
      simpa using this
    have hLsome : ∀ c ∈ L, (alookup st.solved_flows c.pid).isSome := by
      intro c hc
      have hcn := hLn c hc
      rcases h : alookup st.solved_flows c.pid with _ | v
      · exfalso
        apply hcn
        simp [h]
      · rfl
    have hRsome : ∀ c ∈ R, (alookup st.solved_flows c.pid).isSome := by
      intro c hc
      rcases h : alookup st.solved_flows c.pid with _ | v
      · exfalso
        have hmem : c ∈ R.filter
            (fun c => decide ((alookup st.solved_flows c.pid).isNone)) :=
          List.mem_filter.mpr ⟨hc, by simp [h]⟩
        rw [hRn] at hmem
        cases hmem
      · rfl
    set sIn := (conns.filter (fun c =>
        decide ((alookup st.solved_flows c.pid).isSome ∧ c.dir = -1))).foldl
        (fun s c => s + (alookup st.solved_flows c.pid).getD 0) 0 with hsIn
    set sOut := (conns.filter (fun c =>
        decide ((alookup st.solved_flows c.pid).isSome ∧ c.dir = 1))).foldl
        (fun s c => s + (alookup st.solved_flows c.pid).getD 0) 0 with hsOut
    set qSolved := (sOut - sIn - demand) / (-unk.dir) with hqSolved
    have hstep : processNode adj st changed node =
        ({ st with solved_flows := aset st.solved_flows unk.pid qSolved }, true) := by
      rw [hqSolved, hsOut, hsIn]
      rw [hconns] at hunkeq
      rw [hconns]
      unfold processNode
      simp only [hdem, hunkeq]
      rfl
    have hsIn_eq : sIn = connSumIn st L + connSumIn st R := by
      rw [hsIn, hLR]
      exact code_sum_in_eq st L R unk hnone hLsome hRsome
    have hsOut_eq : sOut = connSumOut st L + connSumOut st R := by
      rw [hsOut, hLR]
      exact code_sum_out_eq st L R unk hnone hLsome hRsome
    have hbalance : ∀ q'',
        connSumIn { st with solved_flows := aset st.solved_flows unk.pid q'' } conns -
          connSumOut { st with solved_flows := aset st.solved_flows unk.pid q'' } conns +
          demand =
        (sIn - sOut + demand) + (if unk.dir = -1 then q'' else 0) -
          (if unk.dir = 1 then q'' else 0) := by
      intro q''
      rw [hLR, connSumIn_aset st L R unk q'' hnone hLsome hRsome,
        connSumOut_aset st L R unk q'' hnone hLsome hRsome, hsIn_eq, hsOut_eq]
      ring
    rw [hstep]
    refine ⟨rfl, qSolved, alookup_aset _ _ _, ?_, ?_⟩
    · rw [hbalance qSolved, hqSolved]
      rcases hdirs with hd | hd <;> rw [hd]
      · rw [if_neg (by norm_num : ¬(1 : ℚ) = -1), if_pos rfl]
        rw [div_neg, div_one]
        ring
      · rw [if_pos rfl, if_neg (by norm_num : ¬(-1 : ℚ) = 1)]
        rw [neg_neg, div_one]
        ring
    · intro q' hq'
      rw [hbalance q'] at hq'
      rw [hqSolved]
      rcases hdirs with hd | hd <;> rw [hd] at hq' ⊢
      · rw [if_neg (by norm_num : ¬(1 : ℚ) = -1), if_pos rfl] at hq'
        rw [div_neg, div_one]
        linarith
      · rw [if_pos rfl, if_neg (by norm_num : ¬(-1 : ℚ) = 1)] at hq'
        rw [neg_neg, div_one]
        linarith
  · intro hdem hempty
    set dval := (conns.filter (fun c => decide (c.dir = 1))).foldl
        (fun s c => s + (alookup st.solved_flows c.pid).getD 0) 0 -
      (conns.filter (fun c => decide (c.dir = -1))).foldl
        (fun s c => s + (alookup st.solved_flows c.pid).getD 0) 0 with hdval
    have hstep : processNode adj st changed node =
        ({ st with solved_demands := aset st.solved_demands node.id dval }, true) := by
      rw [hdval]
      rw [hconns] at hempty
      rw [hconns]
      unfold processNode
      simp only [hdem, hempty]
      rfl
    rw [hstep]
    refine ⟨rfl, ?_⟩
    show alookup (aset st.solved_demands node.id dval) node.id = _
    rw [alookup_aset]
    congr 1
    rw [hdval, foldl_add_eq_sum, foldl_add_eq_sum]
    simp [connSumIn, connSumOut]

/-- Concrete puzzle adjacency for the C7 witness: node `A` touches pipe `P1`
leaving it and pipe `P2` entering it. -/
def c7adj : List (String × List AdjEntry) :=
  [("A", [{ pid := "P1", dir := 1 }, { pid := "P2", dir := -1 }])]

/-- Concrete puzzle state for the C7 witness: `P2`'s flow and `A`'s demand
are known, `P1`'s flow is not. -/
def c7st : PuzzleState :=
  { solved_flows := [("P2", 5)], solved_hl := [], solved_demands := [("A", 2)] }

/-- The node examined in the C7 witness. -/
def c7node : NodeInput := { id := "A", demand := some 2 }

/-- Node `A`'s connection list in `c7adj`. -/
def c7conns : List AdjEntry := [{ pid := "P1", dir := 1 }, { pid := "P2", dir := -1 }]

/-- The single unresolved connection at node `A`. -/
def c7unk : AdjEntry := { pid := "P1", dir := 1 }

/-- Witness for C7: at node `A` with demand 2, inflow `P2 = 5` and sole
unknown `P1` leaving the node, `processNode` reports a change and solves
`P1`'s flow so that `Σ inflow − Σ outflow + demand = 0`, uniquely. -/
theorem c7_mass_balance_witness :
    (processNode c7adj c7st false c7node).2 = true ∧
    ∃ q, alookup (processNode c7adj c7st false c7node).1.solved_flows c7unk.pid = some q ∧
      (connSumIn (processNode c7adj c7st false c7node).1 c7conns -
        connSumOut (processNode c7adj c7st false c7node).1 c7conns + 2 = 0) ∧
      (∀ q', connSumIn { c7st with solved_flows := aset c7st.solved_flows c7unk.pid q' } c7conns -
          connSumOut { c7st with solved_flows := aset c7st.solved_flows c7unk.pid q' } c7conns +
          2 = 0 → q' = q) :=
  (c7_mass_balance c7adj c7st false c7node c7conns (by with_unfolding_all rfl)).1
    2 c7unk (by with_unfolding_all rfl) (by with_unfolding_all rfl) (Or.inl rfl)

/-! ## Claim C4: the loop correction formula

Spec-worded definitions, written from the claim's sentence, to compare
with the code's `walkLoop`, `loopDelta`, `applyCorrection` and
`processLoops`. -/

/-- The traversed edges of a consecutive-node-pair list, as the claim reads
them: pairs carrying an edge, with the edge's pipe record and the pair's
tail node. -/
def specEdgesOfPairs (G : NXGraph) (pmap : List (String × PipeInput))
    (ps : List (String × String)) : List (String × PipeInput × String) :=
  ps.filterMap (fun uv =>
    match G.get_edge_data uv.1 uv.2 with
    | none => none
    | some pid =>
      match alookup pmap pid with
      | none => none
      | some pd => some (pid, pd, uv.1))

/-- The loop's traversed edges: consecutive node pairs of the cyclic walk. -/
def specLoopEdges (G : NXGraph) (pmap : List (String × PipeInput))
    (loopNodes : List String) : List (String × PipeInput × String) :=
  specEdgesOfPairs G pmap (loopNodes.zip (loopNodes.rotate 1))

/-- The claim's sign convention: `+1` when the pipe's defined start node
equals the loop-traversal tail node, `-1` otherwise. -/
def specSign (pd : PipeInput) (tail : String) : ℚ :=
  if pd.start_node = tail then 1 else -1

/-- One traversed edge's loop-oriented flow `Q_loop`. -/
def specQloop (flows : List (String × ℚ)) (e : String × PipeInput × String) : ℚ :=
  ((alookup flows e.1).getD 0) * specSign e.2.1 e.2.2

/-- The claim's numerator `Σ K·Q_loop·|Q_loop|` over the loop's edges. -/
def specSumHead (pipeK : List (String × ℚ)) (flows : List (String × ℚ))
    (edges : List (String × PipeInput × String)) : ℚ :=
  (edges.map (fun e =>
    (alookup pipeK e.1).getD 0 * specQloop flows e * |specQloop flows e|)).sum

/-- The claim's denominator `Σ 2·K·(|Q_loop| + 1e-10)`. -/
def specSumDeriv (pipeK : List (String × ℚ)) (flows : List (String × ℚ))
    (edges : List (String × PipeInput × String)) : ℚ :=
  (edges.map (fun e =>
    2 * (alookup pipeK e.1).getD 0 * (|specQloop flows e| + 1e-10))).sum

/-- The claim's correction, verbatim: `ΔQ = −Σh/Σd`, except `ΔQ = 0` when
the derivative sum is below `1e-12`. -/
def specDeltaClaim (sh sd : ℚ) : ℚ := if sd < 1e-12 then 0 else -sh / sd

/-- The amended correction: the code's test is `sum_derivative > 1e-12`,
so it also returns `0` when the derivative sum equals `1e-12` exactly. -/
def specDeltaAmended (sh sd : ℚ) : ℚ := if sd ≤ 1e-12 then 0 else -sh / sd

/-- The claim's immediate application: `pipe_flow += ΔQ × sign` for every
traversed edge of the loop. -/
def specApply (delta : ℚ) (edges : List (String × PipeInput × String))
    (flows : List (String × ℚ)) : List (String × ℚ) :=
  edges.foldl (fun fl e =>
    aset fl e.1 ((alookup fl e.1).getD 0 + delta * specSign e.2.1 e.2.2)) flows

/-- The claim's sequential loop-by-loop processing: each loop's correction
is computed from, and immediately applied to, the flows already corrected
by the earlier loops of the same iteration (amended zero boundary). -/
def specIterFlows (G : NXGraph) (pmap : List (String × PipeInput))
    (pipeK : List (String × ℚ)) :
    List (List String) → List (String × ℚ) → List (String × ℚ)
  | [], flows => flows
  | l :: rest, flows =>
    let edges := specLoopEdges G pmap l
    let delta := specDeltaAmended (specSumHead pipeK flows edges)
      (specSumDeriv pipeK flows edges)
    specIterFlows G pmap pipeK rest (specApply delta edges flows)

/-- The `loop_pipe_info` record the code builds for one traversed edge. -/
def recOfEdge (pipeK : List (String × ℚ)) (flows : List (String × ℚ))
    (e : String × PipeInput × String) : LoopPipeRec :=
  ⟨e.1, specSign e.2.1 e.2.2, (alookup flows e.1).getD 0, specQloop flows e,
    calculate_head_loss ((alookup pipeK e.1).getD 0) (specQloop flows e)⟩

theorem walkFold_spec (G : NXGraph) (pmap : List (String × PipeInput))
    (pipeK : List (String × ℚ)) (flows : List (String × ℚ))
    (ps : List (String × String)) :
    ∀ (a b : ℚ) (rs : List LoopPipeRec),
    ps.foldl (walkStep G pmap pipeK flows) (a, b, rs) =
      (a + specSumHead pipeK flows (specEdgesOfPairs G pmap ps),
       b + specSumDeriv pipeK flows (specEdgesOfPairs G pmap ps),
       rs ++ (specEdgesOfPairs G pmap ps).map (recOfEdge pipeK flows)) := by
  induction ps with
  | nil =>
    intro a b rs
    simp [specEdgesOfPairs, specSumHead, specSumDeriv]
  | cons uv ps ih =>
    intro a b rs
    rw [List.foldl_cons]
    cases hed : G.get_edge_data uv.1 uv.2 with
    | none =>
      have hstep : walkStep G pmap pipeK flows (a, b, rs) uv = (a, b, rs) := by
        unfold walkStep
        rw [hed]
      have hE : specEdgesOfPairs G pmap (uv :: ps) = specEdgesOfPairs G pmap ps := by
        unfold specEdgesOfPairs
        simp only [List.filterMap_cons, hed]
      rw [hstep, hE]
      exact ih a b rs
    | some pid =>
      cases hpd : alookup pmap pid with
      | none =>
        have hstep : walkStep G pmap pipeK flows (a, b, rs) uv = (a, b, rs) := by
          unfold walkStep
          simp only [hed, hpd]
        have hE : specEdgesOfPairs G pmap (uv :: ps) = specEdgesOfPairs G pmap ps := by
          unfold specEdgesOfPairs
          simp only [List.filterMap_cons, hed, hpd]
        rw [hstep, hE]
        exact ih a b rs
      | some pd =>
        have hstep : walkStep G pmap pipeK flows (a, b, rs) uv =
            (a + calculate_head_loss ((alookup pipeK pid).getD 0)
                (specQloop flows (pid, pd, uv.1)),
             b + calculate_head_loss_derivative ((alookup pipeK pid).getD 0)
                (specQloop flows (pid, pd, uv.1)),
             rs ++ [recOfEdge pipeK flows (pid, pd, uv.1)]) := by
          unfold walkStep
          simp only [hed, hpd]
          rfl
        have hE : specEdgesOfPairs G pmap (uv :: ps) =
            (pid, pd, uv.1) :: specEdgesOfPairs G pmap ps := by
          unfold specEdgesOfPairs
          simp only [List.filterMap_cons, hed, hpd]
        rw [hstep, hE, ih]
        refine congrArg₂ Prod.mk ?_ (congrArg₂ Prod.mk ?_ ?_)
        · simp [specSumHead, calculate_head_loss, add_assoc]
        · simp [specSumDeriv, calculate_head_loss_derivative, add_assoc]
        · simp [List.append_assoc]

theorem walkLoop_spec (G : NXGraph) (pmap : List (String × PipeInput))
    (pipeK : List (String × ℚ)) (flows : List (String × ℚ))
    (loopNodes : List String) :
    walkLoop G pmap pipeK flows loopNodes =
      (specSumHead pipeK flows (specLoopEdges G pmap loopNodes),
       specSumDeriv pipeK flows (specLoopEdges G pmap loopNodes),
       (specLoopEdges G pmap loopNodes).map (recOfEdge pipeK flows)) := by
  unfold walkLoop specLoopEdges
  rw [walkFold_spec]
  simp

theorem applyCorrection_spec (delta : ℚ) (pipeK : List (String × ℚ))
    (flows0 : List (String × ℚ)) (E : List (String × PipeInput × String)) :
    ∀ fl, applyCorrection delta (E.map (recOfEdge pipeK flows0)) fl =
      specApply delta E fl := by
  induction E with
  | nil => intro fl; rfl
  | cons e E ih =>
    intro fl
    exact ih (aset fl e.1 ((alookup fl e.1).getD 0 + delta * specSign e.2.1 e.2.2))

theorem loopDelta_eq_amended (sh sd : ℚ) : loopDelta sh sd = specDeltaAmended sh sd := by
  unfold loopDelta specDeltaAmended
  rcases le_or_lt sd 1e-12 with h | h
  · rw [if_neg (not_lt.mpr h), if_pos h]
  · rw [if_pos h, if_neg (not_le.mpr h)]

theorem procFold_spec (G : NXGraph) (pmap : List (String × PipeInput))
    (pipeK : List (String × ℚ)) (loops : List (List String)) :
    ∀ (n : Nat) (acc : List (String × ℚ) × ℚ × List LoopLogRec),
    ((List.enumFrom n loops).foldl (procStep G pmap pipeK) acc).1 =
      specIterFlows G pmap pipeK loops acc.1 := by
  induction loops with
  | nil => intro n acc; rfl
  | cons l rest ih =>
    intro n acc
    have hstep1 : (procStep G pmap pipeK acc (n, l)).1 =
        specApply (specDeltaAmended (specSumHead pipeK acc.1 (specLoopEdges G pmap l))
            (specSumDeriv pipeK acc.1 (specLoopEdges G pmap l)))
          (specLoopEdges G pmap l) acc.1 := by
      show applyCorrection (loopDelta (walkLoop G pmap pipeK acc.1 l).1
          (walkLoop G pmap pipeK acc.1 l).2.1) (walkLoop G pmap pipeK acc.1 l).2.2 acc.1 = _
      rw [walkLoop_spec, loopDelta_eq_amended]
      exact applyCorrection_spec _ _ _ _ _
    rw [List.enumFrom_cons, List.foldl_cons, ih (n + 1) (procStep G pmap pipeK acc (n, l)),
      hstep1]
    rfl

theorem processLoops_spec (G : NXGraph) (pmap : List (String × PipeInput))
    (pipeK : List (String × ℚ)) (loops : List (List String))
    (flows : List (String × ℚ)) :
    (processLoops G pmap pipeK loops flows).1 = specIterFlows G pmap pipeK loops flows := by
  unfold processLoops
  exact procFold_spec G pmap pipeK loops 0 (flows, 0, [])

/-- C4 (amended): the only divergence from the claim is the zero boundary —
the code's test is `sum_derivative > 1e-12`, so `ΔQ = 0` when the derivative
sum is *at or* below `1e-12`, not only strictly below.  With that amendment
the claim holds: one Hardy Cross iteration's flow update equals the claim's
sequential loop-by-loop process, where each loop's correction is
`ΔQ = −Σ K·Q_loop·|Q_loop| / Σ 2·K·(|Q_loop|+1e-10)` (else `0`) and is
applied immediately as `pipe_flow += ΔQ·sign`, with sign `+1` exactly when
the pipe's defined start node equals the loop-traversal tail node, later
loops reading the already-corrected flows. -/
theorem c4_correction_amended (G : NXGraph) (pmap : List (String × PipeInput))
    (pipeK : List (String × ℚ)) (loops : List (List String))
    (flows : List (String × ℚ)) (sh sd : ℚ) :
    loopDelta sh sd = specDeltaAmended sh sd ∧
    (hardyIteration G pmap pipeK loops flows 0).1 =
      specIterFlows G pmap pipeK loops flows :=
  ⟨loopDelta_eq_amended sh sd, processLoops_spec G pmap pipeK loops flows⟩

/-- C4 counterexample pipes: a triangle whose resistance overrides make the
first iteration's derivative sum land exactly on `1e-12`. -/
def c4pipes : List PipeInput := [
  { id := "P1", start_node := "A", end_node := "B", resistance_k := some (1/10000) },
  { id := "P2", start_node := "B", end_node := "C", resistance_k := some (29/20000) },
  { id := "P3", start_node := "C", end_node := "A", resistance_k := some (29/20000) }]

/-- C4 counterexample nodes: a tiny `2e-9` demand from `A` to `B`. -/
def c4nodes : List NodeInput := [
  { id := "A", demand := some (2/1000000000) },
  { id := "B", demand := some (-2/1000000000) },
  { id := "C", demand := some 0 }]

/-- The validated pipes of the C4 network. -/
def c4pipesF : List PipeInput := c4pipes.map (fixPipe "darcy")

/-- The C4 network's graph. -/
def c4G : NXGraph := buildGraph c4pipesF

/-- The C4 network's `pipes_map`. -/
def c4pmap : List (String × PipeInput) := c4pipesF.foldl (fun m p => aset m p.id p) []

/-- The C4 network's `pipe_K` map. -/
def c4pipeK : List (String × ℚ) :=
  c4pipesF.foldl (fun m p => aset m p.id (calculate_resistance_coefficient p)) []

/-- The initializer's flows for the C4 network. -/
def c4flows : List (String × ℚ) := [("P1", 1/500000000), ("P2", 0), ("P3", 0)]

/-- The first iteration's walk of the C4 network's single loop. -/
def c4walk : ℚ × ℚ × List LoopPipeRec := walkLoop c4G c4pmap c4pipeK c4flows ["B", "A", "C"]

/-! ## Claim C5: counting the cycles of `cycle_basis` (Paton's algorithm)

The code builds a *simple* `nx.Graph`, so the loop count is
`E' − V + 1` with `E'` the number of *distinct unordered endpoint pairs*,
not the number of pipes.  The counting invariant: every discovery and every
cycle emission appends exactly one element to one `used` list, and at the
end the `used` lists hold each edge of the simple graph exactly once. -/

theorem mem_akeys {κ α : Type} [DecidableEq κ] :
    ∀ (l : List (κ × α)) (k : κ), k ∈ akeys l ↔ (alookup l k).isSome
  | [], k => by simp [akeys]
  | (k0, v0) :: rest, k => by
    simp only [akeys, List.map_cons, List.mem_cons, alookup_cons]
    by_cases h : k0 = k
    · subst h; simp
    · rw [if_neg h]
      constructor
      · rintro (h' | h')
        · exact absurd h'.symm h
        · exact (mem_akeys rest k).mp h'
      · intro h'
        exact Or.inr ((mem_akeys rest k).mpr h')

theorem alookup_mem {κ α : Type} [DecidableEq κ] :
    ∀ {l : List (κ × α)} {k : κ} {v : α}, alookup l k = some v → (k, v) ∈ l
  | [], k, v, h => by cases h
  | (k0, v0) :: rest, k, v, h => by
    rw [alookup_cons] at h
    by_cases h0 : k0 = k
    · rw [if_pos h0] at h
      subst h0
      exact List.mem_cons.mpr (Or.inl (by rw [Option.some_inj.mp h]))
    · rw [if_neg h0] at h
      exact List.mem_cons.mpr (Or.inr (alookup_mem h))

theorem mem_alookup_of_nodup {κ α : Type} [DecidableEq κ] :
    ∀ {l : List (κ × α)}, (akeys l).Nodup → ∀ {k : κ} {v : α},
      (k, v) ∈ l → alookup l k = some v
  | [], _, k, v, h => by cases h
  | (k0, v0) :: rest, hn, k, v, h => by
    rw [alookup_cons]
    rcases List.mem_cons.mp h with h' | h'
    · rw [Prod.mk.injEq] at h'
      rw [if_pos h'.1.symm, h'.2]
    · have hk : k0 ≠ k := by
        intro he
        subst he
        have : k0 ∈ akeys rest := List.mem_map.mpr ⟨(k0, v), h', rfl⟩
        exact (List.nodup_cons.mp hn).1 this
      rw [if_neg hk]
      exact mem_alookup_of_nodup (List.nodup_cons.mp hn).2 h'

/-- Total number of elements stored across all `used` lists. -/
def usedTotal (used : List (String × List String)) : Nat :=
  (used.map (fun kv => kv.2.length)).sum

theorem usedTotal_aset :
    ∀ (used : List (String × List String)) (k : String) (v : List String),
    usedTotal (aset used k v) + ((alookup used k).getD []).length =
      usedTotal used + v.length
  | [], k, v => by simp [usedTotal, aset]
  | (k0, v0) :: rest, k, v => by
    by_cases h : k0 = k
    · subst h
      simp only [aset, usedTotal, alookup_cons, List.map_cons, List.sum_cons,
        eq_self_iff_true, if_true, Option.getD_some]
      omega
    · simp only [aset, if_neg h, usedTotal, List.map_cons, List.sum_cons,
        alookup_cons]
      have hr := usedTotal_aset rest k v
      simp only [usedTotal] at hr
      omega

/-- The edges of the simple graph, as unordered endpoint pairs. -/
def edgeFinset (G : NXGraph) : Finset (Sym2 String) :=
  G.nodeList.toFinset.biUnion (fun u => ((G.adjOf u).toFinset.image (fun w => s(u, w))))

theorem mem_edgeFinset {S : List PipeInput} {G : NXGraph} (hwf : GraphWF S G)
    (e : Sym2 String) :
    e ∈ edgeFinset G ↔ ∃ u v, v ∈ G.adjOf u ∧ e = s(u, v) := by
  unfold edgeFinset
  simp only [Finset.mem_biUnion, Finset.mem_image, List.mem_toFinset]
  constructor
  · rintro ⟨u, _, v, hv, rfl⟩
    exact ⟨u, v, hv, rfl⟩
  · rintro ⟨u, v, hv, rfl⟩
    exact ⟨u, (hwf.adj_nodes u v hv).1, v, hv, rfl⟩

/-- The unordered pairs recorded across the `used` lists. -/
def usedPairs (used : List (String × List String)) : List (Sym2 String) :=
  used.bind (fun kv => kv.2.map (fun w => s(kv.1, w)))

theorem length_usedPairs (used : List (String × List String)) :
    (usedPairs used).length = usedTotal used := by
  unfold usedPairs usedTotal
  rw [List.length_bind]
  simp only [Function.comp_def, List.length_map]

/-- The invariant of Paton's `while stack:` loop, at loop boundaries.
`used` keys are the discovered nodes; a discovered node off the stack is
fully processed.  Every element `w` of `used[v]` records the edge `{v,w}`
as handled (from `w`'s side), each handled edge is recorded on exactly one
side, and every edge at a processed node is handled.  The count field is
the heart of the claim-C5 analysis: every discovery and every cycle adds
exactly one element to one `used` list. -/
structure PatonInv (G : NXGraph) (st : PatonState) : Prop where
  keys_nodup : (akeys st.used).Nodup
  keys_sub : ∀ x ∈ akeys st.used, x ∈ G.nodeList
  pred_keys : ∀ x, x ∈ akeys st.pred ↔ x ∈ akeys st.used
  stack_nodup : st.stack.Nodup
  stack_disc : ∀ x ∈ st.stack, x ∈ akeys st.used
  used_vals : ∀ v l, alookup st.used v = some l → l.Nodup ∧
    ∀ w ∈ l, w ∈ akeys st.used ∧ w ∉ st.stack ∧ w ∈ G.adjOf v
  one_side : ∀ v w lv lw, alookup st.used v = some lv → alookup st.used w = some lw →
    w ∈ lv → v ∉ lw
  covered : ∀ u, u ∈ akeys st.used → u ∉ st.stack →
    ∀ v ∈ G.adjOf u, v ∈ akeys st.used ∧
      ((∃ lv, alookup st.used v = some lv ∧ u ∈ lv) ∨
       (∃ lu, alookup st.used u = some lu ∧ v ∈ lu))
  count : st.cycles.length + (akeys st.used).length = usedTotal st.used + 1

/-- The invariant while the popped node `z`'s neighbour fold is running:
`done` is the processed prefix of `z`'s adjacency, `zused` the value of
`used[z]` captured at the pop (which the fold never modifies). -/
structure PatonMid (G : NXGraph) (z : String) (zused : List String)
    (done : List String) (st : PatonState) : Prop where
  keys_nodup : (akeys st.used).Nodup
  keys_sub : ∀ x ∈ akeys st.used, x ∈ G.nodeList
  pred_keys : ∀ x, x ∈ akeys st.pred ↔ x ∈ akeys st.used
  stack_nodup : st.stack.Nodup
  stack_disc : ∀ x ∈ st.stack, x ∈ akeys st.used
  z_disc : z ∈ akeys st.used
  z_not_stack : z ∉ st.stack
  z_entry : alookup st.used z = some zused
  used_vals : ∀ v l, alookup st.used v = some l → l.Nodup ∧
    ∀ w ∈ l, w ∈ akeys st.used ∧ w ∉ st.stack ∧ w ∈ G.adjOf v
  z_mem : ∀ v l, alookup st.used v = some l → z ∈ l → v ∈ done
  one_side : ∀ v w lv lw, alookup st.used v = some lv → alookup st.used w = some lw →
    w ∈ lv → v ∉ lw
  cov_z : ∀ v ∈ done, v ∈ akeys st.used ∧
    ((∃ lv, alookup st.used v = some lv ∧ z ∈ lv) ∨ v ∈ zused)
  cov_rest : ∀ u, u ∈ akeys st.used → u ∉ st.stack → u ≠ z →
    ∀ v ∈ G.adjOf u, v ∈ akeys st.used ∧
      ((∃ lv, alookup st.used v = some lv ∧ u ∈ lv) ∨
       (∃ lu, alookup st.used u = some lu ∧ v ∈ lu))
  count : st.cycles.length + (akeys st.used).length = usedTotal st.used + 1

/-- Popping `z` off the stack enters the neighbour fold with an empty
`done` prefix. -/
theorem patonMid_of_inv {G : NXGraph} {z : String} {rest : List String}
    {pred : List (String × String)} {used : List (String × List String)}
    {cycles : List (List String)}
    (hinv : PatonInv G ⟨z :: rest, pred, used, cycles⟩) :
    PatonMid G z ((alookup used z).getD []) [] ⟨rest, pred, used, cycles⟩ := by
  have hzk : z ∈ akeys used := hinv.stack_disc z (List.mem_cons_self _ _)
  obtain ⟨zu, hzu⟩ : ∃ v, alookup used z = some v := by
    have := (mem_akeys used z).mp hzk
    cases h : alookup used z with
    | none => rw [h] at this; cases this
    | some v => exact ⟨v, rfl⟩
  have hzn : z ∉ rest := (List.nodup_cons.mp hinv.stack_nodup).1
  refine ⟨hinv.keys_nodup, hinv.keys_sub, hinv.pred_keys,
    (List.nodup_cons.mp hinv.stack_nodup).2,
    fun x hx => hinv.stack_disc x (List.mem_cons_of_mem _ hx),
    hzk, hzn, by rw [hzu]; rfl, ?_, ?_, hinv.one_side, ?_, ?_, hinv.count⟩
  · intro v l hl
    obtain ⟨hnd, hels⟩ := hinv.used_vals v l hl
    exact ⟨hnd, fun w hw => ⟨(hels w hw).1,
      fun hmem => (hels w hw).2.1 (List.mem_cons_of_mem _ hmem), (hels w hw).2.2⟩⟩
  · intro v l hl hzl
    exact absurd (List.mem_cons_self z rest) ((hinv.used_vals v l hl).2 z hzl).2.1
  · intro v hv
    cases hv
  · intro u hu hus hune v hv
    have hold := hinv.covered u hu (fun hm => by
      rcases List.mem_cons.mp hm with h | h
      · exact hune h
      · exact hus h) v hv
    exact hold

/-- One neighbour visit preserves the mid-fold invariant, extends the
processed prefix by that neighbour, keeps `stack length + undiscovered
count` constant, and never removes a `used` key. -/
theorem patonVisit_mid {S : List PipeInput} {G : NXGraph} (hwf : GraphWF S G)
    (hNS : ∀ v, v ∉ G.adjOf v) (cf : Nat) (z : String) (zused done : List String)
    (st : PatonState) (nbr : String) (hmid : PatonMid G z zused done st)
    (hnbr : nbr ∈ G.adjOf z) (hnd : nbr ∉ done) :
    PatonMid G z zused (done ++ [nbr]) (patonVisit cf zused z st nbr) ∧
    (patonVisit cf zused z st nbr).stack.length +
        unseenCount G (akeys (patonVisit cf zused z st nbr).used) =
      st.stack.length + unseenCount G (akeys st.used) ∧
    (∀ x ∈ akeys st.used, x ∈ akeys (patonVisit cf zused z st nbr).used) := by
  have hne : nbr ≠ z := fun h => hNS z (h ▸ hnbr)
  have hzadj : z ∈ G.adjOf nbr := hwf.adj_symm z nbr hnbr
  have hnbrnode : nbr ∈ G.nodeList := (hwf.adj_nodes z nbr hnbr).2
  cases hcase : alookup st.used nbr with
  | none =>
    have hnk : nbr ∉ akeys st.used := by
      rw [mem_akeys, hcase]
      simp
    have hns : nbr ∉ st.stack := fun h => hnk (hmid.stack_disc nbr h)
    have hnzu : nbr ∉ zused :=
      fun h => hnk (((hmid.used_vals z zused hmid.z_entry).2 nbr h).1)
    have hst' : patonVisit cf zused z st nbr =
        { st with pred := aset st.pred nbr z
                  stack := nbr :: st.stack
                  used := aset st.used nbr [z] } := by
      unfold patonVisit
      simp only [hcase]
    have hkeys' : akeys (aset st.used nbr [z]) = akeys st.used ++ [nbr] := by
      rw [akeys_aset, if_neg hnk]
    have hpk : nbr ∉ akeys st.pred := fun h => hnk ((hmid.pred_keys nbr).mp h)
    have hpkeys' : akeys (aset st.pred nbr z) = akeys st.pred ++ [nbr] := by
      rw [akeys_aset, if_neg hpk]
    have hlook : ∀ x, x ≠ nbr →
        alookup (aset st.used nbr [z]) x = alookup st.used x :=
      fun x hx => alookup_aset_ne _ _ _ _ (Ne.symm hx)
    have hlooknbr : alookup (aset st.used nbr [z]) nbr = some [z] :=
      alookup_aset _ _ _
    have h1 : (akeys (aset st.used nbr [z])).Nodup := by
      rw [hkeys']
      exact hmid.keys_nodup.append (List.nodup_singleton _)
        (fun a ha hb => hnk ((List.mem_singleton.mp hb) ▸ ha))
    have h2 : ∀ x ∈ akeys (aset st.used nbr [z]), x ∈ G.nodeList := by
      intro x hx
      rw [hkeys'] at hx
      rcases List.mem_append.mp hx with h | h
      · exact hmid.keys_sub x h
      · exact (List.mem_singleton.mp h) ▸ hnbrnode
    have h3 : ∀ x, x ∈ akeys (aset st.pred nbr z) ↔ x ∈ akeys (aset st.used nbr [z]) := by
      intro x
      rw [hkeys', hpkeys', List.mem_append, List.mem_append, hmid.pred_keys x]
    have h4 : (nbr :: st.stack).Nodup := List.nodup_cons.mpr ⟨hns, hmid.stack_nodup⟩
    have h5 : ∀ x ∈ nbr :: st.stack, x ∈ akeys (aset st.used nbr [z]) := by
      intro x hx
      rw [hkeys']
      rcases List.mem_cons.mp hx with h | h
      · exact List.mem_append.mpr (Or.inr (List.mem_singleton.mpr h))
      · exact List.mem_append.mpr (Or.inl (hmid.stack_disc x h))
    have h6 : z ∈ akeys (aset st.used nbr [z]) := by
      rw [hkeys']
      exact List.mem_append.mpr (Or.inl hmid.z_disc)
    have h7 : z ∉ nbr :: st.stack := by
      intro h
      rcases List.mem_cons.mp h with h | h
      · exact hne h.symm
      · exact hmid.z_not_stack h
    have h8 : alookup (aset st.used nbr [z]) z = some zused := by
      rw [hlook z (Ne.symm hne)]
      exact hmid.z_entry
    have h9 : ∀ v l, alookup (aset st.used nbr [z]) v = some l → l.Nodup ∧
        ∀ w ∈ l, w ∈ akeys (aset st.used nbr [z]) ∧ w ∉ nbr :: st.stack ∧
          w ∈ G.adjOf v := by
      intro v l hl
      by_cases hv : v = nbr
      · subst hv
        rw [hlooknbr] at hl
        obtain rfl : [z] = l := Option.some_inj.mp hl
        refine ⟨List.nodup_singleton _, ?_⟩
        intro w hw
        obtain rfl : w = z := List.mem_singleton.mp hw
        exact ⟨h6, h7, hzadj⟩
      · rw [hlook v hv] at hl
        obtain ⟨hnd', hels⟩ := hmid.used_vals v l hl
        refine ⟨hnd', ?_⟩
        intro w hw
        obtain ⟨hw1, hw2, hw3⟩ := hels w hw
        have hwnbr : w ≠ nbr := fun h => hnk (h ▸ hw1)
        refine ⟨by rw [hkeys']; exact List.mem_append.mpr (Or.inl hw1), ?_, hw3⟩
        intro hmem
        rcases List.mem_cons.mp hmem with h | h
        · exact hwnbr h
        · exact hw2 h
    have h10 : ∀ v l, alookup (aset st.used nbr [z]) v = some l → z ∈ l →
        v ∈ done ++ [nbr] := by
      intro v l hl hz
      by_cases hv : v = nbr
      · exact List.mem_append.mpr (Or.inr (List.mem_singleton.mpr hv))
      · rw [hlook v hv] at hl
        exact List.mem_append.mpr (Or.inl (hmid.z_mem v l hl hz))
    have h11 : ∀ v w lv lw, alookup (aset st.used nbr [z]) v = some lv →
        alookup (aset st.used nbr [z]) w = some lw → w ∈ lv → v ∉ lw := by
      intro v w lv lw hv hw hwlv
      by_cases hvn : v = nbr
      · rw [hvn, hlooknbr] at hv
        obtain rfl : [z] = lv := Option.some_inj.mp hv
        have hwz : w = z := List.mem_singleton.mp hwlv
        rw [hwz, hlook z (Ne.symm hne), hmid.z_entry] at hw
        obtain rfl : zused = lw := Option.some_inj.mp hw
        rw [hvn]
        exact hnzu
      · rw [hlook v hvn] at hv
        by_cases hwn : w = nbr
        · rw [hwn, hlooknbr] at hw
          obtain rfl : [z] = lw := Option.some_inj.mp hw
          rw [hwn] at hwlv
          intro hmem
          have hvz : v = z := List.mem_singleton.mp hmem
          rw [hvz] at hv
          exact hnk (((hmid.used_vals z lv hv).2 nbr hwlv).1)
        · rw [hlook w hwn] at hw
          exact hmid.one_side v w lv lw hv hw hwlv
    have h12 : ∀ v ∈ done ++ [nbr], v ∈ akeys (aset st.used nbr [z]) ∧
        ((∃ lv, alookup (aset st.used nbr [z]) v = some lv ∧ z ∈ lv) ∨
          v ∈ zused) := by
      intro v hv
      rcases List.mem_append.mp hv with h | h
      · obtain ⟨hv1, hv2⟩ := hmid.cov_z v h
        have hvn : v ≠ nbr := fun he => hnk (he ▸ hv1)
        refine ⟨by rw [hkeys']; exact List.mem_append.mpr (Or.inl hv1), ?_⟩
        rcases hv2 with ⟨lv, hlv, hzl⟩ | hv2
        · exact Or.inl ⟨lv, by rw [hlook v hvn]; exact hlv, hzl⟩
        · exact Or.inr hv2
      · obtain rfl : v = nbr := List.mem_singleton.mp h
        refine ⟨by rw [hkeys']; exact List.mem_append.mpr (Or.inr (by simp)), ?_⟩
        exact Or.inl ⟨[z], hlooknbr, List.mem_singleton.mpr rfl⟩
    have h13 : ∀ u, u ∈ akeys (aset st.used nbr [z]) → u ∉ nbr :: st.stack → u ≠ z →
        ∀ v ∈ G.adjOf u, v ∈ akeys (aset st.used nbr [z]) ∧
          ((∃ lv, alookup (aset st.used nbr [z]) v = some lv ∧ u ∈ lv) ∨
            (∃ lu, alookup (aset st.used nbr [z]) u = some lu ∧ v ∈ lu)) := by
      intro u hu hus hune v hv
      have hun : u ≠ nbr := fun h => hus (List.mem_cons.mpr (Or.inl h))
      have hu' : u ∈ akeys st.used := by
        rw [hkeys'] at hu
        rcases List.mem_append.mp hu with h | h
        · exact h
        · exact absurd (List.mem_singleton.mp h) hun
      have hus' : u ∉ st.stack := fun h => hus (List.mem_cons.mpr (Or.inr h))
      obtain ⟨hv1, hv2⟩ := hmid.cov_rest u hu' hus' hune v hv
      have hvn : v ≠ nbr := fun h => hnk (h ▸ hv1)
      refine ⟨by rw [hkeys']; exact List.mem_append.mpr (Or.inl hv1), ?_⟩
      rcases hv2 with ⟨lv, hlv, hul⟩ | ⟨lu, hlu, hvl⟩
      · exact Or.inl ⟨lv, by rw [hlook v hvn]; exact hlv, hul⟩
      · exact Or.inr ⟨lu, by rw [hlook u hun]; exact hlu, hvl⟩
    have h14 : st.cycles.length + (akeys (aset st.used nbr [z])).length =
        usedTotal (aset st.used nbr [z]) + 1 := by
      have ht := usedTotal_aset st.used nbr [z]
      rw [hcase] at ht
      simp only [Option.getD_none, List.length_nil, List.length_singleton] at ht
      rw [hkeys', List.length_append, List.length_singleton]
      have := hmid.count
      omega
    have hmeas : (nbr :: st.stack).length +
        unseenCount G (akeys (aset st.used nbr [z])) =
        st.stack.length + unseenCount G (akeys st.used) := by
      have hsn := filter_notMem_snoc hwf.nodes_nodup hnbrnode hnk
      rw [hkeys']
      simp only [unseenCount, List.length_cons]
      omega
    have hmono : ∀ x ∈ akeys st.used, x ∈ akeys (aset st.used nbr [z]) := by
      intro x hx
      rw [hkeys']
      exact List.mem_append.mpr (Or.inl hx)
    rw [hst']
    exact ⟨⟨h1, h2, h3, h4, h5, h6, h7, h8, h9, h10, h11, h12, h13, h14⟩, hmeas, hmono⟩
  | some pn =>
    have hnk : nbr ∈ akeys st.used := by
      rw [mem_akeys, hcase]
      rfl
    have hpn := hmid.used_vals nbr pn hcase
    have hnbr_pn : nbr ∉ pn := fun h => hNS nbr ((hpn.2 nbr h).2.2)
    by_cases hzn : nbr ∈ zused
    · -- skip: the state is unchanged
      have hst' : patonVisit cf zused z st nbr = st := by
        unfold patonVisit
        simp only [hcase]
        rw [if_neg hne, if_neg (by simpa using hzn)]
      rw [hst']
      refine ⟨⟨hmid.keys_nodup, hmid.keys_sub, hmid.pred_keys, hmid.stack_nodup,
        hmid.stack_disc, hmid.z_disc, hmid.z_not_stack, hmid.z_entry,
        hmid.used_vals, ?_, hmid.one_side, ?_, hmid.cov_rest, hmid.count⟩,
        rfl, fun x hx => hx⟩
      · intro v l hl hz
        exact List.mem_append.mpr (Or.inl (hmid.z_mem v l hl hz))
      · intro v hv
        rcases List.mem_append.mp hv with h | h
        · obtain ⟨hv1, hv2⟩ := hmid.cov_z v h
          exact ⟨hv1, hv2⟩
        · obtain rfl : v = nbr := List.mem_singleton.mp h
          exact ⟨hnk, Or.inr hzn⟩
    · -- cycle emission
      have hzpn : z ∉ pn := fun h => hnd (hmid.z_mem nbr pn hcase h)
      have hst' : patonVisit cf zused z st nbr =
          { st with used := aset st.used nbr (pn ++ [z])
                    cycles := st.cycles ++ [[nbr, z] ++ chase st.pred pn cf ((alookup st.pred z).getD z)] } := by
        unfold patonVisit
        simp only [hcase]
        rw [if_neg hne, if_pos (by simpa using hzn), if_neg hzpn]
      have hkeys' : akeys (aset st.used nbr (pn ++ [z])) = akeys st.used := by
        rw [akeys_aset, if_pos hnk]
      have hlook : ∀ x, x ≠ nbr →
          alookup (aset st.used nbr (pn ++ [z])) x = alookup st.used x :=
        fun x hx => alookup_aset_ne _ _ _ _ (Ne.symm hx)
      have hlooknbr : alookup (aset st.used nbr (pn ++ [z])) nbr = some (pn ++ [z]) :=
        alookup_aset _ _ _
      have h8 : alookup (aset st.used nbr (pn ++ [z])) z = some zused := by
        rw [hlook z (Ne.symm hne)]
        exact hmid.z_entry
      have h9 : ∀ v l, alookup (aset st.used nbr (pn ++ [z])) v = some l → l.Nodup ∧
          ∀ w ∈ l, w ∈ akeys (aset st.used nbr (pn ++ [z])) ∧ w ∉ st.stack ∧
            w ∈ G.adjOf v := by
        intro v l hl
        rw [hkeys']
        by_cases hv : v = nbr
        · subst hv
          rw [hlooknbr] at hl
          obtain rfl : pn ++ [z] = l := Option.some_inj.mp hl
          refine ⟨hpn.1.append (List.nodup_singleton _)
            (fun a ha hb => hzpn ((List.mem_singleton.mp hb) ▸ ha)), ?_⟩
          intro w hw
          rcases List.mem_append.mp hw with h | h
          · exact hpn.2 w h
          · obtain rfl : w = z := List.mem_singleton.mp h
            exact ⟨hmid.z_disc, hmid.z_not_stack, hzadj⟩
        · rw [hlook v hv] at hl
          exact hmid.used_vals v l hl
      have h10 : ∀ v l, alookup (aset st.used nbr (pn ++ [z])) v = some l → z ∈ l →
          v ∈ done ++ [nbr] := by
        intro v l hl hz
        by_cases hv : v = nbr
        · exact List.mem_append.mpr (Or.inr (List.mem_singleton.mpr hv))
        · rw [hlook v hv] at hl
          exact List.mem_append.mpr (Or.inl (hmid.z_mem v l hl hz))
      have h11 : ∀ v w lv lw, alookup (aset st.used nbr (pn ++ [z])) v = some lv →
          alookup (aset st.used nbr (pn ++ [z])) w = some lw → w ∈ lv → v ∉ lw := by
        intro v w lv lw hv hw hwlv
        by_cases hvn : v = nbr
        · rw [hvn, hlooknbr] at hv
          obtain rfl : pn ++ [z] = lv := Option.some_inj.mp hv
          rw [hvn]
          rcases List.mem_append.mp hwlv with hwpn | hwz
          · have hwne : w ≠ nbr := fun h => hNS nbr (h ▸ (hpn.2 w hwpn).2.2)
            rw [hlook w hwne] at hw
            exact hmid.one_side nbr w pn lw hcase hw hwpn
          · have hwzeq : w = z := List.mem_singleton.mp hwz
            rw [hwzeq, hlook z (Ne.symm hne), hmid.z_entry] at hw
            obtain rfl : zused = lw := Option.some_inj.mp hw
            exact hzn
        · rw [hlook v hvn] at hv
          by_cases hwn : w = nbr
          · rw [hwn, hlooknbr] at hw
            obtain rfl : pn ++ [z] = lw := Option.some_inj.mp hw
            rw [hwn] at hwlv
            have hv_pn : v ∉ pn := hmid.one_side v nbr lv pn hv hcase hwlv
            have hv_ne_z : v ≠ z := by
              intro h
              rw [h, hmid.z_entry] at hv
              obtain rfl : zused = lv := Option.some_inj.mp hv
              exact hzn hwlv
            intro hmem
            rcases List.mem_append.mp hmem with h | h
            · exact hv_pn h
            · exact hv_ne_z (List.mem_singleton.mp h)
          · rw [hlook w hwn] at hw
            exact hmid.one_side v w lv lw hv hw hwlv
      have h12 : ∀ v ∈ done ++ [nbr], v ∈ akeys (aset st.used nbr (pn ++ [z])) ∧
          ((∃ lv, alookup (aset st.used nbr (pn ++ [z])) v = some lv ∧ z ∈ lv) ∨
            v ∈ zused) := by
        intro v hv
        rw [hkeys']
        rcases List.mem_append.mp hv with h | h
        · obtain ⟨hv1, hv2⟩ := hmid.cov_z v h
          have hvn : v ≠ nbr := fun he => hnd (he ▸ h)
          refine ⟨hv1, ?_⟩
          rcases hv2 with ⟨lv, hlv, hzl⟩ | hv2
          · exact Or.inl ⟨lv, by rw [hlook v hvn]; exact hlv, hzl⟩
          · exact Or.inr hv2
        · obtain rfl : v = nbr := List.mem_singleton.mp h
          exact ⟨hnk, Or.inl ⟨pn ++ [z], hlooknbr,
            List.mem_append.mpr (Or.inr (List.mem_singleton.mpr rfl))⟩⟩
      have h13 : ∀ u, u ∈ akeys (aset st.used nbr (pn ++ [z])) → u ∉ st.stack →
          u ≠ z → ∀ v ∈ G.adjOf u, v ∈ akeys (aset st.used nbr (pn ++ [z])) ∧
            ((∃ lv, alookup (aset st.used nbr (pn ++ [z])) v = some lv ∧ u ∈ lv) ∨
              (∃ lu, alookup (aset st.used nbr (pn ++ [z])) u = some lu ∧ v ∈ lu)) := by
        intro u hu hus hune v hv
        rw [hkeys'] at hu ⊢
        obtain ⟨hv1, hv2⟩ := hmid.cov_rest u hu hus hune v hv
        refine ⟨hv1, ?_⟩
        rcases hv2 with ⟨lv, hlv, hul⟩ | ⟨lu, hlu, hvl⟩
        · by_cases hvn : v = nbr
          · subst hvn
            rw [hcase] at hlv
            obtain rfl : pn = lv := Option.some_inj.mp hlv
            exact Or.inl ⟨pn ++ [z], hlooknbr, List.mem_append.mpr (Or.inl hul)⟩
          · exact Or.inl ⟨lv, by rw [hlook v hvn]; exact hlv, hul⟩
        · by_cases hun : u = nbr
          · subst hun
            rw [hcase] at hlu
            obtain rfl : pn = lu := Option.some_inj.mp hlu
            exact Or.inr ⟨pn ++ [z], hlooknbr, List.mem_append.mpr (Or.inl hvl)⟩
          · exact Or.inr ⟨lu, by rw [hlook u hun]; exact hlu, hvl⟩
      have h14 : (st.cycles ++
            [[nbr, z] ++ chase st.pred pn cf ((alookup st.pred z).getD z)]).length +
          (akeys (aset st.used nbr (pn ++ [z]))).length =
          usedTotal (aset st.used nbr (pn ++ [z])) + 1 := by
        have ht := usedTotal_aset st.used nbr (pn ++ [z])
        rw [hcase] at ht
        simp only [Option.getD_some, List.length_append, List.length_singleton] at ht
        rw [hkeys', List.length_append, List.length_singleton]
        have := hmid.count
        omega
      have hmono : ∀ x ∈ akeys st.used, x ∈ akeys (aset st.used nbr (pn ++ [z])) := by
        intro x hx
        rw [hkeys']
        exact hx
      rw [hst']
      refine ⟨⟨?_, ?_, ?_, hmid.stack_nodup, ?_, ?_, hmid.z_not_stack, h8, h9, h10,
        h11, h12, h13, h14⟩, ?_, hmono⟩
      · rw [hkeys']
        exact hmid.keys_nodup
      · rw [hkeys']
        exact hmid.keys_sub
      · intro x
        rw [hkeys']
        exact hmid.pred_keys x
      · intro x hx
        rw [hkeys']
        exact hmid.stack_disc x hx
      · rw [hkeys']
        exact hmid.z_disc
      · rw [hkeys']

/-- Folding over the remaining neighbours of the popped node preserves the
mid-fold invariant. -/
theorem patonFold_mid {S : List PipeInput} {G : NXGraph} (hwf : GraphWF S G)
    (hNS : ∀ v, v ∉ G.adjOf v) (cf : Nat) (z : String) (zused : List String) :
    ∀ (rem done : List String) (st : PatonState),
      G.adjOf z = done ++ rem → PatonMid G z zused done st →
      PatonMid G z zused (done ++ rem) (rem.foldl (patonVisit cf zused z) st) ∧
      (rem.foldl (patonVisit cf zused z) st).stack.length +
          unseenCount G (akeys (rem.foldl (patonVisit cf zused z) st).used) =
        st.stack.length + unseenCount G (akeys st.used) ∧
      (∀ x ∈ akeys st.used, x ∈ akeys (rem.foldl (patonVisit cf zused z) st).used)
  | [], done, st, _, hmid => by
    rw [List.foldl_nil, List.append_nil]
    exact ⟨hmid, rfl, fun x hx => hx⟩
  | nbr :: rem, done, st, hsplit, hmid => by
    have hnbr : nbr ∈ G.adjOf z := by
      rw [hsplit]
      exact List.mem_append.mpr (Or.inr (List.mem_cons_self _ _))
    have hnd : nbr ∉ done := by
      have hnodup : (done ++ nbr :: rem).Nodup := hsplit ▸ hwf.adj_nodup z
      intro h
      exact (List.nodup_append.mp hnodup).2.2 h (List.mem_cons_self _ _)
    obtain ⟨hmid', hmeas', hmono'⟩ :=
      patonVisit_mid hwf hNS cf z zused done st nbr hmid hnbr hnd
    have hsplit' : G.adjOf z = (done ++ [nbr]) ++ rem := by
      rw [hsplit, List.append_assoc, List.singleton_append]
    obtain ⟨hmid'', hmeas'', hmono''⟩ :=
      patonFold_mid hwf hNS cf z zused rem (done ++ [nbr]) _ hsplit' hmid'
    rw [List.foldl_cons]
    have heq : done ++ nbr :: rem = (done ++ [nbr]) ++ rem := by
      rw [List.append_assoc, List.singleton_append]
    refine ⟨heq ▸ hmid'', hmeas''.trans hmeas', fun x hx => hmono'' x (hmono' x hx)⟩

/-- One full pop-and-process step of the `while stack:` loop: the boundary
invariant is re-established, the termination measure drops by exactly one,
and `used` keys only grow. -/
theorem patonPop {S : List PipeInput} {G : NXGraph} (hwf : GraphWF S G)
    (hNS : ∀ v, v ∉ G.adjOf v) (z : String) (rest : List String)
    (pred : List (String × String)) (used : List (String × List String))
    (cycles : List (List String))
    (hinv : PatonInv G ⟨z :: rest, pred, used, cycles⟩) :
    PatonInv G ((G.adjOf z).foldl
        (patonVisit (G.nodeList.length + 1) ((alookup used z).getD []) z)
        ⟨rest, pred, used, cycles⟩) ∧
    ((G.adjOf z).foldl
        (patonVisit (G.nodeList.length + 1) ((alookup used z).getD []) z)
        ⟨rest, pred, used, cycles⟩).stack.length +
      unseenCount G (akeys ((G.adjOf z).foldl
        (patonVisit (G.nodeList.length + 1) ((alookup used z).getD []) z)
        ⟨rest, pred, used, cycles⟩).used) + 1 =
      (z :: rest).length + unseenCount G (akeys used) ∧
    (∀ x ∈ akeys used, x ∈ akeys ((G.adjOf z).foldl
        (patonVisit (G.nodeList.length + 1) ((alookup used z).getD []) z)
        ⟨rest, pred, used, cycles⟩).used) := by
  have hmid0 := patonMid_of_inv hinv
  obtain ⟨hmidF, hmeasF, hmonoF⟩ :=
    patonFold_mid hwf hNS (G.nodeList.length + 1) z ((alookup used z).getD [])
      (G.adjOf z) [] ⟨rest, pred, used, cycles⟩ (by simp) hmid0
  rw [List.nil_append] at hmidF
  refine ⟨?_, ?_, hmonoF⟩
  · refine ⟨hmidF.keys_nodup, hmidF.keys_sub, hmidF.pred_keys, hmidF.stack_nodup,
      hmidF.stack_disc, hmidF.used_vals, hmidF.one_side, ?_, hmidF.count⟩
    intro u hu hus v hv
    by_cases huz : u = z
    · obtain ⟨hv1, hv2⟩ := hmidF.cov_z v (huz ▸ hv)
      refine ⟨hv1, ?_⟩
      rcases hv2 with ⟨lv, hlv, hzl⟩ | hv2
      · exact Or.inl ⟨lv, hlv, huz ▸ hzl⟩
      · exact Or.inr ⟨(alookup used z).getD [], huz ▸ hmidF.z_entry, hv2⟩
    · exact hmidF.cov_rest u hu hus huz v hv
  · have hmeasF2 : ((G.adjOf z).foldl
        (patonVisit (G.nodeList.length + 1) ((alookup used z).getD []) z)
        ⟨rest, pred, used, cycles⟩).stack.length +
        unseenCount G (akeys ((G.adjOf z).foldl
          (patonVisit (G.nodeList.length + 1) ((alookup used z).getD []) z)
          ⟨rest, pred, used, cycles⟩).used) =
        rest.length + unseenCount G (akeys used) := hmeasF
    simp only [List.length_cons]
    omega

/-- The `while stack:` loop, run with fuel exceeding the termination
measure, reaches the empty stack with the invariant intact. -/
theorem patonWhile_spec {S : List PipeInput} {G : NXGraph} (hwf : GraphWF S G)
    (hNS : ∀ v, v ∉ G.adjOf v) :
    ∀ (fuel : Nat) (st : PatonState), PatonInv G st →
      st.stack.length + unseenCount G (akeys st.used) < fuel →
      PatonInv G (patonWhile G fuel st) ∧ (patonWhile G fuel st).stack = [] ∧
      (∀ x ∈ akeys st.used, x ∈ akeys (patonWhile G fuel st).used)
  | 0, st, _, hf => absurd hf (Nat.not_lt_zero _)
  | fuel + 1, st, hinv, hf => by
    obtain ⟨stk, pred, used, cycles⟩ := st
    cases hstack : stk with
    | nil =>
      subst hstack
      exact ⟨hinv, rfl, fun x hx => hx⟩
    | cons z rest =>
      subst hstack
      have hrun : patonWhile G (fuel + 1) ⟨z :: rest, pred, used, cycles⟩ =
          patonWhile G fuel ((G.adjOf z).foldl
            (patonVisit (G.nodeList.length + 1) ((alookup used z).getD []) z)
            ⟨rest, pred, used, cycles⟩) := rfl
      obtain ⟨hinv', hmeas', hmono'⟩ := patonPop hwf hNS z rest pred used cycles hinv
      simp only [List.length_cons] at hmeas'
      have hf' : ((G.adjOf z).foldl
          (patonVisit (G.nodeList.length + 1) ((alookup used z).getD []) z)
          ⟨rest, pred, used, cycles⟩).stack.length +
          unseenCount G (akeys ((G.adjOf z).foldl
            (patonVisit (G.nodeList.length + 1) ((alookup used z).getD []) z)
            ⟨rest, pred, used, cycles⟩).used) < fuel := by
        have hf2 : (z :: rest).length + unseenCount G (akeys used) < fuel + 1 := hf
        simp only [List.length_cons] at hf2
        omega
      obtain ⟨hA, hB, hC⟩ := patonWhile_spec hwf hNS fuel _ hinv' hf'
      rw [hrun]
      exact ⟨hA, hB, fun x hx => hC x (hmono' x hx)⟩

/-- One component pass from `root` establishes the invariant, empties the
stack and keeps `root` discovered. -/
theorem patonComponent_spec {S : List PipeInput} {G : NXGraph} (hwf : GraphWF S G)
    (hNS : ∀ v, v ∉ G.adjOf v) (root : String) (hroot : root ∈ G.nodeList) :
    PatonInv G (patonComponent G root) ∧ (patonComponent G root).stack = [] ∧
    root ∈ akeys (patonComponent G root).used := by
  have hkeys0 : akeys ([(root, ([] : List String))]) = [root] := rfl
  have hinv0 : PatonInv G ⟨[root], [(root, root)], [(root, [])], []⟩ := by
    refine ⟨?_, ?_, ?_, List.nodup_singleton _, ?_, ?_, ?_, ?_, ?_⟩
    · rw [hkeys0]
      exact List.nodup_singleton _
    · intro x hx
      rw [hkeys0, List.mem_singleton] at hx
      exact hx ▸ hroot
    · intro x
      rfl
    · intro x hx
      exact hx
    · intro v l hl
      rw [alookup_cons] at hl
      by_cases h : root = v
      · rw [if_pos h] at hl
        obtain rfl : ([] : List String) = l := Option.some_inj.mp hl
        exact ⟨List.nodup_nil, fun w hw => absurd hw (List.not_mem_nil w)⟩
      · rw [if_neg h] at hl
        cases hl
    · intro v w lv lw hv hw hwlv
      rw [alookup_cons] at hv
      by_cases h : root = v
      · rw [if_pos h] at hv
        obtain rfl : ([] : List String) = lv := Option.some_inj.mp hv
        cases hwlv
      · rw [if_neg h] at hv
        cases hv
    · intro u hu hus
      rw [hkeys0, List.mem_singleton] at hu
      exact absurd (List.mem_singleton.mpr hu) hus
    · rfl
  have hunseen : unseenCount G (akeys ([(root, ([] : List String))])) + 1 =
      G.nodeList.length := by
    have hsn := filter_notMem_snoc hwf.nodes_nodup hroot (List.not_mem_nil root)
    rw [List.nil_append] at hsn
    have hfull : (G.nodeList.filter (fun n => decide (n ∉ ([] : List String)))).length
        = G.nodeList.length := by
      rw [List.filter_eq_self.mpr]
      intro a _
      simp
    rw [hkeys0]
    unfold unseenCount
    omega
  have hmeas0 : ([root] : List String).length +
      unseenCount G (akeys ([(root, ([] : List String))])) < G.nodeList.length + 1 := by
    rw [List.length_singleton]
    omega
  obtain ⟨hA, hB, hC⟩ := patonWhile_spec hwf hNS (G.nodeList.length + 1)
    ⟨[root], [(root, root)], [(root, [])], []⟩ hinv0 hmeas0
  exact ⟨hA, hB, hC root (by rw [hkeys0]; exact List.mem_singleton.mpr rfl)⟩

/-- With the stack empty the discovered set is closed under adjacency, so
it contains everything reachable from any discovered node. -/
theorem paton_keys_all {S : List PipeInput} {G : NXGraph} (hwf : GraphWF S G)
    {st : PatonState} {root : String} (hinv : PatonInv G st)
    (hstack : st.stack = []) (hrootk : root ∈ akeys st.used)
    (hreach : ∀ v ∈ G.nodeList, Reach G root v) :
    ∀ v ∈ G.nodeList, v ∈ akeys st.used := by
  have hclosed : ∀ u ∈ akeys st.used, ∀ v ∈ G.adjOf u, v ∈ akeys st.used := by
    intro u hu v hv
    exact (hinv.covered u hu (by rw [hstack]; exact List.not_mem_nil u) v hv).1
  have hmain : ∀ {v : String}, Reach G root v → v ∈ akeys st.used := by
    intro v h
    induction h with
    | refl _ => exact hrootk
    | tail _ hadj ih => exact hclosed _ ih _ hadj
  exact fun v hv => hmain (hreach v hv)

/-- Final accounting: with every node discovered and processed, the `used`
lists hold each edge of the simple graph exactly once, so the cycle count
satisfies `cycles + V = E + 1`. -/
theorem paton_final_count {S : List PipeInput} {G : NXGraph} (hwf : GraphWF S G)
    (hNS : ∀ v, v ∉ G.adjOf v) (st : PatonState) (hinv : PatonInv G st)
    (hstack : st.stack = []) (hall : ∀ v ∈ G.nodeList, v ∈ akeys st.used) :
    st.cycles.length + G.nodeList.length = (edgeFinset G).card + 1 := by
  have hlen : (akeys st.used).length = G.nodeList.length := by
    have h1 : (akeys st.used).toFinset = G.nodeList.toFinset := by
      ext x
      simp only [List.mem_toFinset]
      exact ⟨hinv.keys_sub x, hall x⟩
    calc (akeys st.used).length
        = (akeys st.used).toFinset.card := (List.toFinset_card_of_nodup hinv.keys_nodup).symm
      _ = G.nodeList.toFinset.card := by rw [h1]
      _ = G.nodeList.length := List.toFinset_card_of_nodup hwf.nodes_nodup
  have hlookup_of_mem : ∀ kv ∈ st.used, alookup st.used kv.1 = some kv.2 := by
    intro kv hkv
    exact mem_alookup_of_nodup hinv.keys_nodup hkv
  have hpairs_nodup : (usedPairs st.used).Nodup := by
    unfold usedPairs
    rw [List.nodup_bind]
    constructor
    · intro kv hkv
      have hlk := hlookup_of_mem kv hkv
      obtain ⟨hnd, _⟩ := hinv.used_vals kv.1 kv.2 hlk
      refine hnd.map_on ?_
      intro x hx y hy hxy
      rcases Sym2.eq_iff.mp hxy with ⟨_, h⟩ | ⟨h1, h2⟩
      · exact h
      · exact h2.trans h1
    · have hpw : st.used.Pairwise (fun a b => a.1 ≠ b.1) := by
        have hkn := hinv.keys_nodup
        unfold akeys at hkn
        exact List.pairwise_map.mp hkn
      refine hpw.imp_of_mem ?_
      intro a b ha hb hab e hea heb
      obtain ⟨x, hx, hex⟩ := List.mem_map.mp hea
      obtain ⟨y, hy, hey⟩ := List.mem_map.mp heb
      rw [← hey] at hex
      rcases Sym2.eq_iff.mp hex with ⟨h1, _⟩ | ⟨h1, h2⟩
      · exact hab h1
      · have hla := hlookup_of_mem a ha
        have hlb := hlookup_of_mem b hb
        have hnb : a.1 ∉ b.2 := hinv.one_side a.1 b.1 a.2 b.2 hla hlb (h2 ▸ hx)
        exact hnb (h1.symm ▸ hy)
  have hpairs_set : (usedPairs st.used).toFinset = edgeFinset G := by
    ext e
    rw [List.mem_toFinset, mem_edgeFinset hwf]
    constructor
    · intro he
      obtain ⟨kv, hkv, hmem⟩ := List.mem_bind.mp he
      obtain ⟨w, hw, rfl⟩ := List.mem_map.mp hmem
      have hlk := hlookup_of_mem kv hkv
      exact ⟨kv.1, w, ((hinv.used_vals kv.1 kv.2 hlk).2 w hw).2.2, rfl⟩
    · rintro ⟨u, v, hadj, rfl⟩
      have hu : u ∈ akeys st.used := hall u (hwf.adj_nodes u v hadj).1
      have hcov := hinv.covered u hu (by rw [hstack]; exact List.not_mem_nil u) v hadj
      rcases hcov.2 with ⟨lv, hlv, hul⟩ | ⟨lu, hlu, hvl⟩
      · exact List.mem_bind.mpr ⟨(v, lv), alookup_mem hlv,
          List.mem_map.mpr ⟨u, hul, Sym2.eq_swap⟩⟩
      · exact List.mem_bind.mpr ⟨(u, lu), alookup_mem hlu,
          List.mem_map.mpr ⟨v, hvl, rfl⟩⟩
  have hcard : usedTotal st.used = (edgeFinset G).card := by
    rw [← length_usedPairs, ← hpairs_set, List.toFinset_card_of_nodup hpairs_nodup]
  have hcount := hinv.count
  omega

/-- For a connected graph, `cycle_basis` is one component pass rooted at
the last node, and its cycle count obeys the simple-graph Euler formula
`cycles + V = E + 1`. -/
theorem cycle_basis_connected_count {S : List PipeInput} {G : NXGraph}
    (hwf : GraphWF S G) (hNS : ∀ v, v ∉ G.adjOf v)
    (hconn : is_connected G = some true) :
    (cycle_basis G).length + G.nodeList.length = (edgeFinset G).card + 1 := by
  cases hG : G.nodeList with
  | nil =>
    unfold is_connected at hconn
    rw [hG] at hconn
    cases hconn
  | cons r rest =>
  have hreach_r : ∀ v ∈ G.nodeList, Reach G r v := (is_connected_some_true hwf hG).mp hconn
  have hne : G.nodeList ≠ [] := by
    rw [hG]
    exact List.cons_ne_nil r rest
  set root := G.nodeList.getLast hne with hroot_def
  have hgl : G.nodeList.getLast? = some root := List.getLast?_eq_getLast _ _
  have hrootmem : root ∈ G.nodeList := List.getLast_mem hne
  have hreach_root : ∀ v ∈ G.nodeList, Reach G root v := by
    intro v hv
    exact Reach.trans (Reach.symm hwf (hreach_r root hrootmem)) (hreach_r v hv)
  obtain ⟨hinv, hstack, hrootk⟩ := patonComponent_spec hwf hNS root hrootmem
  have hall := paton_keys_all hwf hinv hstack hrootk hreach_root
  have hcount := paton_final_count hwf hNS _ hinv hstack hall
  have hfilter : G.nodeList.filter
      (fun n => decide (n ∉ akeys (patonComponent G root).pred)) = [] := by
    rw [List.filter_eq_nil_iff]
    intro a ha
    have hm : a ∈ akeys (patonComponent G root).pred :=
      (hinv.pred_keys a).mpr (hall a ha)
    simp [hm]
  have hbasis : cycle_basis G = (patonComponent G root).cycles := by
    unfold cycle_basis
    have h1 : cycle_basisAux G (G.nodeList.length + 1) G.nodeList [] =
        cycle_basisAux G G.nodeList.length
          (G.nodeList.filter (fun n => decide (n ∉ akeys (patonComponent G root).pred)))
          ([] ++ (patonComponent G root).cycles) := by
      simp only [cycle_basisAux, hgl]
    have h2 : cycle_basisAux G G.nodeList.length
        (G.nodeList.filter (fun n => decide (n ∉ akeys (patonComponent G root).pred)))
        ([] ++ (patonComponent G root).cycles) = (patonComponent G root).cycles := by
      rw [hfilter, List.nil_append, hG, List.length_cons]
      simp only [cycle_basisAux, List.getLast?_nil]
    rw [h1, h2]
  rw [hbasis, ← hG]
  exact hcount

/-- Adjacency is monotone along the `buildGraph` fold. -/
theorem adjOf_foldl_mono :
    ∀ (l : List PipeInput) (G0 : NXGraph) (w x : String), x ∈ G0.adjOf w →
      x ∈ (l.foldl (fun G p => G.add_edge p.start_node p.end_node p.id) G0).adjOf w
  | [], _, _, _, h => h
  | p :: l, G0, w, x, h =>
    adjOf_foldl_mono l _ w x (mem_adjOf_add_edge.mpr (Or.inl h))

/-- Every pipe's endpoints end up adjacent in the built graph. -/
theorem pipe_adj_foldl :
    ∀ (l : List PipeInput) (G0 : NXGraph) (p : PipeInput), p ∈ l →
      p.end_node ∈ (l.foldl (fun G p => G.add_edge p.start_node p.end_node p.id)
          G0).adjOf p.start_node
  | p0 :: l, G0, p, hp => by
    rcases List.mem_cons.mp hp with heq | hp'
    · subst heq
      exact adjOf_foldl_mono l _ _ _
        (mem_adjOf_add_edge.mpr (Or.inr (Or.inl ⟨rfl, rfl⟩)))
    · exact pipe_adj_foldl l _ p hp'

/-- The simple graph's edge set is exactly the set of distinct unordered
pipe endpoint pairs. -/
theorem edgeFinset_buildGraph (pipes : List PipeInput) :
    edgeFinset (buildGraph pipes) =
      (pipes.map (fun p => s(p.start_node, p.end_node))).toFinset := by
  ext e
  rw [mem_edgeFinset (buildGraph_wf pipes), List.mem_toFinset, List.mem_map]
  constructor
  · rintro ⟨u, v, hadj, rfl⟩
    obtain ⟨pid, hed⟩ := (buildGraph_wf pipes).edge_of_adj u v hadj
    obtain ⟨p, hp, _, hcase⟩ := (buildGraph_wf pipes).edge_pipe u v pid hed
    rcases hcase with ⟨h1, h2⟩ | ⟨h1, h2⟩
    · exact ⟨p, hp, by rw [h1, h2]⟩
    · exact ⟨p, hp, by rw [h1, h2]; exact Sym2.eq_swap⟩
  · rintro ⟨p, hp, rfl⟩
    exact ⟨p.start_node, p.end_node, pipe_adj_foldl pipes {} p hp, rfl⟩

/-- With no self-looped pipe the built graph has no self-adjacency. -/
theorem buildGraph_no_self (pipes : List PipeInput)
    (hns : ∀ p ∈ pipes, p.start_node ≠ p.end_node) :
    ∀ v, v ∉ (buildGraph pipes).adjOf v := by
  intro v hv
  obtain ⟨pid, hed⟩ := (buildGraph_wf pipes).edge_of_adj v v hv
  obtain ⟨p, hp, _, hcase⟩ := (buildGraph_wf pipes).edge_pipe v v pid hed
  rcases hcase with ⟨h1, h2⟩ | ⟨h1, h2⟩ <;> exact hns p hp (h1.trans h2.symm)

/-- C5 (amended): the solver's graph is `nx.Graph`, a *simple* graph whose
`add_edge` on an existing node pair only overwrites the edge payload, so
parallel pipes collapse onto one edge.  For every connected input without
self-looped pipes, the computed independent loop count therefore equals
`E' − V + 1` where `E'` is the number of *distinct unordered endpoint
pairs* of the pipes — not the number of pipes. -/
theorem c5_loop_count_amended (pipes : List PipeInput)
    (hns : ∀ p ∈ pipes, p.start_node ≠ p.end_node)
    (hconn : is_connected (buildGraph pipes) = some true) :
    (cycle_basis (buildGraph pipes)).length + (buildGraph pipes).nodeList.length =
      ((pipes.map (fun p => s(p.start_node, p.end_node))).toFinset).card + 1 := by
  rw [← edgeFinset_buildGraph]
  exact cycle_basis_connected_count (buildGraph_wf pipes)
    (buildGraph_no_self pipes hns) hconn

/-- A triangle: three pipes, three nodes, one independent loop. -/
def c5wPipes : List PipeInput := [
  { id := "P1", start_node := "A", end_node := "B" },
  { id := "P2", start_node := "B", end_node := "C" },
  { id := "P3", start_node := "C", end_node := "A" }]

/-- Witness for the amended C5 count on the triangle: `1 + 3 = 3 + 1`. -/
theorem c5_loop_count_amended_witness :
    (∀ p ∈ c5wPipes, p.start_node ≠ p.end_node) ∧
    is_connected (buildGraph c5wPipes) = some true ∧
    (cycle_basis (buildGraph c5wPipes)).length + (buildGraph c5wPipes).nodeList.length =
      ((c5wPipes.map (fun p => s(p.start_node, p.end_node))).toFinset).card + 1 :=
  ⟨by with_unfolding_all decide, by with_unfolding_all rfl,
   c5_loop_count_amended c5wPipes (by with_unfolding_all decide)
     (by with_unfolding_all rfl)⟩

/-- Two parallel pipes joining the same pair of nodes. -/
def parPipes : List PipeInput := [
  { id := "P1", start_node := "A", end_node := "B" },
  { id := "P2", start_node := "A", end_node := "B" }]

/-- C5 counterexample: with two parallel pipes the claim demands
`E − V + 1 = 2 − 2 + 1 = 1` independent loop (edge count = pipe count in a
multigraph), but the built `nx.Graph` is simple — the second `add_edge`
only overwrites the payload of the existing edge (`get_edge_data = "P2"`)
— so `cycle_basis` finds no loop at all. -/
theorem c5_counterexample :
    is_connected (buildGraph parPipes) = some true ∧
    parPipes.length = 2 ∧
    (buildGraph parPipes).nodeList.length = 2 ∧
    cycle_basis (buildGraph parPipes) = [] ∧
    (buildGraph parPipes).get_edge_data "A" "B" = some "P2" ∧
    (cycle_basis (buildGraph parPipes)).length ≠
      parPipes.length - (buildGraph parPipes).nodeList.length + 1 :=
  ⟨by with_unfolding_all rfl, rfl, by with_unfolding_all rfl,
   by with_unfolding_all rfl, by with_unfolding_all rfl,
   by with_unfolding_all decide⟩

/-! ## Claim C1: node continuity

The claim's "signed sum of pipe flows incident to the node": each pipe
contributes its flow positively at its end node and negatively at its
start node. -/

/-- A pipe's incidence coefficient at node `n`: `+1` at its end node, `-1`
at its start node (`0` for a self-looped pipe). -/
def pipeCoeff (p : PipeInput) (n : String) : ℚ :=
  (if p.end_node = n then 1 else 0) - (if p.start_node = n then 1 else 0)

/-- The claim's signed flow sum at node `n`. -/
def nodeBalance (pipes : List PipeInput) (flows : List (String × ℚ))
    (n : String) : ℚ :=
  (pipes.map (fun p => pipeCoeff p n * (alookup flows p.id).getD 0)).sum

/-- The total incidence coefficient at `n` of the pipes carrying id `q`. -/
def coeffSum (pipes : List PipeInput) (q : String) (n : String) : ℚ :=
  (pipes.map (fun p => if p.id = q then pipeCoeff p n else 0)).sum

theorem nodeBalance_aset (pipes : List PipeInput) (flows : List (String × ℚ))
    (q : String) (v : ℚ) (n : String) :
    nodeBalance pipes (aset flows q v) n =
      nodeBalance pipes flows n + coeffSum pipes q n * (v - (alookup flows q).getD 0) := by
  induction pipes with
  | nil =>
    simp [nodeBalance, coeffSum]
  | cons p ps ih =>
    simp only [nodeBalance, coeffSum, List.map_cons, List.sum_cons] at ih ⊢
    by_cases h : p.id = q
    · rw [h, alookup_aset]
      simp only [Option.getD_some, eq_self_iff_true, if_true]
      rw [ih]
      ring
    · rw [alookup_aset_ne _ _ _ _ (fun he => h he.symm), if_neg h]
      rw [ih]
      ring

theorem specApply_balance (pipes : List PipeInput) (d : ℚ) :
    ∀ (E : List (String × PipeInput × String)) (flows : List (String × ℚ)) (n : String),
    nodeBalance pipes (specApply d E flows) n =
      nodeBalance pipes flows n +
        d * (E.map (fun e => coeffSum pipes e.1 n * specSign e.2.1 e.2.2)).sum
  | [], flows, n => by simp [specApply]
  | e :: E, flows, n => by
    have hstep : specApply d (e :: E) flows =
        specApply d E (aset flows e.1
          ((alookup flows e.1).getD 0 + d * specSign e.2.1 e.2.2)) := rfl
    rw [hstep, specApply_balance pipes d E _ n, nodeBalance_aset]
    simp only [List.map_cons, List.sum_cons]
    ring

theorem coeffSum_zero (pipes : List PipeInput) (q : String) (n : String)
    (h : ∀ p ∈ pipes, p.id ≠ q) : coeffSum pipes q n = 0 := by
  induction pipes with
  | nil => rfl
  | cons p ps ih =>
    simp only [coeffSum, List.map_cons, List.sum_cons] at ih ⊢
    rw [if_neg (h p (List.mem_cons_self _ _)), ih fun r hr => h r (List.mem_cons_of_mem _ hr)]
    ring

theorem coeffSum_eq (pipes : List PipeInput)
    (hids : (pipes.map (fun p => p.id)).Nodup) (pd : PipeInput) (hpd : pd ∈ pipes)
    (n : String) : coeffSum pipes pd.id n = pipeCoeff pd n := by
  induction pipes with
  | nil => cases hpd
  | cons p ps ih =>
    simp only [List.map_cons, List.nodup_cons] at hids
    simp only [coeffSum, List.map_cons, List.sum_cons]
    rcases List.mem_cons.mp hpd with heq | hmem
    · subst heq
      rw [if_pos rfl]
      have hz : coeffSum ps pd.id n = 0 := by
        apply coeffSum_zero
        intro r hr he
        exact hids.1 (he ▸ List.mem_map.mpr ⟨r, hr, rfl⟩)
      simp only [coeffSum] at hz
      rw [hz]
      ring
    · have hne : p.id ≠ pd.id := by
        intro he
        exact hids.1 (he ▸ List.mem_map.mpr ⟨pd, hmem, rfl⟩)
      rw [if_neg hne]
      have := ih hids.2 hmem
      simp only [coeffSum] at this
      rw [this]
      ring

/-- Per traversed pair, the incidence-weighted correction sign telescopes
to `head-indicator minus tail-indicator`; pairs without an edge are
stutters and contribute zero. -/
theorem edges_pairs_sum (pipes : List PipeInput) (G : NXGraph)
    (pmap : List (String × PipeInput)) (n : String)
    (hids : (pipes.map (fun p => p.id)).Nodup)
    (hpmap : ∀ pid pd, alookup pmap pid = some pd → pd ∈ pipes ∧ pd.id = pid)
    (hedge : ∀ u v pid, G.get_edge_data u v = some pid →
      ∃ pd, alookup pmap pid = some pd ∧
        ((pd.start_node = u ∧ pd.end_node = v) ∨
         (pd.start_node = v ∧ pd.end_node = u))) :
    ∀ ps : List (String × String),
      (∀ uv ∈ ps, uv.1 = uv.2 ∨ (G.get_edge_data uv.1 uv.2).isSome) →
      ((specEdgesOfPairs G pmap ps).map
          (fun e => coeffSum pipes e.1 n * specSign e.2.1 e.2.2)).sum =
        (ps.map (fun uv => (if uv.2 = n then (1:ℚ) else 0) -
          (if uv.1 = n then 1 else 0))).sum
  | [], _ => by simp [specEdgesOfPairs]
  | uv :: ps, hw => by
    have hwps : ∀ uv ∈ ps, uv.1 = uv.2 ∨ (G.get_edge_data uv.1 uv.2).isSome :=
      fun x hx => hw x (List.mem_cons_of_mem _ hx)
    have ih := edges_pairs_sum pipes G pmap n hids hpmap hedge ps hwps
    cases hed : G.get_edge_data uv.1 uv.2 with
    | none =>
      have hstut : uv.1 = uv.2 := by
        rcases hw uv (List.mem_cons_self _ _) with h | h
        · exact h
        · rw [hed] at h
          cases h
      have hE : specEdgesOfPairs G pmap (uv :: ps) = specEdgesOfPairs G pmap ps := by
        unfold specEdgesOfPairs
        simp only [List.filterMap_cons, hed]
      rw [hE, ih, List.map_cons, List.sum_cons, hstut]
      ring
    | some pid =>
      obtain ⟨pd, hpd, hend⟩ := hedge uv.1 uv.2 pid hed
      have hE : specEdgesOfPairs G pmap (uv :: ps) =
          (pid, pd, uv.1) :: specEdgesOfPairs G pmap ps := by
        unfold specEdgesOfPairs
        simp only [List.filterMap_cons, hed, hpd]
      obtain ⟨hpdm, hpdi⟩ := hpmap pid pd hpd
      have hcs : coeffSum pipes pid n = pipeCoeff pd n := by
        rw [← hpdi]
        exact coeffSum_eq pipes hids pd hpdm n
      have hterm : pipeCoeff pd n * specSign pd uv.1 =
          (if uv.2 = n then (1:ℚ) else 0) - (if uv.1 = n then 1 else 0) := by
        rcases hend with ⟨h1, h2⟩ | ⟨h1, h2⟩
        · unfold specSign pipeCoeff
          rw [if_pos h1, h1, h2]
          ring
        · by_cases huv : uv.1 = uv.2
          · unfold specSign pipeCoeff
            rw [if_pos (h1.trans huv.symm), h1, h2, huv]
            ring
          · unfold specSign pipeCoeff
            rw [if_neg (fun hh => huv ((h1.symm.trans hh).symm)), h1, h2]
            ring
      rw [hE, List.map_cons, List.sum_cons, ih, List.map_cons, List.sum_cons, hcs, hterm]

/-- Around the cyclic pair list of a loop, head and tail indicators cancel:
every list position is once a head and once a tail. -/
theorem zip_rotate_telescope (l : List String) (n : String) :
    ((l.zip (l.rotate 1)).map (fun uv => (if uv.2 = n then (1:ℚ) else 0) -
      (if uv.1 = n then 1 else 0))).sum = 0 := by
  have gen : ∀ (zs : List (String × String)),
      (zs.map (fun uv => (if uv.2 = n then (1:ℚ) else 0) -
        (if uv.1 = n then 1 else 0))).sum =
      ((zs.map Prod.snd).map (fun x => if x = n then (1:ℚ) else 0)).sum -
      ((zs.map Prod.fst).map (fun x => if x = n then (1:ℚ) else 0)).sum := by
    intro zs
    induction zs with
    | nil => simp
    | cons a zs ih =>
      simp only [List.map_cons, List.sum_cons, ih]
      ring
  have hlen : (l.rotate 1).length = l.length := List.length_rotate l 1
  have hfst : (l.zip (l.rotate 1)).map Prod.fst = l :=
    List.map_fst_zip _ _ (le_of_eq hlen.symm)
  have hsnd : (l.zip (l.rotate 1)).map Prod.snd = l.rotate 1 :=
    List.map_snd_zip _ _ (le_of_eq hlen)
  rw [gen, hfst, hsnd]
  have hperm : (l.rotate 1).Perm l := List.rotate_perm l 1
  rw [(hperm.map (fun x => if x = n then (1:ℚ) else 0)).sum_eq, sub_self]

/-- One spec-level loop correction leaves every node balance unchanged. -/
theorem specApply_loop_balance (pipes : List PipeInput) (G : NXGraph)
    (pmap : List (String × PipeInput)) (n : String) (d : ℚ)
    (hids : (pipes.map (fun p => p.id)).Nodup)
    (hpmap : ∀ pid pd, alookup pmap pid = some pd → pd ∈ pipes ∧ pd.id = pid)
    (hedge : ∀ u v pid, G.get_edge_data u v = some pid →
      ∃ pd, alookup pmap pid = some pd ∧
        ((pd.start_node = u ∧ pd.end_node = v) ∨
         (pd.start_node = v ∧ pd.end_node = u)))
    (l : List String)
    (hl : ∀ uv ∈ l.zip (l.rotate 1), uv.1 = uv.2 ∨ (G.get_edge_data uv.1 uv.2).isSome)
    (flows : List (String × ℚ)) :
    nodeBalance pipes (specApply d (specLoopEdges G pmap l) flows) n =
      nodeBalance pipes flows n := by
  rw [specApply_balance]
  unfold specLoopEdges
  rw [edges_pairs_sum pipes G pmap n hids hpmap hedge _ hl, zip_rotate_telescope]
  ring

/-- Sequential loop-by-loop processing of closed walks preserves every node
balance. -/
theorem specIterFlows_balance (pipes : List PipeInput) (G : NXGraph)
    (pmap : List (String × PipeInput)) (pipeK : List (String × ℚ)) (n : String)
    (hids : (pipes.map (fun p => p.id)).Nodup)
    (hpmap : ∀ pid pd, alookup pmap pid = some pd → pd ∈ pipes ∧ pd.id = pid)
    (hedge : ∀ u v pid, G.get_edge_data u v = some pid →
      ∃ pd, alookup pmap pid = some pd ∧
        ((pd.start_node = u ∧ pd.end_node = v) ∨
         (pd.start_node = v ∧ pd.end_node = u))) :
    ∀ (loops : List (List String)) (flows : List (String × ℚ)),
      (∀ l ∈ loops, ∀ uv ∈ l.zip (l.rotate 1),
        uv.1 = uv.2 ∨ (G.get_edge_data uv.1 uv.2).isSome) →
      nodeBalance pipes (specIterFlows G pmap pipeK loops flows) n =
        nodeBalance pipes flows n
  | [], flows, _ => rfl
  | l :: loops, flows, hw => by
    have h1 : specIterFlows G pmap pipeK (l :: loops) flows =
        specIterFlows G pmap pipeK loops
          (specApply (specDeltaAmended
              (specSumHead pipeK flows (specLoopEdges G pmap l))
              (specSumDeriv pipeK flows (specLoopEdges G pmap l)))
            (specLoopEdges G pmap l) flows) := rfl
    rw [h1, specIterFlows_balance pipes G pmap pipeK n hids hpmap hedge loops _
      (fun x hx => hw x (List.mem_cons_of_mem _ hx)),
      specApply_loop_balance pipes G pmap n _ hids hpmap hedge l
        (hw l (List.mem_cons_self _ _)) flows]

/-- C1 (amended): the initializer does *not* in general establish node
continuity (see the counterexample: a demand at `1e-7`, above zero but
with no counterpart source above the `1e-9` transfer threshold, leaves all
flows zero).  The preservation half of the claim is exact: as long as
every basis loop is a closed walk (consecutive loop nodes equal or joined
by an edge, cyclically), a Hardy Cross iteration — and hence the whole
iteration loop — changes no node's signed flow balance, because each
loop's `ΔQ` enters a node's balance once positively (as head) and once
negatively (as tail). -/
theorem c1_continuity_amended (pipes : List PipeInput) (G : NXGraph)
    (pmap : List (String × PipeInput)) (pipeK : List (String × ℚ))
    (flows : List (String × ℚ)) (loops : List (List String)) (n : String)
    (hids : (pipes.map (fun p => p.id)).Nodup)
    (hpmap : ∀ pid pd, alookup pmap pid = some pd → pd ∈ pipes ∧ pd.id = pid)
    (hedge : ∀ u v pid, G.get_edge_data u v = some pid →
      ∃ pd, alookup pmap pid = some pd ∧
        ((pd.start_node = u ∧ pd.end_node = v) ∨
         (pd.start_node = v ∧ pd.end_node = u)))
    (hwalks : ∀ l ∈ loops, ∀ uv ∈ l.zip (l.rotate 1),
      uv.1 = uv.2 ∨ (G.get_edge_data uv.1 uv.2).isSome) :
    nodeBalance pipes (hardyIteration G pmap pipeK loops flows 0).1 n =
      nodeBalance pipes flows n ∧
    ∀ (fuel iterIdx : Nat) (hist : List IterLogRec),
      nodeBalance pipes
          (hardyLoop G pmap pipeK loops fuel iterIdx flows hist).1 n =
        nodeBalance pipes flows n := by
  have hiter : ∀ (fl : List (String × ℚ)) (i : Nat),
      nodeBalance pipes (hardyIteration G pmap pipeK loops fl i).1 n =
        nodeBalance pipes fl n := by
    intro fl i
    have h1 : (hardyIteration G pmap pipeK loops fl i).1 =
        (processLoops G pmap pipeK loops fl).1 := rfl
    rw [h1, processLoops_spec]
    exact specIterFlows_balance pipes G pmap pipeK n hids hpmap hedge loops fl hwalks
  have hloop : ∀ (fuel : Nat) (fl : List (String × ℚ)) (iterIdx : Nat)
      (hist : List IterLogRec),
      nodeBalance pipes (hardyLoop G pmap pipeK loops fuel iterIdx fl hist).1 n =
        nodeBalance pipes fl n := by
    intro fuel
    induction fuel with
    | zero => intro fl iterIdx hist; rfl
    | succ fuel ih =>
      intro fl iterIdx hist
      have hunf : hardyLoop G pmap pipeK loops (fuel + 1) iterIdx fl hist =
          (if (hardyIteration G pmap pipeK loops fl iterIdx).2.1 < 1e-6
           then ((hardyIteration G pmap pipeK loops fl iterIdx).1, true,
             hist ++ [(hardyIteration G pmap pipeK loops fl iterIdx).2.2])
           else hardyLoop G pmap pipeK loops fuel (iterIdx + 1)
             (hardyIteration G pmap pipeK loops fl iterIdx).1
             (hist ++ [(hardyIteration G pmap pipeK loops fl iterIdx).2.2])) := rfl
      rw [hunf]
      by_cases hc : (hardyIteration G pmap pipeK loops fl iterIdx).2.1 < 1e-6
      · rw [if_pos hc]
        exact hiter fl iterIdx
      · rw [if_neg hc]
        rw [ih (hardyIteration G pmap pipeK loops fl iterIdx).1 (iterIdx + 1)
          (hist ++ [(hardyIteration G pmap pipeK loops fl iterIdx).2.2])]
        exact hiter fl iterIdx
  exact ⟨hiter flows 0, fun fuel iterIdx hist => hloop fuel flows iterIdx hist⟩

/-- Whatever `pipes_map` returns came from the pipe list, keyed by its id. -/
theorem pmap_lookup_sound (S : List PipeInput) :
    ∀ (l : List PipeInput) (m0 : List (String × PipeInput)),
      (∀ k pd, alookup m0 k = some pd → pd ∈ S ∧ pd.id = k) →
      (∀ p ∈ l, p ∈ S) →
      ∀ k pd, alookup (l.foldl (fun m p => aset m p.id p) m0) k = some pd →
        pd ∈ S ∧ pd.id = k
  | [], _, h0, _, k, pd, h => h0 k pd h
  | p :: l, m0, h0, hl, k, pd, h => by
    refine pmap_lookup_sound S l (aset m0 p.id p) ?_
      (fun q hq => hl q (List.mem_cons_of_mem _ hq)) k pd h
    intro k' pd' h'
    by_cases hk : p.id = k'
    · rw [← hk, alookup_aset] at h'
      obtain rfl : p = pd' := Option.some_inj.mp h'
      exact ⟨hl p (List.mem_cons_self _ _), hk⟩
    · rw [alookup_aset_ne _ _ _ _ hk] at h'
      exact h0 k' pd' h'

theorem pmap_preserve :
    ∀ (l : List PipeInput) (m0 : List (String × PipeInput)) (k : String),
      (∀ p ∈ l, p.id ≠ k) →
      alookup (l.foldl (fun m p => aset m p.id p) m0) k = alookup m0 k
  | [], _, _, _ => rfl
  | p :: l, m0, k, h => by
    rw [List.foldl_cons,
      pmap_preserve l _ k (fun q hq => h q (List.mem_cons_of_mem _ hq)),
      alookup_aset_ne _ _ _ _ (h p (List.mem_cons_self _ _))]

/-- With distinct pipe ids, `pipes_map` maps each pipe's id to that pipe. -/
theorem pmap_lookup_self :
    ∀ (l : List PipeInput) (m0 : List (String × PipeInput)),
      (l.map (fun p => p.id)).Nodup →
      ∀ p ∈ l, alookup (l.foldl (fun m p => aset m p.id p) m0) p.id = some p
  | p0 :: l, m0, hn, p, hp => by
    simp only [List.map_cons, List.nodup_cons] at hn
    rcases List.mem_cons.mp hp with heq | hmem
    · subst heq
      rw [List.foldl_cons,
        pmap_preserve l _ p.id
          (fun q hq he => hn.1 (he ▸ List.mem_map.mpr ⟨q, hq, rfl⟩)),
        alookup_aset]
    · exact pmap_lookup_self l _ hn.2 p hmem

/-- Every edge payload of the built graph resolves through `pipes_map` to a
pipe whose endpoints are the edge's endpoints. -/
theorem buildGraph_hedge (pipes : List PipeInput)
    (hids : (pipes.map (fun p => p.id)).Nodup) :
    ∀ u v pid, (buildGraph pipes).get_edge_data u v = some pid →
      ∃ pd, alookup (pipes.foldl (fun m p => aset m p.id p) []) pid = some pd ∧
        ((pd.start_node = u ∧ pd.end_node = v) ∨
         (pd.start_node = v ∧ pd.end_node = u)) := by
  intro u v pid hed
  obtain ⟨p, hp, hpid, hcase⟩ := (buildGraph_wf pipes).edge_pipe u v pid hed
  exact ⟨p, hpid ▸ pmap_lookup_self pipes [] hids p hp, hcase⟩

/-- The C1 witness triangle. -/
def c1wPipes : List PipeInput := [
  { id := "P1", start_node := "A", end_node := "B" },
  { id := "P2", start_node := "B", end_node := "C" },
  { id := "P3", start_node := "C", end_node := "A" }]

/-- Its graph. -/
def c1wG : NXGraph := buildGraph c1wPipes

/-- Its `pipes_map`. -/
def c1wPmap : List (String × PipeInput) := c1wPipes.foldl (fun m p => aset m p.id p) []

/-- Its resistance map. -/
def c1wK : List (String × ℚ) :=
  c1wPipes.foldl (fun m p => aset m p.id (calculate_resistance_coefficient p)) []

/-- A starting flow assignment for the C1 witness. -/
def c1wFlows : List (String × ℚ) := [("P1", 5), ("P2", 2), ("P3", 0)]

/-- Witness for the amended C1 on the triangle: its single basis loop is a
closed walk, and node `A`'s signed balance is unchanged by one iteration
and by the full loop. -/
theorem c1_continuity_amended_witness :
    cycle_basis c1wG = [["B", "A", "C"]] ∧
    nodeBalance c1wPipes
        (hardyIteration c1wG c1wPmap c1wK [["B", "A", "C"]] c1wFlows 0).1 "A" =
      nodeBalance c1wPipes c1wFlows "A" ∧
    nodeBalance c1wPipes
        (hardyLoop c1wG c1wPmap c1wK [["B", "A", "C"]] 100 0 c1wFlows []).1 "A" =
      nodeBalance c1wPipes c1wFlows "A" :=
  have h := c1_continuity_amended c1wPipes c1wG c1wPmap c1wK c1wFlows
    [["B", "A", "C"]] "A"
    (by with_unfolding_all decide)
    (fun pid pd hpd => pmap_lookup_sound c1wPipes c1wPipes []
      (fun k pd' h' => nomatch h') (fun p hp => hp) pid pd hpd)
    (buildGraph_hedge c1wPipes (by with_unfolding_all decide))
    (by with_unfolding_all decide)
  ⟨by with_unfolding_all rfl, h.1, h.2 100 0 []⟩

/-- The C1 counterexample network: a demand of `1e-7` at `A` — above zero,
below nothing the validator balances (total `1e-7 < 1e-6`) — with no
source node anywhere. -/
def c1pipes : List PipeInput := [{ id := "P1", start_node := "A", end_node := "B" }]

/-- Its nodes. -/
def c1nodes : List NodeInput := [
  { id := "A", demand := some (1/10000000) }, { id := "B", demand := some 0 }]

/-- The validated pipes. -/
def c1pipesV : List PipeInput := (validate_and_fix_network c1nodes c1pipes "darcy").2

/-- C1 counterexample: after validation (demands unchanged) the connected
network's initializer returns all-zero flows — node `A` has no matching
source above the `1e-9` transfer threshold — so `A`'s signed flow balance
is `0`, not its post-validation demand `1e-7`. -/
theorem c1_counterexample :
    (validate_and_fix_network c1nodes c1pipes "darcy").1 =
      [{ id := "A", demand := some (1/10000000) }, { id := "B", demand := some 0 }] ∧
    is_connected (buildGraph c1pipesV) = some true ∧
    initFlowsRobust (validate_and_fix_network c1nodes c1pipes "darcy").1 c1pipesV =
      .ok [("P1", 0)] ∧
    nodeBalance c1pipesV [("P1", 0)] "A" = 0 ∧
    demandOf { id := "A", demand := some (1/10000000) } = 1/10000000 ∧
    nodeBalance c1pipesV [("P1", 0)] "A" ≠
      demandOf { id := "A", demand := some (1/10000000) } :=
  ⟨by with_unfolding_all rfl, by with_unfolding_all rfl, by with_unfolding_all rfl,
   by with_unfolding_all rfl, by with_unfolding_all rfl, by with_unfolding_all decide⟩

set_option maxRecDepth 4000 in
/-- C4 counterexample: in the first Hardy Cross iteration of the triangle
network `c4pipes`/`c4nodes` — reachable in `solve_network`'s darcy pipeline,
as the first three conjuncts show — the loop's derivative sum is exactly
`1e-12`, not below it, and the head-loss sum is nonzero, so the claim's
formula demands `ΔQ = −Σh/Σd = 4e-10 ≠ 0`; the code's `ΔQ` is `0` because
its test `sum_derivative > 1e-12` fails at the boundary. -/
theorem c4_counterexample :
    (validate_and_fix_network c4nodes c4pipes "darcy").2 = c4pipesF ∧
    cycle_basis c4G = [["B", "A", "C"]] ∧
    initFlowsRobust (validate_and_fix_network c4nodes c4pipes "darcy").1 c4pipesF =
      .ok c4flows ∧
    c4walk.2.1 = 1e-12 ∧
    ¬ c4walk.2.1 < 1e-12 ∧
    c4walk.1 ≠ 0 ∧
    loopDelta c4walk.1 c4walk.2.1 = 0 ∧
    specDeltaClaim c4walk.1 c4walk.2.1 = 1/2500000000 ∧
    specDeltaClaim c4walk.1 c4walk.2.1 ≠ loopDelta c4walk.1 c4walk.2.1 :=
  ⟨by with_unfolding_all rfl, by with_unfolding_all rfl, by with_unfolding_all rfl,
   by with_unfolding_all rfl, by with_unfolding_all decide, by with_unfolding_all decide,
   by with_unfolding_all rfl, by with_unfolding_all rfl, by with_unfolding_all decide⟩

end HardyCross

